import Mathlib

/-!
# Transform Flow: line rasterizer, edge detector and feature table

A shallow embedding of `FeaturePoints.cpp` and `FeatureTable.cpp`.

* `int` is modelled by `Int`: the rasterizers use only differences, absolute values and
  comparisons of pixel coordinates, and signed overflow is undefined in C++, so the embedding
  describes every run in which no intermediate value leaves the range of `int`.
* A callback that is invoked once per loop iteration is modelled by the list of its arguments,
  in invocation order.
* Loops whose exit test is not a structural bound take a `fuel` argument and return `none`
  when the fuel is exhausted before the exit test succeeds.
* The floating-point type `RealT` is embedded twice: by exact rationals, and, in the
  namespace `Rounded`, by rationals with a rounding function after every operation of
  `laplace`, `midpoint`, the intensity and the table's fraction and bin index. The type is
  defined in the Euclid library, outside the repository; where a concrete rounding is
  needed it is taken as IEEE 754 binary32.
-/

namespace TransformFlow

/-! ## Line rasterizer (`FeaturePoints.cpp`, lines 18-94) -/

/-- Integer grid coordinate `Vec2i`: `(x, y)`. -/
abbrev Vec2i := Int × Int

/-- The C `abs` on `int`. -/
def iabs (v : Int) : Int := if v < 0 then -v else v

/-- Argument handed to the callback: `{y, x}` when steep, `{x, y}` otherwise. -/
def emit (steep : Bool) (x y : Int) : Vec2i := if steep then (y, x) else (x, y)

/-- The loop `for (int x = start[X]; x < end[X]; x += 1)` of `bresenham_normalized_line`.
The state is `x`, `y` and `error`; the result is the list of callback arguments. -/
def normalized_loop (steep : Bool) (endX dx dy ystep : Int) :
    Nat → Int → Int → Int → Option (List Vec2i)
  | 0, x, _, _ => if x < endX then none else some []
  | fuel + 1, x, y, error =>
    if x < endX then
      let p := emit steep x y
      let error1 := error - dy
      if error1 < 0 then
        (normalized_loop steep endX dx dy ystep fuel (x + 1) (y + ystep) (error1 + dx)).map
          (fun l => p :: l)
      else
        (normalized_loop steep endX dx dy ystep fuel (x + 1) y error1).map (fun l => p :: l)
    else some []

/-- The function `bresenham_normalized_line(start, end, callback)`. Swapping `start[X]` with
`end[X]` and `start[Y]` with `end[Y]` exchanges the two points. -/
def bresenham_normalized_line (start end_ : Vec2i) (fuel : Nat) : Option (List Vec2i) :=
  let steep : Bool := decide (iabs (end_.2 - start.2) > iabs (end_.1 - start.1))
  let s1 : Vec2i := if steep then (start.2, start.1) else start
  let e1 : Vec2i := if steep then (end_.2, end_.1) else end_
  let s2 : Vec2i := if s1.1 > e1.1 then e1 else s1
  let e2 : Vec2i := if s1.1 > e1.1 then s1 else e1
  let dx := e2.1 - s2.1
  let dy := iabs (e2.2 - s2.2)
  let error := Int.tdiv dx 2
  let ystep : Int := if s2.2 < e2.2 then 1 else -1
  normalized_loop steep e2.1 dx dy ystep fuel s2.1 s2.2 error

/-- The loop `for (int x = start[X]; x != end[X]; x += increment)` of
`bresenham_ordered_line`. -/
def ordered_loop (steep : Bool) (endX dx dy ystep increment : Int) :
    Nat → Int → Int → Int → Option (List Vec2i)
  | 0, x, _, _ => if x ≠ endX then none else some []
  | fuel + 1, x, y, error =>
    if x ≠ endX then
      let p := emit steep x y
      let error1 := error - dy
      if error1 < 0 then
        (ordered_loop steep endX dx dy ystep increment fuel (x + increment) (y + ystep)
          (error1 + dx)).map (fun l => p :: l)
      else
        (ordered_loop steep endX dx dy ystep increment fuel (x + increment) y error1).map
          (fun l => p :: l)
    else some []

/-- The function `bresenham_ordered_line(start, end, callback)`. -/
def bresenham_ordered_line (start end_ : Vec2i) (fuel : Nat) : Option (List Vec2i) :=
  let steep : Bool := decide (iabs (end_.2 - start.2) > iabs (end_.1 - start.1))
  let s1 : Vec2i := if steep then (start.2, start.1) else start
  let e1 : Vec2i := if steep then (end_.2, end_.1) else end_
  let dx := iabs (e1.1 - s1.1)
  let dy := iabs (e1.2 - s1.2)
  let error := Int.tdiv dx 2
  let ystep : Int := if s1.2 < e1.2 then 1 else -1
  let increment : Int := if s1.1 < e1.1 then 1 else -1
  ordered_loop steep e1.1 dx dy ystep increment fuel s1.1 s1.2 error

/-- Coordinate along the axis the loop variable `x` runs on. -/
def major (steep : Bool) (p : Vec2i) : Int := if steep then p.2 else p.1

/-- Coordinate along the axis of the loop variable `y`. -/
def minor (steep : Bool) (p : Vec2i) : Int := if steep then p.1 else p.2

/-- Whether the two endpoints make the rasterizers treat Y as the dominant axis. -/
def is_steep (start end_ : Vec2i) : Bool :=
  decide (iabs (end_.2 - start.2) > iabs (end_.1 - start.1))

/-- The number `max(|end.x - start.x|, |end.y - start.y|)` as a natural number. -/
def dominant_length (start end_ : Vec2i) : Nat :=
  max (end_.1 - start.1).natAbs (end_.2 - start.2).natAbs

/-- Relation between two consecutive callback arguments: the major coordinate moves by `inc`
and the minor coordinate by `0`, `+1` or `-1`. -/
def step_rel (steep : Bool) (inc : Int) (p q : Vec2i) : Prop :=
  major steep q = major steep p + inc ∧
    (minor steep q = minor steep p ∨ minor steep q = minor steep p + 1 ∨
      minor steep q = minor steep p - 1)

/-- The claim of exact 8-connected stepping: consecutive coordinates differ by exactly 1 on
the dominant axis (Y when steep, X otherwise) and by at most 1 on the other axis. -/
def unit_step (steep : Bool) (p q : Vec2i) : Prop :=
  if steep then iabs (q.2 - p.2) = 1 ∧ iabs (q.1 - p.1) ≤ 1
  else iabs (q.1 - p.1) = 1 ∧ iabs (q.2 - p.2) ≤ 1

/-! ## Sliding-window edge detector (`FeaturePoints.cpp`, lines 96-271)

`RealT` is modelled by exact rational arithmetic (`NumericT := ℚ`), `std::size_t` by `Nat`:
the detector only forms `k - (H-1)` and `index - 2` with `k ≥ H-1` and `index ≥ 3`, and `k`
counts the samples fed so far, so no unsigned wrap-around occurs. Uninitialised array slots
are represented by `0`; they are overwritten before they are read. The namespace `Rounded`
below repeats `laplace`, `sum`, `midpoint` and the callback with the rounding of `RealT`. -/

/-- Sub-pixel coordinate `Vec2`. -/
abbrev Vec2 := ℚ × ℚ

/-- The data members of `LaplacianGradients<NumericT, H>`: `input[H]`, `k`, `output[2]`. -/
structure LaplacianGradients where
  input : Nat → ℚ
  k : Nat
  output0 : ℚ
  output1 : ℚ

/-- Array store `a[i] = v`. -/
def store {α : Type} (a : Nat → α) (i : Nat) (v : α) : Nat → α :=
  fun j => if j = i then v else a j

/-- The member function `laplace(values, offset)`. -/
def laplace (H : Nat) (values : Nat → ℚ) (offset : Nat) : ℚ :=
  let mid := ((H - 1) / 2 + offset) % H
  let sum := values mid * ((H - 1 : Nat) : ℚ)
  let mid := mid + H
  (List.range' 1 ((H - 1) / 2)).foldl
    (fun sum i => (sum + values ((mid - i) % H) * (-1)) + values ((mid + i) % H) * (-1)) sum

/-- The member function `sum(value, callback)`. The callback reads the gradients object
between the assignment of `output[1]` and the assignment `output[0] = output[1]`, so it is
given that intermediate object; `σ` is the state it mutates. -/
def LaplacianGradients.sum {σ : Type} (H : Nat) (g : LaplacianGradients) (value : ℚ)
    (callback : LaplacianGradients → Nat → σ → σ) (s : σ) : LaplacianGradients × σ :=
  let g1 : LaplacianGradients := { g with input := store g.input (g.k % H) value }
  if g1.k ≥ H - 1 then
    let g2 : LaplacianGradients :=
      { g1 with output1 := laplace H g1.input ((g1.k - (H - 1)) % H) }
    let s2 := if g2.k ≥ H then callback g2 (g2.k - (H - 1) / 2) s else s
    let g3 : LaplacianGradients := { g2 with output0 := g2.output1 }
    ({ g3 with k := g3.k + 1 }, s2)
  else
    ({ g1 with k := g1.k + 1 }, s)

/-- The member function `index()`. -/
def LaplacianGradients.index (H : Nat) (g : LaplacianGradients) : Nat := g.k % H

/-- The member function `at(i)`, named `at_` because `at` is reserved. -/
def LaplacianGradients.at_ (H : Nat) (g : LaplacianGradients) (i : Nat) : ℚ :=
  g.input (i % H)

/-- The member function `variance_left_right(index)`. -/
def LaplacianGradients.variance_left_right (H : Nat) (g : LaplacianGradients)
    (index : Nat) : ℚ :=
  let ia := (g.at_ H (index - 2) + g.at_ H (index - 1)) / 2
  let ib := g.at_ H index
  let ic := (g.at_ H (index + 2) + g.at_ H (index + 1)) / 2
  let dab := ib - ia
  let dbc := ic - ib
  dab * dab + dbc * dbc

/-- The member function `good_edge(index)`. -/
def LaplacianGradients.good_edge (H : Nat) (g : LaplacianGradients) (index : Nat) : Bool :=
  decide (g.variance_left_right H index ≥ 600)

/-- The function `midpoint(a, b)`. -/
def midpoint (a b : ℚ) : ℚ := -a / (b - a)

/-- The inner callback of `features_along_line` (lines 239-269), with `H = 5`. The library
function `linear_interpolate` is the parameter `interp`. -/
def zero_crossing (interp : ℚ → Vec2 → Vec2 → Vec2) (offsets : Nat → Vec2)
    (gradients : LaplacianGradients) (index : Nat) (features : List Vec2) : List Vec2 :=
  let a := gradients.output0
  let b := gradients.output1
  if a ≠ 0 ∧ b = 0 then
    if gradients.good_edge 5 index = false then features
    else features ++ [offsets (index % 5)]
  else if (a < 0 ∧ b > 0) ∨ (b < 0 ∧ a > 0) then
    if gradients.good_edge 5 index = false then features
    else features ++ [interp (midpoint a b) (offsets ((index - 1) % 5)) (offsets (index % 5))]
  else features

/-- The local state of `features_along_line` that the rasterizer callback updates. -/
structure ScanState where
  gradients : LaplacianGradients
  offsets : Nat → Vec2
  features : List Vec2

/-- State at the start of a scan line, before the first sample. -/
def ScanState.init (features : List Vec2) : ScanState :=
  ⟨⟨fun _ => 0, 0, 0, 0⟩, fun _ => (0, 0), features⟩

/-- The part of the rasterizer callback of `features_along_line` that follows the pixel read
(lines 237-269): record the coordinate, then feed the intensity to `gradients.sum`. -/
def sample_step (interp : ℚ → Vec2 → Vec2 → Vec2) (st : ScanState) (image_offset : Vec2)
    (intensity : ℚ) : ScanState :=
  let offsets := store st.offsets (st.gradients.index 5) image_offset
  let r := st.gradients.sum 5 intensity (zero_crossing interp offsets) st.features
  ⟨r.1, offsets, r.2⟩

/-- The edge detector driven over a sequence of (coordinate, intensity) samples: the feature
list after the last sample. -/
def detect (interp : ℚ → Vec2 → Vec2 → Vec2) (samples : List (Vec2 × ℚ))
    (features : List Vec2) : List Vec2 :=
  (samples.foldl (fun st s => sample_step interp st s.1 s.2) (ScanState.init features)).features

/-- The image collaborator: its width and height (`image->size()`) and the three channel
values at a pixel. -/
structure Image where
  width : Nat
  height : Nat
  read : Vec2i → Nat × Nat × Nat

/-- The function `FeaturePoints::features_along_line(image, start, end, features)`. -/
def features_along_line (interp : ℚ → Vec2 → Vec2 → Vec2) (image : Image)
    (start end_ : Vec2i) (features : List Vec2) (fuel : Nat) : Option (List Vec2) :=
  let start1 : Vec2i := (start.1, (image.height : Int) - start.2)
  let end1 : Vec2i := (end_.1, (image.height : Int) - end_.2)
  (bresenham_normalized_line start1 end1 fuel).map (fun pts =>
    detect interp (pts.map (fun offset =>
      let px := image.read offset
      let intensity : ℚ := ((px.1 : ℚ) + (px.2.1 : ℚ) + (px.2.2 : ℚ)) / 3
      let image_offset : Vec2 := ((offset.1 : ℚ), (image.height : ℚ) - (offset.2 : ℚ))
      (image_offset, intensity))) features)

/-- The samples `0 .. N-1` of a coordinate sequence `c` and an intensity sequence `s`. -/
def samples_of (c : Nat → Vec2) (s : Nat → ℚ) (N : Nat) : List (Vec2 × ℚ) :=
  (List.range N).map (fun j => (c j, s j))

/-- A step edge: `n` samples of value `lo` followed by samples of value `hi`. -/
def step_edge (n : Nat) (lo hi : ℚ) : Nat → ℚ := fun j => if j < n then lo else hi

/-- Discrete Laplacian of a sample sequence centred on sample `c`: centre weighted 4, the
two neighbours on each side weighted -1. -/
def laplacian_at (s : Nat → ℚ) (c : Nat) : ℚ :=
  4 * s c - s (c - 2) - s (c - 1) - s (c + 1) - s (c + 2)

/-- Local contrast of a sample sequence around sample `c`: squared differences between the
centre and the mean of the two samples on each side. -/
def contrast_at (s : Nat → ℚ) (c : Nat) : ℚ :=
  (s c - (s (c - 2) + s (c - 1)) / 2) * (s c - (s (c - 2) + s (c - 1)) / 2) +
    ((s (c + 2) + s (c + 1)) / 2 - s c) * ((s (c + 2) + s (c + 1)) / 2 - s c)

/-- The features reported while sample `k` (0-based) is fed, in terms of the sample
sequence itself rather than the circular buffers. -/
def candidate_at (interp : ℚ → Vec2 → Vec2 → Vec2) (c : Nat → Vec2) (s : Nat → ℚ)
    (k : Nat) : List Vec2 :=
  if k < 5 then []
  else if laplacian_at s (k - 3) ≠ 0 ∧ laplacian_at s (k - 2) = 0 then
    if contrast_at s (k - 2) < 600 then [] else [c (k - 2)]
  else if (laplacian_at s (k - 3) < 0 ∧ laplacian_at s (k - 2) > 0) ∨
      (laplacian_at s (k - 2) < 0 ∧ laplacian_at s (k - 3) > 0) then
    if contrast_at s (k - 2) < 600 then []
    else [interp (midpoint (laplacian_at s (k - 3)) (laplacian_at s (k - 2)))
      (c (k - 3)) (c (k - 2))]
  else []

/-- The scan state after the samples `0 .. k-1` of `c` and `s` have been fed. -/
def run (interp : ℚ → Vec2 → Vec2 → Vec2) (c : Nat → Vec2) (s : Nat → ℚ)
    (features : List Vec2) : Nat → ScanState
  | 0 => ScanState.init features
  | k + 1 => sample_step interp (run interp c s features k) (c k) (s k)

/-- Invariant relating the circular buffers after `k` samples to the sequences `c`, `s`:
the sample counter is `k`, the slots of the last five samples hold them, and from the fifth
sample on `output[0]` is the Laplacian centred on sample `k - 3`. -/
def run_inv (c : Nat → Vec2) (s : Nat → ℚ) (st : ScanState) (k : Nat) : Prop :=
  st.gradients.k = k ∧
  (∀ j, j < k → k ≤ j + 5 → st.gradients.input (j % 5) = s j) ∧
  (∀ j, j < k → k ≤ j + 5 → st.offsets (j % 5) = c j) ∧
  (5 ≤ k → st.gradients.output0 = laplacian_at s (k - 3))

/-- Modelled from the spec: `linear_interpolate(t, a, b)` of the Euclid geometry library,
which is not part of the repository; the spec describes it as the coordinate linearly
interpolated between the two positions by `t`, that is `a + t * (b - a)`. -/
def linear_interpolate (t : ℚ) (a b : Vec2) : Vec2 :=
  (a.1 + t * (b.1 - a.1), a.2 + t * (b.2 - a.2))

/-! ## Feature table (`FeatureTable.cpp`)

Pointers to links (`Chain *`) are modelled by addresses `(bin, position)`; links are only
ever appended to a bin, so an address denotes the same link for the lifetime of the table.
The vector `_bins` is modelled by its size and a function from the bin index to the bin's
links. `RealT` is modelled by exact rationals; the namespace `Rounded` below repeats `update`
with the rounding of `RealT` in the fraction and the bin index. -/

/-- Address of a link: bin index and position inside the bin's `links`. -/
abbrev Addr := Nat × Nat

/-- The struct `FeatureTable::Chain`: `{aligned_offset, offset, next}`. -/
structure Chain where
  aligned_offset : Vec2
  offset : Vec2
  next : Option Addr
  deriving DecidableEq

/-- Modelled from the spec: the axis-aligned box `AlignedBox2` of the Euclid geometry
library, which is not part of the repository, given by its minimum and maximum corner. -/
structure AlignedBox2 where
  min : Vec2
  max : Vec2
  deriving DecidableEq

/-- Modelled from the spec: `AlignedBox2::union_with_point` of the Euclid geometry library:
the smallest box that contains the box and the point. -/
def AlignedBox2.union_with_point (b : AlignedBox2) (p : Vec2) : AlignedBox2 :=
  ⟨(Min.min b.min.1 p.1, Min.min b.min.2 p.2), (Max.max b.max.1 p.1, Max.max b.max.2 p.2)⟩

/-- The data members of `FeatureTable`: `_transform` (as the map it applies to a point),
`_bounds`, `_bins` (size and contents) and `_chains`. -/
structure FeatureTable where
  transform : Vec2 → Vec2
  bounds : AlignedBox2
  size : Nat
  bins : Nat → List Chain
  chains : List Addr

/-- The constructor `FeatureTable(bins, bounds, rotation)`. The affine map built from the
rotation and the translation by `-bounds.size() / 2` is the parameter `transform`;
`_bounds` starts as `ZERO` and is united with the images of the four corners. -/
def FeatureTable.new (bins : Nat) (bounds : AlignedBox2) (transform : Vec2 → Vec2) :
    FeatureTable :=
  let b0 : AlignedBox2 := ⟨(0, 0), (0, 0)⟩
  let b1 := b0.union_with_point (transform bounds.min)
  let b2 := b1.union_with_point (transform bounds.max)
  let b3 := b2.union_with_point (transform (bounds.min.1, bounds.max.2))
  let b4 := b3.union_with_point (transform (bounds.max.1, bounds.min.2))
  ⟨transform, b4, bins, fun _ => [], []⟩

/-- Componentwise absolute value `Vec2::absolute()`. -/
def absolute (v : Vec2) : Vec2 := (|v.1|, |v.2|)

/-- Square of the Euclidean norm. `Vec2::length()` is the Euclidean norm of the Euclid
library; the square root is strictly increasing on non-negative numbers, so the comparison
`u.length() < v.length()` is the comparison `length_sq u < length_sq v`. -/
def length_sq (v : Vec2) : ℚ := v.1 * v.1 + v.2 * v.2

/-- One iteration of the loop over bins in `find_previous_similar`, on the pair
`(best_chain, best_displacement)`. -/
def consider_bin (T : FeatureTable) (aligned_offset : Vec2) (best : Option (Addr × Vec2))
    (bin : Nat) : Option (Addr × Vec2) :=
  match (T.bins bin).getLast? with
  | none => best
  | some previous_chain =>
    let displacement : Vec2 := absolute (aligned_offset.1 - previous_chain.aligned_offset.1,
      aligned_offset.2 - previous_chain.aligned_offset.2)
    if displacement.1 > 4 ∨ displacement.2 > 25 then best
    else
      match best with
      | none => some ((bin, (T.bins bin).length - 1), displacement)
      | some (best_chain, best_displacement) =>
        if length_sq displacement < length_sq best_displacement then
          some ((bin, (T.bins bin).length - 1), displacement)
        else some (best_chain, best_displacement)

/-- The member function `find_previous_similar(aligned_offset, index)`; `none` is
`nullptr`. The iterators `begin`, `end` are bin indices. -/
def FeatureTable.find_previous_similar (T : FeatureTable) (aligned_offset : Vec2)
    (index : Nat) : Option Addr :=
  let begin_ := if index ≠ 0 then index - 1 else index
  let end_ := if index + 1 ≠ T.size then index + 1 + 1 else index + 1
  ((List.range' begin_ (end_ - begin_)).foldl (consider_bin T aligned_offset) none).map
    Prod.fst

/-- The assignment `link->next = target` on the link at position `i` of a bin. -/
def set_next : List Chain → Nat → Addr → List Chain
  | [], _, _ => []
  | l :: ls, 0, t => { l with next := some t } :: ls
  | l :: ls, i + 1, t => l :: set_next ls i t

/-- The body of the loop of `update` for one point. The result is `none` when
`DREAM_ASSERT(f >= 0 && f < 1)` fails or `_bins.at(index)` throws. A zero width makes the
floating-point quotient infinite or NaN, for which the assertion fails. -/
def FeatureTable.update_one (T : FeatureTable) (offset : Vec2) : Option FeatureTable :=
  let aligned_offset := T.transform offset
  let width := T.bounds.max.1 - T.bounds.min.1
  if width = 0 then none
  else
    let f := (aligned_offset.1 - T.bounds.min.1) / width
    if ¬ (f ≥ 0 ∧ f < 1) then none
    else
      let index := ⌊f * (T.size : ℚ)⌋.toNat
      if ¬ index < T.size then none
      else
        let previous_link := T.find_previous_similar aligned_offset index
        let position := (T.bins index).length
        let bins1 : Nat → List Chain :=
          fun b => if b = index then T.bins b ++ [⟨aligned_offset, offset, none⟩] else T.bins b
        match previous_link with
        | some previous =>
          some { T with
            bins := fun b =>
              if b = previous.1 then set_next (bins1 b) previous.2 (index, position)
              else bins1 b }
        | none => some { T with bins := bins1, chains := T.chains ++ [(index, position)] }

/-- The member function `update(offsets)`. -/
def FeatureTable.update (T : FeatureTable) : List Vec2 → Option FeatureTable
  | [] => some T
  | offset :: rest => (T.update_one offset).bind (fun T1 => T1.update rest)

/-- The link stored at an address, if any. -/
def FeatureTable.link_at (T : FeatureTable) (a : Addr) : Option Chain := (T.bins a.1)[a.2]?

/-- The addresses visited by following `next` from `a`, at most `fuel` links. -/
def FeatureTable.follow (T : FeatureTable) : Nat → Addr → List Addr
  | 0, _ => []
  | fuel + 1, a =>
    match T.link_at a with
    | none => []
    | some l =>
      match l.next with
      | none => [a]
      | some t => a :: T.follow fuel t

/-- Number of links stored in the bins `0 .. size-1`. -/
def FeatureTable.link_count (T : FeatureTable) : Nat :=
  ((List.range T.size).map (fun b => (T.bins b).length)).sum

/-- The addresses reachable from some chain head by following `next`. -/
def FeatureTable.reachable (T : FeatureTable) : List Addr :=
  T.chains.flatMap (fun h => T.follow T.link_count h)

/-- The normalized fraction `f` that `update` computes for a point. -/
def FeatureTable.fraction (T : FeatureTable) (offset : Vec2) : ℚ :=
  ((T.transform offset).1 - T.bounds.min.1) / (T.bounds.max.1 - T.bounds.min.1)

/-- The bin index `f * _bins.size()` converted to `std::size_t`. -/
def FeatureTable.bin_index (T : FeatureTable) (offset : Vec2) : Nat :=
  ⌊T.fraction offset * (T.size : ℚ)⌋.toNat

/-- The address at which `update` stores the link of a point. -/
def FeatureTable.new_addr (T : FeatureTable) (offset : Vec2) : Addr :=
  (T.bin_index offset, (T.bins (T.bin_index offset)).length)

/-- The bins after `bin.links.push_back({aligned_offset, offset, nullptr})`. -/
def FeatureTable.pushed (T : FeatureTable) (offset : Vec2) : Nat → List Chain :=
  fun b => if b = T.bin_index offset then T.bins b ++ [⟨T.transform offset, offset, none⟩]
    else T.bins b

/-- Bin `b` is one of the bins `index - 1`, `index`, `index + 1` that exist. -/
def is_neighbour (size index b : Nat) : Prop :=
  b < size ∧ (b + 1 = index ∨ b = index ∨ b = index + 1)

/-- A link lies within the displacement tolerance (4 horizontally, 25 vertically) of an
aligned point. -/
def within_tolerance (p : Vec2) (l : Chain) : Prop :=
  |p.1 - l.aligned_offset.1| ≤ 4 ∧ |p.2 - l.aligned_offset.2| ≤ 25

/-- Squared Euclidean displacement between an aligned point and a link. -/
def dist_sq (p : Vec2) (l : Chain) : ℚ :=
  (p.1 - l.aligned_offset.1) ^ 2 + (p.2 - l.aligned_offset.2) ^ 2

/-- What the pair `(best_chain, best_displacement)` is after the bins `bs` have been
examined: nothing when no last link is within tolerance; otherwise the last link of a bin of
`bs` that is within tolerance and nearest, the first such bin when several are nearest. -/
def is_best (T : FeatureTable) (p : Vec2) (bs : List Nat) : Option (Addr × Vec2) → Prop
  | none => ∀ b ∈ bs, ∀ l, (T.bins b).getLast? = some l → ¬ within_tolerance p l
  | some (a, d) =>
    a.1 ∈ bs ∧ ∃ l, (T.bins a.1).getLast? = some l ∧ a.2 + 1 = (T.bins a.1).length ∧
      length_sq d = dist_sq p l ∧ within_tolerance p l ∧
      ∀ b ∈ bs, ∀ l1, (T.bins b).getLast? = some l1 → within_tolerance p l1 →
        dist_sq p l ≤ dist_sq p l1 ∧ (dist_sq p l1 = dist_sq p l → a.1 ≤ b)

/-- A fresh table with three bins for the image box `[0, 30] x [0, 100]` with the identity
as transform, used to instantiate statements about `update`. -/
def fresh_table : FeatureTable := FeatureTable.new 3 ⟨(0, 0), (30, 100)⟩ id

/-- The table `fresh_table` after the points (11, 0), (11, 20), (11, 40) have been inserted
in this order. -/
def in_order_table : FeatureTable :=
  (fresh_table.update [(11, 0), (11, 20), (11, 40)]).getD fresh_table

/-- The table `fresh_table` after the same points have been inserted in the order (11, 0),
(11, 40), (11, 20). -/
def out_of_order_table : FeatureTable :=
  (fresh_table.update [(11, 0), (11, 40), (11, 20)]).getD fresh_table

/-- The two ways in which `update` can stop: the fatal `DREAM_ASSERT(f >= 0 && f < 1)`, and
the `std::out_of_range` exception thrown by `_bins.at(index)`. -/
inductive UpdateError where
  | assertion : UpdateError
  | out_of_range : UpdateError
  deriving DecidableEq

/-- The body of the loop of `update` for one point, as `update_one`, with the kind of
failure made explicit. -/
def FeatureTable.update_one_checked (T : FeatureTable) (offset : Vec2) :
    Except UpdateError FeatureTable :=
  let aligned_offset := T.transform offset
  let width := T.bounds.max.1 - T.bounds.min.1
  if width = 0 then Except.error UpdateError.assertion
  else
    let f := (aligned_offset.1 - T.bounds.min.1) / width
    if ¬ (f ≥ 0 ∧ f < 1) then Except.error UpdateError.assertion
    else
      let index := ⌊f * (T.size : ℚ)⌋.toNat
      if ¬ index < T.size then Except.error UpdateError.out_of_range
      else
        let previous_link := T.find_previous_similar aligned_offset index
        let position := (T.bins index).length
        let bins1 : Nat → List Chain :=
          fun b => if b = index then T.bins b ++ [⟨aligned_offset, offset, none⟩] else T.bins b
        match previous_link with
        | some previous =>
          Except.ok { T with
            bins := fun b =>
              if b = previous.1 then set_next (bins1 b) previous.2 (index, position)
              else bins1 b }
        | none =>
          Except.ok { T with bins := bins1, chains := T.chains ++ [(index, position)] }

/-- The member function `update(offsets)` with the kind of failure made explicit. -/
def FeatureTable.update_checked (T : FeatureTable) :
    List Vec2 → Except UpdateError FeatureTable
  | [] => Except.ok T
  | offset :: rest =>
    match T.update_one_checked offset with
    | Except.error e => Except.error e
    | Except.ok T1 => T1.update_checked rest

/-- The failure of `update(offsets)`, if it fails. -/
def FeatureTable.update_error (T : FeatureTable) (offsets : List Vec2) : Option UpdateError :=
  match T.update_checked offsets with
  | Except.error e => some e
  | Except.ok _ => none

/-- The normalized fraction of a point lies in `[0, 1)`. For a bounding box of zero width the
floating-point quotient is infinite or NaN, which does not lie in `[0, 1)`. -/
def FeatureTable.in_unit (T : FeatureTable) (offset : Vec2) : Prop :=
  T.bounds.max.1 - T.bounds.min.1 ≠ 0 ∧ 0 ≤ T.fraction offset ∧ T.fraction offset < 1

/-- A table without bins for the image box `[0, 30] x [0, 100]`. -/
def empty_table : FeatureTable := FeatureTable.new 0 ⟨(0, 0), (30, 100)⟩ id

/-- A point lies in an axis-aligned box. -/
def AlignedBox2.contains (b : AlignedBox2) (p : Vec2) : Prop :=
  b.min.1 ≤ p.1 ∧ p.1 ≤ b.max.1 ∧ b.min.2 ≤ p.2 ∧ p.2 ≤ b.max.2

/-- The first box lies inside the second. -/
def AlignedBox2.inside (a b : AlignedBox2) : Prop :=
  b.min.1 ≤ a.min.1 ∧ a.max.1 ≤ b.max.1 ∧ b.min.2 ≤ a.min.2 ∧ a.max.2 ≤ b.max.2

/-- The smallest axis-aligned box that contains four points. -/
def corner_box (p1 p2 p3 p4 : Vec2) : AlignedBox2 :=
  ⟨(Min.min (Min.min (Min.min p1.1 p2.1) p3.1) p4.1,
    Min.min (Min.min (Min.min p1.2 p2.2) p3.2) p4.2),
   (Max.max (Max.max (Max.max p1.1 p2.1) p3.1) p4.1,
    Max.max (Max.max (Max.max p1.2 p2.2) p3.2) p4.2)⟩

/-- The transform the constructor builds for rotation 0: the translation by
`-bounds.size() / 2`. -/
def centre_translation (bounds : AlignedBox2) : Vec2 → Vec2 :=
  fun p => (p.1 - (bounds.max.1 - bounds.min.1) / 2, p.2 - (bounds.max.2 - bounds.min.2) / 2)

/-- The input bounds `[10, 20] x [10, 20]`, a box that does not start at the origin. -/
def offset_bounds : AlignedBox2 := ⟨(10, 10), (20, 20)⟩

/-- The coordinates at which `features_along_line` reads the image, in sampling order: the
arguments with which the rasterizer invokes the callback. -/
def sampled_coordinates (image : Image) (start end_ : Vec2i) (fuel : Nat) :
    Option (List Vec2i) :=
  let start1 : Vec2i := (start.1, (image.height : Int) - start.2)
  let end1 : Vec2i := (end_.1, (image.height : Int) - end_.2)
  bresenham_normalized_line start1 end1 fuel

/-- A black image of 10 by 10 pixels. -/
def black_image : Image := ⟨10, 10, fun _ => (0, 0, 0)⟩

/-- The values `(x, y, error)` of the loop of `bresenham_ordered_line` at every evaluation
of the loop test `x != end[X]`, the one that leaves the loop included. -/
def ordered_states (endX dx dy ystep increment : Int) :
    Nat → Int → Int → Int → Option (List (Int × Int × Int))
  | 0, x, y, error => if x ≠ endX then none else some [(x, y, error)]
  | fuel + 1, x, y, error =>
    if x ≠ endX then
      let error1 := error - dy
      if error1 < 0 then
        (ordered_states endX dx dy ystep increment fuel (x + increment) (y + ystep)
          (error1 + dx)).map (fun l => (x, y, error) :: l)
      else
        (ordered_states endX dx dy ystep increment fuel (x + increment) y error1).map
          (fun l => (x, y, error) :: l)
    else some [(x, y, error)]

/-- The loop states of `bresenham_ordered_line(start, end, callback)`. -/
def bresenham_ordered_states (start end_ : Vec2i) (fuel : Nat) :
    Option (List (Int × Int × Int)) :=
  let steep : Bool := decide (iabs (end_.2 - start.2) > iabs (end_.1 - start.1))
  let s1 : Vec2i := if steep then (start.2, start.1) else start
  let e1 : Vec2i := if steep then (end_.2, end_.1) else end_
  let dx := iabs (e1.1 - s1.1)
  let dy := iabs (e1.2 - s1.2)
  let error := Int.tdiv dx 2
  let ystep : Int := if s1.2 < e1.2 then 1 else -1
  let increment : Int := if s1.1 < e1.1 then 1 else -1
  ordered_states e1.1 dx dy ystep increment fuel s1.1 s1.2 error

/-- The values `(x, y, error)` of the loop of `bresenham_normalized_line` at every
evaluation of the loop test `x < end[X]`, the one that leaves the loop included. -/
def normalized_states (endX dx dy ystep : Int) :
    Nat → Int → Int → Int → Option (List (Int × Int × Int))
  | 0, x, y, error => if x < endX then none else some [(x, y, error)]
  | fuel + 1, x, y, error =>
    if x < endX then
      let error1 := error - dy
      if error1 < 0 then
        (normalized_states endX dx dy ystep fuel (x + 1) (y + ystep) (error1 + dx)).map
          (fun l => (x, y, error) :: l)
      else
        (normalized_states endX dx dy ystep fuel (x + 1) y error1).map
          (fun l => (x, y, error) :: l)
    else some [(x, y, error)]

/-- The loop states of `bresenham_normalized_line(start, end, callback)`. -/
def bresenham_normalized_states (start end_ : Vec2i) (fuel : Nat) :
    Option (List (Int × Int × Int)) :=
  let steep : Bool := decide (iabs (end_.2 - start.2) > iabs (end_.1 - start.1))
  let s1 : Vec2i := if steep then (start.2, start.1) else start
  let e1 : Vec2i := if steep then (end_.2, end_.1) else end_
  let s2 : Vec2i := if s1.1 > e1.1 then e1 else s1
  let e2 : Vec2i := if s1.1 > e1.1 then s1 else e1
  let dx := e2.1 - s2.1
  let dy := iabs (e2.2 - s2.2)
  let error := Int.tdiv dx 2
  let ystep : Int := if s2.2 < e2.2 then 1 else -1
  normalized_states e2.1 dx dy ystep fuel s2.1 s2.2 error

/-- The coordinates emitted along a list of loop states: the callback is invoked with every
state but the one that leaves the loop. -/
def emitted (steep : Bool) (states : List (Int × Int × Int)) : List Vec2i :=
  states.dropLast.map (fun s => emit steep s.1 s.2.1)

/-- The endpoint with the smaller dominant-axis coordinate, at which the normalized
rasterizer starts (the first argument when both are equal). -/
def first_endpoint (a b : Vec2i) : Vec2i :=
  if major (is_steep a b) a ≤ major (is_steep a b) b then a else b

/-- The endpoint with the larger dominant-axis coordinate, towards which the normalized
rasterizer runs. -/
def last_endpoint (a b : Vec2i) : Vec2i :=
  if major (is_steep a b) a ≤ major (is_steep a b) b then b else a

/-! ## Feature scanner (`FeaturePoints::scan`, `FeaturePoints.cpp`, lines 281-340)

The rotations `rotate<Z>(tilt)` and `rotate<Z>(-tilt)` and the transform the table builds from
the tilt are parameters. `RealT` is modelled by exact rationals; the namespace `Rounded` below
repeats the scan with the rounding of `RealT` in the intensities, the detector and the
table. -/

/-- The conversion of a floating-point value to `int`, which truncates toward zero. -/
def truncate (q : ℚ) : Int := if 0 ≤ q then ⌊q⌋ else ⌈q⌉

/-- The conversion of the `Vec2` arguments `start`, `end` that `scan` passes to the `Vec2i`
parameters of `features_along_line`. -/
def to_Vec2i (v : Vec2) : Vec2i := (truncate v.1, truncate v.2)

/-- Modelled from the spec: one axis of `LineSegment2::clip` of the Euclid geometry library.
The parameters `t` in the interval `range` for which `s + t * d` lies in `[lo, hi]`, if
any. -/
def clip_axis (s d lo hi : ℚ) (range : ℚ × ℚ) : Option (ℚ × ℚ) :=
  if d = 0 then (if lo ≤ s ∧ s ≤ hi then some range else none)
  else
    let ta := (lo - s) / d
    let tb := (hi - s) / d
    let t0 := Max.max range.1 (Min.min ta tb)
    let t1 := Min.min range.2 (Max.max ta tb)
    if t0 ≤ t1 then some (t0, t1) else none

/-- Modelled from the spec: `LineSegment2::clip` of the Euclid geometry library, which is
not part of the repository: line-segment clipping against a box, returning the part of the
segment inside the box, in the direction of the segment, or nothing when they do not meet. -/
def clip (segment : Vec2 × Vec2) (box : AlignedBox2) : Option (Vec2 × Vec2) :=
  let d : Vec2 := (segment.2.1 - segment.1.1, segment.2.2 - segment.1.2)
  (clip_axis segment.1.1 d.1 box.min.1 box.max.1 (0, 1)).bind (fun r1 =>
    (clip_axis segment.1.2 d.2 box.min.2 box.max.2 r1).map (fun r =>
      ((segment.1.1 + r.1 * d.1, segment.1.2 + r.1 * d.2),
        (segment.1.1 + r.2 * d.1, segment.1.2 + r.2 * d.2))))

/-- The box `clipping_box` of `scan`: centred on the image, 98% of its size. -/
def clipping_box (image : Image) : AlignedBox2 :=
  let size : Vec2 := ((image.width : ℚ), (image.height : ℚ))
  let center : Vec2 := (size.1 / 2, size.2 / 2)
  let shrunk : Vec2 := (size.1 * (98 / 100), size.2 * (98 / 100))
  ⟨(center.1 - shrunk.1 / 2, center.2 - shrunk.2 / 2),
    (center.1 + shrunk.1 / 2, center.2 + shrunk.2 / 2)⟩

/-- The control of the loop `for (auto y = min[Y] + dy; (y + dy) < max[Y]; y += dy)` of
`scan`: the values of `y` for which the body runs. The body changes neither `y`, `dy` nor
the bounding box. -/
def scan_line_positions (max_y : ℚ) (dy : Nat) : Nat → ℚ → Option (List ℚ)
  | 0, y => if y + (dy : ℚ) < max_y then none else some []
  | fuel + 1, y =>
    if y + (dy : ℚ) < max_y then
      (scan_line_positions max_y dy fuel (y + (dy : ℚ))).map (fun l => y :: l)
    else some []

/-- The body of the scan-line loop for one `y`, on the pair `(_segments, _offsets)`. -/
def scan_line (interp : ℚ → Vec2 → Vec2 → Vec2) (rotation_inv : Vec2 → Vec2) (source : Image)
    (bounding_box : AlignedBox2) (fuel : Nat) (st : List (Vec2 × Vec2) × List Vec2) (y : ℚ) :
    Option (List (Vec2 × Vec2) × List Vec2) :=
  let min : Vec2 := (bounding_box.min.1, y)
  let max : Vec2 := (bounding_box.max.1, y)
  let segment : Vec2 × Vec2 := (rotation_inv min, rotation_inv max)
  match clip segment (clipping_box source) with
  | none => some st
  | some clipped_segment =>
    (features_along_line interp source (to_Vec2i clipped_segment.1)
      (to_Vec2i clipped_segment.2) st.2 fuel).map
      (fun offsets => (st.1 ++ [clipped_segment], offsets))

/-- The scan-line loop over the positions `ys`. -/
def scan_lines (interp : ℚ → Vec2 → Vec2 → Vec2) (rotation_inv : Vec2 → Vec2) (source : Image)
    (bounding_box : AlignedBox2) (fuel : Nat) :
    List ℚ → List (Vec2 × Vec2) × List Vec2 → Option (List (Vec2 × Vec2) × List Vec2)
  | [], st => some st
  | y :: ys, st =>
    (scan_line interp rotation_inv source bounding_box fuel st y).bind
      (scan_lines interp rotation_inv source bounding_box fuel ys)

/-- The data members of `FeaturePoints`. -/
structure FeaturePoints where
  source : Option Image
  offsets : List Vec2
  segments : List (Vec2 × Vec2)
  bounding_box : AlignedBox2
  table : Option FeatureTable

/-- The member function `scan(source, tilt, dy)`. The result is `none` when a loop runs out
of fuel or the table update fails. The table is built with `dy` bins for the image box; the
further argument `2` of the call has no counterpart in the constructor of
`FeatureTable.cpp`. -/
def FeaturePoints.scan (interp : ℚ → Vec2 → Vec2 → Vec2)
    (rotation rotation_inv table_transform : Vec2 → Vec2) (self : FeaturePoints)
    (source : Image) (dy : Nat) (fuel : Nat) : Option FeaturePoints :=
  if self.offsets.length ≠ 0 then some self
  else
    let size : Vec2 := ((source.width : ℚ), (source.height : ℚ))
    let image_box : AlignedBox2 := ⟨(0, 0), size⟩
    let b0 : AlignedBox2 := ⟨(0, 0), (0, 0)⟩
    let b1 := b0.union_with_point (rotation size)
    let b2 := b1.union_with_point (rotation (size.1, 0))
    let bounds := b2.union_with_point (rotation (0, size.2))
    (scan_line_positions bounds.max.2 dy fuel (bounds.min.2 + (dy : ℚ))).bind (fun ys =>
      (scan_lines interp rotation_inv source bounds fuel ys
        (self.segments, self.offsets)).bind (fun r =>
        ((FeatureTable.new dy image_box table_transform).update r.2).map (fun table =>
          ⟨some source, r.2, r.1, bounds, some table⟩)))

/-- A scanner that has not scanned yet. -/
def FeaturePoints.fresh : FeaturePoints := ⟨none, [], [], ⟨(0, 0), (0, 0)⟩, none⟩

/-- A scanner that already holds one feature point. -/
def populated_scanner : FeaturePoints := ⟨none, [(3, 4)], [], ⟨(0, 0), (0, 0)⟩, none⟩

/-- A black image of 50 by 50 pixels. -/
def small_image : Image := ⟨50, 50, fun _ => (0, 0, 0)⟩

/-- The intensity `Vec3(PixelT(image_reader[offset])).sum() / 3.0` that `features_along_line`
computes from a pixel. -/
def intensity (px : Nat × Nat × Nat) : ℚ := ((px.1 : ℚ) + (px.2.1 : ℚ) + (px.2.2 : ℚ)) / 3

/-- A gradients object before the first sample: `k = 0`, and the arrays `input` and `output`,
which the struct does not initialise, hold arbitrary values. -/
def garbage_gradients : LaplacianGradients := ⟨fun j => 7 + (j : ℚ), 0, 3, 9⟩

/-! ## Rounded arithmetic (`RealT`)

The source computes the intensities, the Laplacian, the interpolation fraction and the bin
index in the floating-point type `RealT`. In the definitions of the namespace `Rounded` every
one of these operations is followed by a rounding `fl : ℚ → ℚ`, a parameter: `fl x` is the
`RealT` value that the operation with exact result `x` returns. Coordinates, bounds and the
contrast statistic are as in the definitions above. -/

/-- The integer nearest to `q`, the even one when two are equally near. -/
def round_half_even (q : ℚ) : Int :=
  if q - (⌊q⌋ : ℚ) < 1 / 2 then ⌊q⌋
  else if 1 / 2 < q - (⌊q⌋ : ℚ) then ⌊q⌋ + 1
  else if ⌊q⌋ % 2 = 0 then ⌊q⌋ else ⌊q⌋ + 1

/-- Scaling of a non-negative number `m * u` to a 24-bit significand: `m` is halved or
doubled, and the unit `u` doubled or halved, until `2^23 ≤ m < 2^24` or the unit is the
smallest one, `2^-149`. -/
def scale_significand : Nat → ℚ → ℚ → ℚ × ℚ
  | 0, m, u => (m, u)
  | fuel + 1, m, u =>
    if 16777216 ≤ m then scale_significand fuel (m / 2) (u * 2)
    else if m < 8388608 ∧ 1 / 713623846352979940529142984724747568191373312 < u then
      scale_significand fuel (m * 2) (u / 2)
    else (m, u)

/-- Modelled from the spec: the floating-point type `RealT` of the Euclid library, which is
not part of the repository, taken as IEEE 754 binary32 (`float`): the rounding of a rational
to the nearest number with a 24-bit significand, ties to the even significand. Overflow to
infinity is not modelled; the values of the detector and the table stay far below it. -/
def binary32 (q : ℚ) : ℚ :=
  if q < 0 then
    -(((round_half_even (scale_significand 400 (-q) 1).1 : Int) : ℚ) *
      (scale_significand 400 (-q) 1).2)
  else
    ((round_half_even (scale_significand 400 q 1).1 : Int) : ℚ) * (scale_significand 400 q 1).2

namespace Rounded

/-- The member function `laplace(values, offset)` with the arithmetic of `NumericT = RealT`:
the product `values[mid] * (H-1)`, every product `values[..] * -1` and every `sum += ..` is
rounded. -/
def laplace (fl : ℚ → ℚ) (H : Nat) (values : Nat → ℚ) (offset : Nat) : ℚ :=
  let mid := ((H - 1) / 2 + offset) % H
  let sum := fl (values mid * ((H - 1 : Nat) : ℚ))
  let mid := mid + H
  (List.range' 1 ((H - 1) / 2)).foldl
    (fun sum i => fl (fl (sum + fl (values ((mid - i) % H) * (-1))) +
      fl (values ((mid + i) % H) * (-1)))) sum

/-- The member function `sum(value, callback)`, with the rounded `laplace`. -/
def sum {σ : Type} (fl : ℚ → ℚ) (H : Nat) (g : LaplacianGradients) (value : ℚ)
    (callback : LaplacianGradients → Nat → σ → σ) (s : σ) : LaplacianGradients × σ :=
  let g1 : LaplacianGradients := { g with input := store g.input (g.k % H) value }
  if g1.k ≥ H - 1 then
    let g2 : LaplacianGradients :=
      { g1 with output1 := laplace fl H g1.input ((g1.k - (H - 1)) % H) }
    let s2 := if g2.k ≥ H then callback g2 (g2.k - (H - 1) / 2) s else s
    let g3 : LaplacianGradients := { g2 with output0 := g2.output1 }
    ({ g3 with k := g3.k + 1 }, s2)
  else
    ({ g1 with k := g1.k + 1 }, s)

/-- The function `midpoint(a, b)` on `RealT`: the negation, the difference and the quotient
are rounded. -/
def midpoint (fl : ℚ → ℚ) (a b : ℚ) : ℚ := fl (fl (-a) / fl (b - a))

/-- The inner callback of `features_along_line` (lines 239-269), with `H = 5` and the
rounded `midpoint`. -/
def zero_crossing (fl : ℚ → ℚ) (interp : ℚ → Vec2 → Vec2 → Vec2) (offsets : Nat → Vec2)
    (gradients : LaplacianGradients) (index : Nat) (features : List Vec2) : List Vec2 :=
  let a := gradients.output0
  let b := gradients.output1
  if a ≠ 0 ∧ b = 0 then
    if gradients.good_edge 5 index = false then features
    else features ++ [offsets (index % 5)]
  else if (a < 0 ∧ b > 0) ∨ (b < 0 ∧ a > 0) then
    if gradients.good_edge 5 index = false then features
    else features ++
      [interp (midpoint fl a b) (offsets ((index - 1) % 5)) (offsets (index % 5))]
  else features

/-- The part of the rasterizer callback of `features_along_line` that follows the pixel read
(lines 237-269). -/
def sample_step (fl : ℚ → ℚ) (interp : ℚ → Vec2 → Vec2 → Vec2) (st : ScanState)
    (image_offset : Vec2) (intensity : ℚ) : ScanState :=
  let offsets := store st.offsets (st.gradients.index 5) image_offset
  let r := sum fl 5 st.gradients intensity (zero_crossing fl interp offsets) st.features
  ⟨r.1, offsets, r.2⟩

/-- The edge detector driven over a sequence of (coordinate, intensity) samples. -/
def detect (fl : ℚ → ℚ) (interp : ℚ → Vec2 → Vec2 → Vec2) (samples : List (Vec2 × ℚ))
    (features : List Vec2) : List Vec2 :=
  (samples.foldl (fun st s => sample_step fl interp st s.1 s.2)
    (ScanState.init features)).features

/-- The intensity `Vec3(PixelT(image_reader[offset])).sum() / 3.0` stored in a `RealT`: the
sum of three channel values is an integer below 766 and the quotient is rounded. -/
def intensity (fl : ℚ → ℚ) (px : Nat × Nat × Nat) : ℚ :=
  fl (((px.1 : ℚ) + (px.2.1 : ℚ) + (px.2.2 : ℚ)) / 3)

/-- The function `FeaturePoints::features_along_line(image, start, end, features)`. -/
def features_along_line (fl : ℚ → ℚ) (interp : ℚ → Vec2 → Vec2 → Vec2) (image : Image)
    (start end_ : Vec2i) (features : List Vec2) (fuel : Nat) : Option (List Vec2) :=
  let start1 : Vec2i := (start.1, (image.height : Int) - start.2)
  let end1 : Vec2i := (end_.1, (image.height : Int) - end_.2)
  (bresenham_normalized_line start1 end1 fuel).map (fun pts =>
    detect fl interp (pts.map (fun offset =>
      let image_offset : Vec2 := ((offset.1 : ℚ), (image.height : ℚ) - (offset.2 : ℚ))
      (image_offset, intensity fl (image.read offset)))) features)

/-- The value `laplace` computes for the window centred on sample `c`: the centre times 4,
then the samples `c - 1`, `c + 1`, `c - 2`, `c + 2` subtracted in this order, each step
rounded. -/
def laplacian_at (fl : ℚ → ℚ) (s : Nat → ℚ) (c : Nat) : ℚ :=
  fl (fl (fl (fl (fl (s c * 4) + fl (s (c - 1) * (-1))) + fl (s (c + 1) * (-1))) +
    fl (s (c - 2) * (-1))) + fl (s (c + 2) * (-1)))

/-- The features reported while sample `k` (0-based) is fed, in terms of the sample
sequence itself rather than the circular buffers. -/
def candidate_at (fl : ℚ → ℚ) (interp : ℚ → Vec2 → Vec2 → Vec2) (c : Nat → Vec2)
    (s : Nat → ℚ) (k : Nat) : List Vec2 :=
  if k < 5 then []
  else if laplacian_at fl s (k - 3) ≠ 0 ∧ laplacian_at fl s (k - 2) = 0 then
    if contrast_at s (k - 2) < 600 then [] else [c (k - 2)]
  else if (laplacian_at fl s (k - 3) < 0 ∧ laplacian_at fl s (k - 2) > 0) ∨
      (laplacian_at fl s (k - 2) < 0 ∧ laplacian_at fl s (k - 3) > 0) then
    if contrast_at s (k - 2) < 600 then []
    else [interp (midpoint fl (laplacian_at fl s (k - 3)) (laplacian_at fl s (k - 2)))
      (c (k - 3)) (c (k - 2))]
  else []

/-- The scan state after the samples `0 .. k-1` of `c` and `s` have been fed. -/
def run (fl : ℚ → ℚ) (interp : ℚ → Vec2 → Vec2 → Vec2) (c : Nat → Vec2) (s : Nat → ℚ)
    (features : List Vec2) : Nat → ScanState
  | 0 => ScanState.init features
  | k + 1 => sample_step fl interp (run fl interp c s features k) (c k) (s k)

/-- Invariant relating the circular buffers after `k` samples to the sequences `c`, `s`:
the sample counter is `k`, the slots of the last five samples hold them, and from the fifth
sample on `output[0]` is the rounded Laplacian of the window centred on sample `k - 3`. -/
def run_inv (fl : ℚ → ℚ) (c : Nat → Vec2) (s : Nat → ℚ) (st : ScanState) (k : Nat) : Prop :=
  st.gradients.k = k ∧
  (∀ j, j < k → k ≤ j + 5 → st.gradients.input (j % 5) = s j) ∧
  (∀ j, j < k → k ≤ j + 5 → st.offsets (j % 5) = c j) ∧
  (5 ≤ k → st.gradients.output0 = laplacian_at fl s (k - 3))

/-- The exact results of the nine operations of `laplace` on the window centred on sample
`c`: the five products and the four partial sums. -/
def kernel_steps (s : Nat → ℚ) (c : Nat) : List ℚ :=
  [s c * 4, s (c - 1) * (-1), s c * 4 + s (c - 1) * (-1), s (c + 1) * (-1),
    s c * 4 + s (c - 1) * (-1) + s (c + 1) * (-1), s (c - 2) * (-1),
    s c * 4 + s (c - 1) * (-1) + s (c + 1) * (-1) + s (c - 2) * (-1), s (c + 2) * (-1),
    s c * 4 + s (c - 1) * (-1) + s (c + 1) * (-1) + s (c - 2) * (-1) + s (c + 2) * (-1)]

/-- The kernel arithmetic on samples of the two values `lo` and `hi` does not round: every
combination `i * lo + j * hi` with integers `-4 ≤ i, j ≤ 4` is a value of the rounding. -/
def exact_grid (fl : ℚ → ℚ) (lo hi : ℚ) : Prop :=
  ∀ i ∈ List.range 9, ∀ j ∈ List.range 9,
    fl (((i : ℚ) - 4) * lo + ((j : ℚ) - 4) * hi) = ((i : ℚ) - 4) * lo + ((j : ℚ) - 4) * hi

/-- The gradients object and the callback state after the samples `s 0 .. s (k - 1)` have
been fed to `sum` with `H = 5`, one call per sample, starting from the object `g0`; the call
for sample `j` is given the callback `callback j`. -/
def feed {σ : Type} (fl : ℚ → ℚ) (callback : Nat → LaplacianGradients → Nat → σ → σ)
    (s : Nat → ℚ) (g0 : LaplacianGradients) (init : σ) : Nat → LaplacianGradients × σ
  | 0 => (g0, init)
  | k + 1 =>
    sum fl 5 (feed fl callback s g0 init k).1 (s k) (callback k) (feed fl callback s g0 init k).2

/-- The normalized fraction `f` that `update` computes for a point: the two differences and
the quotient are rounded. -/
def fraction (fl : ℚ → ℚ) (T : FeatureTable) (offset : Vec2) : ℚ :=
  fl (fl ((T.transform offset).1 - T.bounds.min.1) / fl (T.bounds.max.1 - T.bounds.min.1))

/-- The bin index `f * _bins.size()`, a rounded product, converted to `std::size_t`. -/
def bin_index (fl : ℚ → ℚ) (T : FeatureTable) (offset : Vec2) : Nat :=
  ⌊fl (fraction fl T offset * (T.size : ℚ))⌋.toNat

/-- The body of the loop of `update` for one point, with `f` and `f * _bins.size()` computed
in `RealT`. The result is `none` when `DREAM_ASSERT(f >= 0 && f < 1)` fails or
`_bins.at(index)` throws. A zero width makes the quotient infinite or NaN, for which the
assertion fails. -/
def update_one (fl : ℚ → ℚ) (T : FeatureTable) (offset : Vec2) : Option FeatureTable :=
  let aligned_offset := T.transform offset
  let width := fl (T.bounds.max.1 - T.bounds.min.1)
  if width = 0 then none
  else
    let f := fl (fl (aligned_offset.1 - T.bounds.min.1) / width)
    if ¬ (f ≥ 0 ∧ f < 1) then none
    else
      let index := ⌊fl (f * (T.size : ℚ))⌋.toNat
      if ¬ index < T.size then none
      else
        let previous_link := T.find_previous_similar aligned_offset index
        let position := (T.bins index).length
        let bins1 : Nat → List Chain :=
          fun b => if b = index then T.bins b ++ [⟨aligned_offset, offset, none⟩] else T.bins b
        match previous_link with
        | some previous =>
          some { T with
            bins := fun b =>
              if b = previous.1 then set_next (bins1 b) previous.2 (index, position)
              else bins1 b }
        | none => some { T with bins := bins1, chains := T.chains ++ [(index, position)] }

/-- The member function `update(offsets)`. -/
def update (fl : ℚ → ℚ) (T : FeatureTable) : List Vec2 → Option FeatureTable
  | [] => some T
  | offset :: rest => (update_one fl T offset).bind (fun T1 => update fl T1 rest)

/-- The body of the scan-line loop for one `y`, on the pair `(_segments, _offsets)`. -/
def scan_line (fl : ℚ → ℚ) (interp : ℚ → Vec2 → Vec2 → Vec2) (rotation_inv : Vec2 → Vec2)
    (source : Image) (bounding_box : AlignedBox2) (fuel : Nat)
    (st : List (Vec2 × Vec2) × List Vec2) (y : ℚ) :
    Option (List (Vec2 × Vec2) × List Vec2) :=
  let min : Vec2 := (bounding_box.min.1, y)
  let max : Vec2 := (bounding_box.max.1, y)
  let segment : Vec2 × Vec2 := (rotation_inv min, rotation_inv max)
  match clip segment (clipping_box source) with
  | none => some st
  | some clipped_segment =>
    (features_along_line fl interp source (to_Vec2i clipped_segment.1)
      (to_Vec2i clipped_segment.2) st.2 fuel).map
      (fun offsets => (st.1 ++ [clipped_segment], offsets))

/-- The scan-line loop over the positions `ys`. -/
def scan_lines (fl : ℚ → ℚ) (interp : ℚ → Vec2 → Vec2 → Vec2) (rotation_inv : Vec2 → Vec2)
    (source : Image) (bounding_box : AlignedBox2) (fuel : Nat) :
    List ℚ → List (Vec2 × Vec2) × List Vec2 → Option (List (Vec2 × Vec2) × List Vec2)
  | [], st => some st
  | y :: ys, st =>
    (scan_line fl interp rotation_inv source bounding_box fuel st y).bind
      (scan_lines fl interp rotation_inv source bounding_box fuel ys)

/-- The member function `scan(source, tilt, dy)`, with the rounded detector and table. -/
def scan (fl : ℚ → ℚ) (interp : ℚ → Vec2 → Vec2 → Vec2)
    (rotation rotation_inv table_transform : Vec2 → Vec2) (self : FeaturePoints)
    (source : Image) (dy : Nat) (fuel : Nat) : Option FeaturePoints :=
  if self.offsets.length ≠ 0 then some self
  else
    let size : Vec2 := ((source.width : ℚ), (source.height : ℚ))
    let image_box : AlignedBox2 := ⟨(0, 0), size⟩
    let b0 : AlignedBox2 := ⟨(0, 0), (0, 0)⟩
    let b1 := b0.union_with_point (rotation size)
    let b2 := b1.union_with_point (rotation (size.1, 0))
    let bounds := b2.union_with_point (rotation (0, size.2))
    (scan_line_positions bounds.max.2 dy fuel (bounds.min.2 + (dy : ℚ))).bind (fun ys =>
      (scan_lines fl interp rotation_inv source bounds fuel ys
        (self.segments, self.offsets)).bind (fun r =>
        (update fl (FeatureTable.new dy image_box table_transform) r.2).map (fun table =>
          ⟨some source, r.2, r.1, bounds, some table⟩)))

end Rounded

/-- The intensities along a row of pixels of the colour (5, 0, 0) in binary32: every sample
is the binary32 value nearest to 5/3. -/
def dim_row : Nat → ℚ := fun _ => Rounded.intensity binary32 (5, 0, 0)

/-- The intensities along a row of five pixels of the colour (5, 0, 0) followed by pixels of
the colour (152, 0, 0), in binary32. -/
def dim_step : Nat → ℚ :=
  step_edge 5 (Rounded.intensity binary32 (5, 0, 0)) (Rounded.intensity binary32 (152, 0, 0))

theorem major_emit (steep : Bool) (x y : Int) : major steep (emit steep x y) = x := by
  cases steep <;> rfl

theorem minor_emit (steep : Bool) (x y : Int) : minor steep (emit steep x y) = y := by
  cases steep <;> rfl

theorem step_rel_emit (steep : Bool) (inc ystep x y : Int) (hy : ystep = 1 ∨ ystep = -1) :
    step_rel steep inc (emit steep x y) (emit steep (x + inc) (y + ystep)) ∧
      step_rel steep inc (emit steep x y) (emit steep (x + inc) y) := by
  simp only [step_rel, major_emit, minor_emit]
  rcases hy with h | h
  · subst h; simp
  · subst h; simp; omega

theorem step_rel_unit (steep : Bool) (inc : Int) (hi : inc = 1 ∨ inc = -1) (p q : Vec2i)
    (h : step_rel steep inc p q) : unit_step steep p q := by
  obtain ⟨h1, h2⟩ := h
  cases steep <;> simp only [major, minor, unit_step, iabs, if_true, if_false,
    Bool.false_eq_true] at * <;>
    constructor <;> split_ifs <;> omega

theorem range_succ_affine (x inc : Int) (n : Nat) :
    (List.range (n + 1)).map (fun k : Nat => x + inc * (k : Int)) =
      x :: (List.range n).map (fun k : Nat => (x + inc) + inc * (k : Int)) := by
  rw [List.range_succ_eq_map, List.map_cons, List.map_map]
  simp only [Nat.cast_zero, mul_zero, add_zero, List.cons.injEq, true_and]
  apply List.map_congr_left
  intro k _
  simp only [Function.comp_apply, Nat.cast_succ]
  ring

/-- Full description of a run of the ordered loop that starts on the side of `endX` the
increment points away from: it stops after `|endX - x|` iterations. -/
theorem ordered_loop_spec (steep : Bool) (endX dx dy ystep increment : Int)
    (hy : ystep = 1 ∨ ystep = -1) :
    ∀ (fuel : Nat) (x y e : Int), (endX - x).natAbs ≤ fuel →
      ((increment = 1 ∧ x ≤ endX) ∨ (increment = -1 ∧ endX ≤ x)) →
      ∃ l, ordered_loop steep endX dx dy ystep increment fuel x y e = some l ∧
        l.length = (endX - x).natAbs ∧ (∀ p ∈ l.head?, p = emit steep x y) ∧
        List.Chain' (step_rel steep increment) l ∧
        l.map (major steep) =
          (List.range (endX - x).natAbs).map (fun k : Nat => x + increment * (k : Int)) := by
  intro fuel
  induction fuel with
  | zero =>
    intro x y e h _
    have hx : x = endX := by omega
    subst hx
    exact ⟨[], by simp [ordered_loop], by simp, by simp, by simp, by simp⟩
  | succ n ih =>
    intro x y e h hdir
    by_cases hx : x = endX
    · subst hx
      exact ⟨[], by simp [ordered_loop], by simp, by simp, by simp, by simp⟩
    · have hn : (endX - x).natAbs = (endX - (x + increment)).natAbs + 1 := by omega
      have hdir2 : (increment = 1 ∧ x + increment ≤ endX) ∨
          (increment = -1 ∧ endX ≤ x + increment) := by omega
      have hrel := step_rel_emit steep increment ystep x y hy
      by_cases he : e - dy < 0
      · obtain ⟨l, hl, hlen, hhead, hch, hmaj⟩ :=
          ih (x + increment) (y + ystep) (e - dy + dx) (by omega) hdir2
        refine ⟨emit steep x y :: l, by simp [ordered_loop, hx, he, hl], by simp [hlen, hn],
          by simp, ?_, ?_⟩
        · rw [List.chain'_cons']
          exact ⟨fun q hq => by rw [hhead q hq]; exact hrel.1, hch⟩
        · rw [hn, range_succ_affine, List.map_cons, major_emit, hmaj]
      · obtain ⟨l, hl, hlen, hhead, hch, hmaj⟩ :=
          ih (x + increment) y (e - dy) (by omega) hdir2
        refine ⟨emit steep x y :: l, by simp [ordered_loop, hx, he, hl], by simp [hlen, hn],
          by simp, ?_, ?_⟩
        · rw [List.chain'_cons']
          exact ⟨fun q hq => by rw [hhead q hq]; exact hrel.2, hch⟩
        · rw [hn, range_succ_affine, List.map_cons, major_emit, hmaj]

/-- Full description of a run of the normalized loop: it stops after `endX - x` iterations
(none when `endX ≤ x`). -/
theorem normalized_loop_spec (steep : Bool) (endX dx dy ystep : Int)
    (hy : ystep = 1 ∨ ystep = -1) :
    ∀ (fuel : Nat) (x y e : Int), (endX - x).toNat ≤ fuel →
      ∃ l, normalized_loop steep endX dx dy ystep fuel x y e = some l ∧
        l.length = (endX - x).toNat ∧ (∀ p ∈ l.head?, p = emit steep x y) ∧
        List.Chain' (step_rel steep 1) l := by
  intro fuel
  induction fuel with
  | zero =>
    intro x y e h
    have hx : ¬ x < endX := by omega
    exact ⟨[], by simp [normalized_loop, hx], by simp; omega, by simp, by simp⟩
  | succ n ih =>
    intro x y e h
    by_cases hx : x < endX
    · have hn : (endX - x).toNat = (endX - (x + 1)).toNat + 1 := by omega
      have hrel := step_rel_emit steep 1 ystep x y hy
      by_cases he : e - dy < 0
      · obtain ⟨l, hl, hlen, hhead, hch⟩ := ih (x + 1) (y + ystep) (e - dy + dx) (by omega)
        refine ⟨emit steep x y :: l, by simp [normalized_loop, hx, he, hl],
          by simp [hlen, hn], by simp, ?_⟩
        rw [List.chain'_cons']
        exact ⟨fun q hq => by rw [hhead q hq]; exact hrel.1, hch⟩
      · obtain ⟨l, hl, hlen, hhead, hch⟩ := ih (x + 1) y (e - dy) (by omega)
        refine ⟨emit steep x y :: l, by simp [normalized_loop, hx, he, hl],
          by simp [hlen, hn], by simp, ?_⟩
        rw [List.chain'_cons']
        exact ⟨fun q hq => by rw [hhead q hq]; exact hrel.2, hch⟩
    · exact ⟨[], by simp [normalized_loop, hx], by simp; omega, by simp, by simp⟩

/-- Run of `bresenham_ordered_line` with enough fuel. -/
theorem ordered_line_spec (a b : Vec2i) (fuel : Nat) (hf : dominant_length a b ≤ fuel) :
    ∃ l, bresenham_ordered_line a b fuel = some l ∧ l.length = dominant_length a b ∧
      List.Chain' (step_rel (is_steep a b)
        (if major (is_steep a b) a < major (is_steep a b) b then 1 else -1)) l ∧
      l.map (major (is_steep a b)) =
        (List.range (dominant_length a b)).map (fun k : Nat =>
          major (is_steep a b) a +
            (if major (is_steep a b) a < major (is_steep a b) b then 1 else -1) * (k : Int)) := by
  obtain ⟨ax, ay⟩ := a
  obtain ⟨bx, by_⟩ := b
  simp only [dominant_length] at hf ⊢
  by_cases hs : iabs (by_ - ay) > iabs (bx - ax)
  · have hst : is_steep (ax, ay) (bx, by_) = true := by simp [is_steep, hs]
    have hlen : (by_ - ay).natAbs = max (bx - ax).natAbs (by_ - ay).natAbs := by
      simp only [iabs] at hs; split_ifs at hs <;> omega
    obtain ⟨l, hl, h1, -, h3, h4⟩ := ordered_loop_spec true by_ (iabs (by_ - ay))
      (iabs (bx - ax)) (if ax < bx then 1 else -1) (if ay < by_ then 1 else -1)
      (by split_ifs <;> simp) fuel ay ax (Int.tdiv (iabs (by_ - ay)) 2) (by omega)
      (by split_ifs <;> omega)
    refine ⟨l, ?_, ?_, ?_, ?_⟩
    · simpa [bresenham_ordered_line, hs] using hl
    · omega
    · simpa [hst, major] using h3
    · rw [← hlen]; simpa [hst, major] using h4
  · have hst : is_steep (ax, ay) (bx, by_) = false := by simp [is_steep, hs]
    have hlen : (bx - ax).natAbs = max (bx - ax).natAbs (by_ - ay).natAbs := by
      simp only [iabs] at hs; split_ifs at hs <;> omega
    obtain ⟨l, hl, h1, -, h3, h4⟩ := ordered_loop_spec false bx (iabs (bx - ax))
      (iabs (by_ - ay)) (if ay < by_ then 1 else -1) (if ax < bx then 1 else -1)
      (by split_ifs <;> simp) fuel ax ay (Int.tdiv (iabs (bx - ax)) 2) (by omega)
      (by split_ifs <;> omega)
    refine ⟨l, ?_, ?_, ?_, ?_⟩
    · simpa [bresenham_ordered_line, hs] using hl
    · omega
    · simpa [hst, major] using h3
    · rw [← hlen]; simpa [hst, major] using h4

theorem normalized_loop_done (steep : Bool) (endX dx dy ystep : Int) (fuel : Nat)
    (x y e : Int) (h : ¬ x < endX) :
    normalized_loop steep endX dx dy ystep fuel x y e = some [] := by
  cases fuel <;> simp [normalized_loop, h]

theorem iabs_sub_comm (u v : Int) : iabs (u - v) = iabs (v - u) := by
  simp only [iabs]; split_ifs <;> omega

theorem is_steep_comm (a b : Vec2i) : is_steep a b = is_steep b a := by
  simp only [is_steep, iabs_sub_comm a.2 b.2, iabs_sub_comm a.1 b.1]

theorem dominant_length_comm (a b : Vec2i) : dominant_length a b = dominant_length b a := by
  simp only [dominant_length]; omega

theorem dominant_length_major (a b : Vec2i) :
    dominant_length a b = (major (is_steep a b) b - major (is_steep a b) a).natAbs := by
  by_cases hs : iabs (b.2 - a.2) > iabs (b.1 - a.1)
  · have hst : is_steep a b = true := by simp [is_steep, hs]
    simp only [hst, major, dominant_length, if_true]
    simp only [iabs] at hs; split_ifs at hs <;> omega
  · have hst : is_steep a b = false := by simp [is_steep, hs]
    simp only [hst, major, dominant_length, if_false, Bool.false_eq_true]
    simp only [iabs] at hs; split_ifs at hs <;> omega

/-- Run of `bresenham_normalized_line` with enough fuel. -/
theorem normalized_line_spec (a b : Vec2i) (fuel : Nat) (hf : dominant_length a b ≤ fuel) :
    ∃ l, bresenham_normalized_line a b fuel = some l ∧ l.length = dominant_length a b ∧
      List.Chain' (step_rel (is_steep a b) 1) l := by
  obtain ⟨ax, ay⟩ := a
  obtain ⟨bx, by_⟩ := b
  simp only [dominant_length] at hf ⊢
  by_cases hs : iabs (by_ - ay) > iabs (bx - ax)
  · have hst : is_steep (ax, ay) (bx, by_) = true := by simp [is_steep, hs]
    have hlen : (by_ - ay).natAbs = max (bx - ax).natAbs (by_ - ay).natAbs := by
      simp only [iabs] at hs; split_ifs at hs <;> omega
    by_cases hsw : ay > by_
    · obtain ⟨l, hl, h1, -, h3⟩ := normalized_loop_spec true ay (ay - by_)
        (iabs (ax - bx)) (if bx < ax then 1 else -1) (by split_ifs <;> simp) fuel by_ bx
        (Int.tdiv (ay - by_) 2) (by omega)
      exact ⟨l, by simpa [bresenham_normalized_line, hs, hsw] using hl, by omega,
        by simpa [hst] using h3⟩
    · obtain ⟨l, hl, h1, -, h3⟩ := normalized_loop_spec true by_ (by_ - ay)
        (iabs (bx - ax)) (if ax < bx then 1 else -1) (by split_ifs <;> simp) fuel ay ax
        (Int.tdiv (by_ - ay) 2) (by omega)
      exact ⟨l, by simpa [bresenham_normalized_line, hs, hsw] using hl, by omega,
        by simpa [hst] using h3⟩
  · have hst : is_steep (ax, ay) (bx, by_) = false := by simp [is_steep, hs]
    have hlen : (bx - ax).natAbs = max (bx - ax).natAbs (by_ - ay).natAbs := by
      simp only [iabs] at hs; split_ifs at hs <;> omega
    by_cases hsw : ax > bx
    · obtain ⟨l, hl, h1, -, h3⟩ := normalized_loop_spec false ax (ax - bx)
        (iabs (ay - by_)) (if by_ < ay then 1 else -1) (by split_ifs <;> simp) fuel bx by_
        (Int.tdiv (ax - bx) 2) (by omega)
      exact ⟨l, by simpa [bresenham_normalized_line, hs, hsw] using hl, by omega,
        by simpa [hst] using h3⟩
    · obtain ⟨l, hl, h1, -, h3⟩ := normalized_loop_spec false bx (bx - ax)
        (iabs (by_ - ay)) (if ay < by_ then 1 else -1) (by split_ifs <;> simp) fuel ax ay
        (Int.tdiv (bx - ax) 2) (by omega)
      exact ⟨l, by simpa [bresenham_normalized_line, hs, hsw] using hl, by omega,
        by simpa [hst] using h3⟩

/-- The normalized rasterizer does not depend on the order of its endpoints, whatever the
fuel. -/
theorem normalized_line_comm (a b : Vec2i) (fuel : Nat) :
    bresenham_normalized_line a b fuel = bresenham_normalized_line b a fuel := by
  obtain ⟨ax, ay⟩ := a
  obtain ⟨bx, by_⟩ := b
  have h1 := iabs_sub_comm by_ ay
  have h2 := iabs_sub_comm bx ax
  by_cases hs : iabs (by_ - ay) > iabs (bx - ax)
  · have hs2 : iabs (ay - by_) > iabs (ax - bx) := by omega
    rcases lt_trichotomy ay by_ with h | h | h
    · have h3 : ¬ ay > by_ := by omega
      simp [bresenham_normalized_line, hs, hs2, h, h3]
    · exfalso
      subst h
      simp only [iabs] at hs
      split_ifs at hs <;> omega
    · have h3 : ¬ by_ > ay := by omega
      simp [bresenham_normalized_line, hs, hs2, h, h3]
  · have hs2 : ¬ iabs (ay - by_) > iabs (ax - bx) := by omega
    rcases lt_trichotomy ax bx with h | h | h
    · have h3 : ¬ ax > bx := by omega
      simp [bresenham_normalized_line, hs, hs2, h, h3]
    · have h3 : ¬ bx < ax := by omega
      have h4 : ¬ ax < bx := by omega
      simp [bresenham_normalized_line, hs, hs2, h3, h4, normalized_loop_done]
    · have h3 : ¬ bx > ax := by omega
      simp [bresenham_normalized_line, hs, hs2, h, h3]

theorem reverse_affine (x inc : Int) (n : Nat) :
    ((List.range n).map (fun k : Nat => x + inc * (k : Int) + inc)).reverse =
      (List.range n).map (fun k : Nat => (x + inc * (n : Int)) + (-inc) * (k : Int)) := by
  induction n with
  | zero => simp
  | succ n ih =>
    rw [range_succ_affine, List.range_succ, List.map_append, List.reverse_append, ih]
    simp only [List.map_cons, List.map_nil, List.reverse_cons, List.reverse_nil,
      List.nil_append, List.singleton_append, List.cons.injEq, Nat.cast_succ]
    constructor
    · ring
    · apply List.map_congr_left
      intro k _
      ring

/-! ### Claims about the line rasterizer -/

/-- C1: for all integer endpoints and every fuel of at least `max(|dx|, |dy|)`, both
`bresenham_ordered_line` and `bresenham_normalized_line` return (their loops reach the exit
test) after invoking the callback exactly `max(|end.x - start.x|, |end.y - start.y|)` times;
for `start = end` the emitted sequence is empty. The only division, `dx / 2`, has the
constant divisor 2. -/
theorem C1_rasterizer_call_count (a b : Vec2i) (fuel : Nat)
    (hf : dominant_length a b ≤ fuel) :
    (∃ l, bresenham_ordered_line a b fuel = some l ∧
      (l.length : Int) = max |b.1 - a.1| |b.2 - a.2|) ∧
    (∃ l, bresenham_normalized_line a b fuel = some l ∧
      (l.length : Int) = max |b.1 - a.1| |b.2 - a.2|) ∧
    (a = b → bresenham_ordered_line a b fuel = some [] ∧
      bresenham_normalized_line a b fuel = some []) := by
  have hcast : ((dominant_length a b : Nat) : Int) = max |b.1 - a.1| |b.2 - a.2| := by
    rw [dominant_length, Nat.cast_max, Int.natCast_natAbs, Int.natCast_natAbs]
  obtain ⟨l, hl, hlen, -⟩ := ordered_line_spec a b fuel hf
  obtain ⟨l', hl', hlen', -⟩ := normalized_line_spec a b fuel hf
  refine ⟨⟨l, hl, by rw [hlen, hcast]⟩, ⟨l', hl', by rw [hlen', hcast]⟩, ?_⟩
  intro hab
  have h0 : dominant_length a b = 0 := by subst hab; simp [dominant_length]
  rw [h0] at hlen hlen'
  rw [List.length_eq_zero] at hlen hlen'
  subst hlen; subst hlen'
  exact ⟨hl, hl'⟩

/-- Witness of C1 on the segment from (0, 0) to (5, 2) with fuel 5. -/
theorem C1_rasterizer_call_count_witness :
    dominant_length ((0, 0) : Vec2i) (5, 2) ≤ 5 ∧
    ((∃ l, bresenham_ordered_line (0, 0) (5, 2) 5 = some l ∧
      (l.length : Int) = max |(5 : Int) - 0| |(2 : Int) - 0|) ∧
    (∃ l, bresenham_normalized_line (0, 0) (5, 2) 5 = some l ∧
      (l.length : Int) = max |(5 : Int) - 0| |(2 : Int) - 0|) ∧
    (((0, 0) : Vec2i) = (5, 2) → bresenham_ordered_line (0, 0) (5, 2) 5 = some [] ∧
      bresenham_normalized_line (0, 0) (5, 2) 5 = some [])) :=
  ⟨by decide, C1_rasterizer_call_count (0, 0) (5, 2) 5 (by decide)⟩

/-- C2: for all integer endpoints, in the sequence emitted by `bresenham_ordered_line` and
in the one emitted by `bresenham_normalized_line`, any two consecutive coordinates differ by
exactly 1 along the dominant axis and by at most 1 along the other axis. -/
theorem C2_rasterizer_unit_steps (a b : Vec2i) (fuel : Nat)
    (hf : dominant_length a b ≤ fuel) :
    (∃ l, bresenham_ordered_line a b fuel = some l ∧
      List.Chain' (unit_step (is_steep a b)) l) ∧
    (∃ l, bresenham_normalized_line a b fuel = some l ∧
      List.Chain' (unit_step (is_steep a b)) l) := by
  obtain ⟨l, hl, -, hch, -⟩ := ordered_line_spec a b fuel hf
  obtain ⟨l', hl', -, hch'⟩ := normalized_line_spec a b fuel hf
  refine ⟨⟨l, hl, hch.imp ?_⟩, ⟨l', hl', hch'.imp ?_⟩⟩
  · intro p q h
    exact step_rel_unit _ _ (by split_ifs <;> simp) p q h
  · intro p q h
    exact step_rel_unit _ 1 (Or.inl rfl) p q h

/-- Witness of C2 on the segment from (4, 1) to (0, 7) with fuel 6. -/
theorem C2_rasterizer_unit_steps_witness :
    dominant_length ((4, 1) : Vec2i) (0, 7) ≤ 6 ∧
    ((∃ l, bresenham_ordered_line (4, 1) (0, 7) 6 = some l ∧
      List.Chain' (unit_step (is_steep (4, 1) (0, 7))) l) ∧
    (∃ l, bresenham_normalized_line (4, 1) (0, 7) 6 = some l ∧
      List.Chain' (unit_step (is_steep (4, 1) (0, 7))) l)) :=
  ⟨by decide, C2_rasterizer_unit_steps (4, 1) (0, 7) 6 (by decide)⟩

/-- C3: for all integer endpoints `a` and `b`, `bresenham_normalized_line(a, b)` and
`bresenham_normalized_line(b, a)` emit the same coordinate sequence, and along it the
dominant-axis coordinate is strictly increasing. -/
theorem C3_normalized_endpoint_symmetry (a b : Vec2i) (fuel : Nat)
    (hf : dominant_length a b ≤ fuel) :
    ∃ l, bresenham_normalized_line a b fuel = some l ∧
      bresenham_normalized_line b a fuel = some l ∧
      List.Pairwise (fun p q => major (is_steep a b) p < major (is_steep a b) q) l := by
  obtain ⟨l, hl, -, hch⟩ := normalized_line_spec a b fuel hf
  refine ⟨l, hl, by rw [← normalized_line_comm a b fuel]; exact hl, ?_⟩
  haveI : IsTrans Vec2i (fun p q => major (is_steep a b) p < major (is_steep a b) q) :=
    ⟨fun _ _ _ h1 h2 => lt_trans h1 h2⟩
  rw [← List.chain'_iff_pairwise]
  refine hch.imp ?_
  intro p q h
  have := h.1
  omega

/-- Witness of C3 on the segment from (5, 2) to (0, 0) with fuel 5. -/
theorem C3_normalized_endpoint_symmetry_witness :
    dominant_length ((5, 2) : Vec2i) (0, 0) ≤ 5 ∧
    ∃ l, bresenham_normalized_line (5, 2) (0, 0) 5 = some l ∧
      bresenham_normalized_line (0, 0) (5, 2) 5 = some l ∧
      List.Pairwise (fun p q => major (is_steep (5, 2) (0, 0)) p <
        major (is_steep (5, 2) (0, 0)) q) l :=
  ⟨by decide, C3_normalized_endpoint_symmetry (5, 2) (0, 0) 5 (by decide)⟩

/-- C4 fails as stated: from (0, 0) to (1, 0) the ordered rasterizer emits `[(0, 0)]`, from
(1, 0) to (0, 0) it emits `[(1, 0)]`, which is not the reverse of `[(0, 0)]`: the start point
is emitted and the end point is not. -/
theorem C4_ordered_reverse_counterexample :
    bresenham_ordered_line (0, 0) (1, 0) 1 = some [(0, 0)] ∧
    bresenham_ordered_line (1, 0) (0, 0) 1 = some [(1, 0)] ∧
    ¬ (bresenham_ordered_line (1, 0) (0, 0) 1 =
        (bresenham_ordered_line (0, 0) (1, 0) 1).map List.reverse) := by
  decide

/-- C4 (amended): for all integer endpoints `a` and `b`, `bresenham_ordered_line(a, b)` and
`bresenham_ordered_line(b, a)` emit sequences of the same length `max(|dx|, |dy|)` that run
along the dominant axis in opposite directions over half-open ranges: the dominant-axis
coordinates emitted for `(b, a)` are the reverse of those emitted for `(a, b)`, each moved one
step towards `b`. -/
theorem C4_ordered_reverse_amended (a b : Vec2i) (fuel : Nat)
    (hf : dominant_length a b ≤ fuel) :
    ∃ l l', bresenham_ordered_line a b fuel = some l ∧
      bresenham_ordered_line b a fuel = some l' ∧
      l.length = dominant_length a b ∧ l'.length = l.length ∧
      l'.map (major (is_steep a b)) =
        (l.map (fun p => major (is_steep a b) p +
          (if major (is_steep a b) a < major (is_steep a b) b then 1 else -1))).reverse := by
  obtain ⟨l, hl, hlen, -, hmaj⟩ := ordered_line_spec a b fuel hf
  obtain ⟨l', hl', hlen', -, hmaj'⟩ :=
    ordered_line_spec b a fuel (by rw [dominant_length_comm]; exact hf)
  refine ⟨l, l', hl, hl', hlen, by rw [hlen, hlen', dominant_length_comm], ?_⟩
  rw [← is_steep_comm a b, dominant_length_comm b a] at hmaj'
  have hn := dominant_length_major a b
  generalize dominant_length a b = n at hmaj hmaj' hn
  generalize major (is_steep a b) a = ma at hmaj hmaj' hn
  generalize major (is_steep a b) b = mb at hmaj hmaj' hn
  have hmap : l.map (fun p => major (is_steep a b) p + (if ma < mb then 1 else -1)) =
      (l.map (major (is_steep a b))).map (fun v => v + (if ma < mb then 1 else -1)) := by
    rw [List.map_map]; rfl
  rw [hmap, hmaj, hmaj', List.map_map]
  have hrev := reverse_affine ma (if ma < mb then 1 else -1) n
  simp only [Function.comp_def]
  rw [hrev]
  apply List.map_congr_left
  intro k hk
  by_cases h1 : ma < mb
  · have h2 : ¬ mb < ma := by omega
    have h3 : mb = ma + (n : Int) := by omega
    simp only [h1, h2, if_true, if_false]
    rw [h3]; ring
  · by_cases h2 : mb < ma
    · have h3 : mb = ma - (n : Int) := by omega
      simp only [h1, h2, if_true, if_false]
      rw [h3]; ring
    · have h3 : n = 0 := by omega
      subst h3
      simp at hk

/-- Witness of the amended C4 on the segment from (0, 0) to (5, 2) with fuel 5. -/
theorem C4_ordered_reverse_amended_witness :
    dominant_length ((0, 0) : Vec2i) (5, 2) ≤ 5 ∧
    ∃ l l', bresenham_ordered_line (0, 0) (5, 2) 5 = some l ∧
      bresenham_ordered_line (5, 2) (0, 0) 5 = some l' ∧
      l.length = dominant_length (0, 0) (5, 2) ∧ l'.length = l.length ∧
      l'.map (major (is_steep (0, 0) (5, 2))) =
        (l.map (fun p => major (is_steep (0, 0) (5, 2)) p +
          (if major (is_steep (0, 0) (5, 2)) (0, 0) < major (is_steep (0, 0) (5, 2)) (5, 2)
            then 1 else -1))).reverse :=
  ⟨by decide, C4_ordered_reverse_amended (0, 0) (5, 2) 5 (by decide)⟩

/-! ## Properties of the edge detector -/

theorem window_store {α : Type} (inp : Nat → α) (f : Nat → α) (k : Nat)
    (h : ∀ j, j < k → k ≤ j + 5 → inp (j % 5) = f j) :
    ∀ j, j ≤ k → k < j + 5 → store inp (k % 5) (f k) (j % 5) = f j := by
  intro j h1 h2
  unfold store
  by_cases hjk : j = k
  · subst hjk; simp
  · have hne : j % 5 ≠ k % 5 := by omega
    rw [if_neg hne]
    exact h j (by omega) (by omega)

theorem variance_window (g : LaplacianGradients) (s : Nat → ℚ) (k : Nat) (hk : 4 ≤ k)
    (hw : ∀ j, j ≤ k → k < j + 5 → g.input (j % 5) = s j) :
    g.variance_left_right 5 (k - 2) = contrast_at s (k - 2) := by
  simp only [LaplacianGradients.variance_left_right, LaplacianGradients.at_, contrast_at]
  rw [hw (k - 2) (by omega) (by omega), hw (k - 2 - 1) (by omega) (by omega),
    hw (k - 2 + 1) (by omega) (by omega), hw (k - 2 - 2) (by omega) (by omega),
    hw (k - 2 + 2) (by omega) (by omega)]

theorem laplacian_step_edge (n : Nat) (lo hi : ℚ) (hn : 1 ≤ n) (x : Nat) :
    laplacian_at (step_edge n lo hi) x =
      if x + 2 < n then 0
      else if x + 2 = n then lo - hi
      else if x + 1 = n then 2 * (lo - hi)
      else if x = n then 2 * (hi - lo)
      else if x = n + 1 then hi - lo
      else 0 := by
  simp only [laplacian_at, step_edge]
  split_ifs <;> first | (exfalso; omega) | ring

theorem contrast_step_edge (n : Nat) (lo hi : ℚ) (hn : 1 ≤ n) (x : Nat) :
    contrast_at (step_edge n lo hi) x =
      if x + 2 < n then 0
      else if x + 2 = n then (hi - lo) * (hi - lo) / 4
      else if x + 1 = n then (hi - lo) * (hi - lo)
      else if x = n then (hi - lo) * (hi - lo)
      else if x = n + 1 then (hi - lo) * (hi - lo) / 4
      else 0 := by
  simp only [contrast_at, step_edge]
  split_ifs <;> first | (exfalso; omega) | ring

/-- Candidates of a step edge: only the step that has the Laplacians centred on the last
`lo` sample and the first `hi` sample in `output[0]`, `output[1]` reports a feature. -/
theorem candidate_step_edge (interp : ℚ → Vec2 → Vec2 → Vec2) (c : Nat → Vec2) (n : Nat)
    (lo hi : ℚ) (hn : 3 ≤ n) (hc : (hi - lo) ^ 2 ≥ 600) (k : Nat) :
    candidate_at interp c (step_edge n lo hi) k =
      if k = n + 2 then [interp (1 / 2) (c (n - 1)) (c n)] else [] := by
  have hn1 : 1 ≤ n := by omega
  have hd : hi - lo ≠ 0 := by
    intro h
    rw [h] at hc
    norm_num at hc
  have hcases : k < 5 ∨ (5 ≤ k ∧ k < n) ∨ (5 ≤ k ∧ k = n) ∨ (5 ≤ k ∧ k = n + 1) ∨ k = n + 2 ∨
      k = n + 3 ∨ k = n + 4 ∨ n + 5 ≤ k := by omega
  rcases hcases with h | ⟨h5, h⟩ | ⟨h5, h⟩ | ⟨h5, h⟩ | h | h | h | h
  · have hk : k ≠ n + 2 := by omega
    simp [candidate_at, h, hk]
  · have hk : k ≠ n + 2 := by omega
    have hn5 : ¬ k < 5 := by omega
    have ha : laplacian_at (step_edge n lo hi) (k - 3) = 0 := by
      rw [laplacian_step_edge n lo hi hn1]; split_ifs <;> first | rfl | (exfalso; omega)
    have hb : laplacian_at (step_edge n lo hi) (k - 2) = 0 := by
      rw [laplacian_step_edge n lo hi hn1]; split_ifs <;> first | rfl | (exfalso; omega)
    simp [candidate_at, ha, hb, hk, hn5]
  · have hk : k ≠ n + 2 := by omega
    have hn5 : ¬ k < 5 := by omega
    have ha : laplacian_at (step_edge n lo hi) (k - 3) = 0 := by
      rw [laplacian_step_edge n lo hi hn1]; split_ifs <;> first | rfl | (exfalso; omega)
    simp [candidate_at, ha, hk, hn5]
  · have hk : k ≠ n + 2 := by omega
    have hn5 : ¬ k < 5 := by omega
    have ha : laplacian_at (step_edge n lo hi) (k - 3) = lo - hi := by
      rw [laplacian_step_edge n lo hi hn1]; split_ifs <;> first | rfl | (exfalso; omega)
    have hb : laplacian_at (step_edge n lo hi) (k - 2) = 2 * (lo - hi) := by
      rw [laplacian_step_edge n lo hi hn1]; split_ifs <;> first | rfl | (exfalso; omega)
    simp only [candidate_at, ha, hb, hk, hn5, if_false]
    have h1 : ¬ (lo - hi ≠ 0 ∧ 2 * (lo - hi) = 0) := by
      rintro ⟨-, h2⟩; apply hd; linarith
    have h2 : ¬ ((lo - hi < 0 ∧ 2 * (lo - hi) > 0) ∨ (2 * (lo - hi) < 0 ∧ lo - hi > 0)) := by
      rintro (⟨h3, h4⟩ | ⟨h3, h4⟩) <;> linarith
    rw [if_neg h1, if_neg h2]
  · subst h
    have hn5 : ¬ n + 2 < 5 := by omega
    have ha : laplacian_at (step_edge n lo hi) (n + 2 - 3) = 2 * (lo - hi) := by
      rw [laplacian_step_edge n lo hi hn1]; split_ifs <;> first | rfl | (exfalso; omega)
    have hb : laplacian_at (step_edge n lo hi) (n + 2 - 2) = 2 * (hi - lo) := by
      rw [laplacian_step_edge n lo hi hn1]; split_ifs <;> first | rfl | (exfalso; omega)
    have hq : contrast_at (step_edge n lo hi) (n + 2 - 2) = (hi - lo) * (hi - lo) := by
      rw [contrast_step_edge n lo hi hn1]; split_ifs <;> first | rfl | (exfalso; omega)
    have e1 : n + 2 - 3 = n - 1 := by omega
    have e2 : n + 2 - 2 = n := by omega
    simp only [candidate_at, ha, hb, hq, hn5, if_false, if_true]
    have h1 : ¬ (2 * (lo - hi) ≠ 0 ∧ 2 * (hi - lo) = 0) := by
      rintro ⟨-, h2⟩; apply hd; linarith
    have h2 : (2 * (lo - hi) < 0 ∧ 2 * (hi - lo) > 0) ∨
        (2 * (hi - lo) < 0 ∧ 2 * (lo - hi) > 0) := by
      rcases lt_or_gt_of_ne hd with h3 | h3
      · right; constructor <;> linarith
      · left; constructor <;> linarith
    have h3 : ¬ (hi - lo) * (hi - lo) < 600 := by
      rw [not_lt, ← sq]; exact hc
    have hm : midpoint (2 * (lo - hi)) (2 * (hi - lo)) = 1 / 2 := by
      unfold midpoint
      rw [div_eq_iff (by intro h; apply hd; linarith)]
      ring
    rw [if_neg h1, if_pos h2, if_neg h3, hm, e1, e2]
  · have hk : k ≠ n + 2 := by omega
    have hn5 : ¬ k < 5 := by omega
    have ha : laplacian_at (step_edge n lo hi) (k - 3) = 2 * (hi - lo) := by
      rw [laplacian_step_edge n lo hi hn1]; split_ifs <;> first | rfl | (exfalso; omega)
    have hb : laplacian_at (step_edge n lo hi) (k - 2) = hi - lo := by
      rw [laplacian_step_edge n lo hi hn1]; split_ifs <;> first | rfl | (exfalso; omega)
    simp only [candidate_at, ha, hb, hk, hn5, if_false]
    have h1 : ¬ (2 * (hi - lo) ≠ 0 ∧ hi - lo = 0) := by
      rintro ⟨-, h2⟩; exact hd h2
    have h2 : ¬ ((2 * (hi - lo) < 0 ∧ hi - lo > 0) ∨ (hi - lo < 0 ∧ 2 * (hi - lo) > 0)) := by
      rintro (⟨h3, h4⟩ | ⟨h3, h4⟩) <;> linarith
    rw [if_neg h1, if_neg h2]
  · have hk : k ≠ n + 2 := by omega
    have hn5 : ¬ k < 5 := by omega
    have hb : laplacian_at (step_edge n lo hi) (k - 2) = 0 := by
      rw [laplacian_step_edge n lo hi hn1]; split_ifs <;> first | rfl | (exfalso; omega)
    have hq : contrast_at (step_edge n lo hi) (k - 2) = 0 := by
      rw [contrast_step_edge n lo hi hn1]; split_ifs <;> first | rfl | (exfalso; omega)
    simp [candidate_at, hb, hq, hk, hn5]
  · have hk : k ≠ n + 2 := by omega
    have hn5 : ¬ k < 5 := by omega
    have ha : laplacian_at (step_edge n lo hi) (k - 3) = 0 := by
      rw [laplacian_step_edge n lo hi hn1]; split_ifs <;> first | rfl | (exfalso; omega)
    have hb : laplacian_at (step_edge n lo hi) (k - 2) = 0 := by
      rw [laplacian_step_edge n lo hi hn1]; split_ifs <;> first | rfl | (exfalso; omega)
    simp [candidate_at, ha, hb, hk, hn5]

theorem step_edge_values (c : Nat → Vec2) (n m : Nat) (lo hi : ℚ) :
    (samples_of c (step_edge n lo hi) (n + m)).map Prod.snd =
      List.replicate n lo ++ List.replicate m hi := by
  simp only [samples_of, List.map_map, List.range_add, List.map_append]
  congr 1
  · rw [List.eq_replicate_iff]
    refine ⟨by simp, ?_⟩
    intro b hb
    simp only [List.mem_map, List.mem_range, Function.comp_apply, step_edge] at hb
    obtain ⟨j, hj, rfl⟩ := hb
    simp [hj]
  · rw [List.eq_replicate_iff]
    refine ⟨by simp, ?_⟩
    intro b hb
    simp only [List.mem_map, List.mem_range, Function.comp_apply, step_edge] at hb
    obtain ⟨j, -, rfl⟩ := hb
    simp

/-! ### Flat and low-amplitude sequences -/

theorem variance_small (g : LaplacianGradients) (lo A : ℚ) (hA : 2 * A ^ 2 < 600)
    (hall : ∀ j, j < 5 → lo ≤ g.input j ∧ g.input j ≤ lo + A) (index : Nat) :
    g.variance_left_right 5 index < 600 := by
  simp only [LaplacianGradients.variance_left_right, LaplacianGradients.at_]
  obtain ⟨a1, a2⟩ := hall ((index - 2) % 5) (Nat.mod_lt _ (by decide))
  obtain ⟨b1, b2⟩ := hall ((index - 1) % 5) (Nat.mod_lt _ (by decide))
  obtain ⟨c1, c2⟩ := hall (index % 5) (Nat.mod_lt _ (by decide))
  obtain ⟨d1, d2⟩ := hall ((index + 1) % 5) (Nat.mod_lt _ (by decide))
  obtain ⟨e1, e2⟩ := hall ((index + 2) % 5) (Nat.mod_lt _ (by decide))
  generalize g.input ((index - 2) % 5) = va at *
  generalize g.input ((index - 1) % 5) = vb at *
  generalize g.input (index % 5) = vc at *
  generalize g.input ((index + 1) % 5) = vd at *
  generalize g.input ((index + 2) % 5) = ve at *
  have h1 : 0 ≤ (A - (vc - (va + vb) / 2)) * (A + (vc - (va + vb) / 2)) :=
    mul_nonneg (by linarith) (by linarith)
  have h2 : 0 ≤ (A - ((ve + vd) / 2 - vc)) * (A + ((ve + vd) / 2 - vc)) :=
    mul_nonneg (by linarith) (by linarith)
  nlinarith [h1, h2]

theorem zero_crossing_rejected (interp : ℚ → Vec2 → Vec2 → Vec2) (offsets : Nat → Vec2)
    (g : LaplacianGradients) (index : Nat) (features : List Vec2)
    (h : g.variance_left_right 5 index < 600) :
    zero_crossing interp offsets g index features = features := by
  have h2 : ¬ g.variance_left_right 5 index ≥ 600 := not_le.mpr h
  simp only [zero_crossing, LaplacianGradients.good_edge, h2, decide_False, if_true]
  split_ifs <;> rfl

theorem sample_step_flat (interp : ℚ → Vec2 → Vec2 → Vec2) (lo A : ℚ) (hA : 2 * A ^ 2 < 600)
    (st : ScanState) (p : Vec2) (v : ℚ) (hv : lo ≤ v ∧ v ≤ lo + A)
    (hst : ∀ j, j < 5 → j < st.gradients.k →
      lo ≤ st.gradients.input j ∧ st.gradients.input j ≤ lo + A) :
    (sample_step interp st p v).features = st.features ∧
      ∀ j, j < 5 → j < (sample_step interp st p v).gradients.k →
        lo ≤ (sample_step interp st p v).gradients.input j ∧
          (sample_step interp st p v).gradients.input j ≤ lo + A := by
  obtain ⟨⟨inp, k, o0, o1⟩, offs, feats⟩ := st
  simp only at hst
  have hstore : ∀ j, j < 5 → j < k + 1 →
      lo ≤ store inp (k % 5) v j ∧ store inp (k % 5) v j ≤ lo + A := by
    intro j hj1 hj2
    unfold store
    by_cases hjk : j = k % 5
    · rw [if_pos hjk]; exact hv
    · rw [if_neg hjk]; exact hst j hj1 (by omega)
  by_cases h4 : k ≥ 5 - 1
  · by_cases h5 : k ≥ 5
    · have hvar := variance_small
        ⟨store inp (k % 5) v, k, o0, laplace 5 (store inp (k % 5) v) ((k - (5 - 1)) % 5)⟩
        lo A hA (fun j hj => hstore j hj (by omega)) (k - (5 - 1) / 2)
      simp only [sample_step, LaplacianGradients.sum, LaplacianGradients.index, h4, h5,
        if_true]
      rw [zero_crossing_rejected interp _ _ _ _ hvar]
      exact ⟨rfl, hstore⟩
    · simp only [sample_step, LaplacianGradients.sum, LaplacianGradients.index, h4, h5,
        if_true, if_false]
      exact ⟨trivial, hstore⟩
  · simp only [sample_step, LaplacianGradients.sum, LaplacianGradients.index, h4, if_false]
    exact ⟨trivial, hstore⟩

theorem foldl_flat (interp : ℚ → Vec2 → Vec2 → Vec2) (lo A : ℚ) (hA : 2 * A ^ 2 < 600)
    (samples : List (Vec2 × ℚ)) (hs : ∀ x ∈ samples, lo ≤ x.2 ∧ x.2 ≤ lo + A) :
    ∀ st : ScanState,
      (∀ j, j < 5 → j < st.gradients.k →
        lo ≤ st.gradients.input j ∧ st.gradients.input j ≤ lo + A) →
      (samples.foldl (fun st x => sample_step interp st x.1 x.2) st).features =
        st.features := by
  induction samples with
  | nil => intro st _; rfl
  | cons x xs ih =>
    intro st hst
    have hx := hs x (List.mem_cons_self x xs)
    obtain ⟨h1, h2⟩ := sample_step_flat interp lo A hA st x.1 x.2 hx hst
    rw [List.foldl_cons, ih (fun y hy => hs y (List.mem_cons_of_mem x hy)) _ h2, h1]

/-- C6: for every sample sequence, of any length and at any coordinates, whose values all lie
in an interval `[lo, lo + A]` with `2 * A^2 < 600` (in particular every constant sequence),
the edge detector with H = 5 reports no feature point: the feature list is left as it was.
Arithmetic is exact (rational). -/
theorem C6_low_contrast_no_feature (interp : ℚ → Vec2 → Vec2 → Vec2)
    (samples : List (Vec2 × ℚ)) (features : List Vec2) (lo A : ℚ) (hA : 2 * A ^ 2 < 600)
    (hs : ∀ x ∈ samples, lo ≤ x.2 ∧ x.2 ≤ lo + A) :
    detect interp samples features = features ∧ detect interp samples [] = [] := by
  constructor
  · exact foldl_flat interp lo A hA samples hs (ScanState.init features)
      (fun j _ hj => absurd hj (Nat.not_lt_zero j))
  · exact foldl_flat interp lo A hA samples hs (ScanState.init [])
      (fun j _ hj => absurd hj (Nat.not_lt_zero j))

/-- Witness of C6: seven samples alternating between 100 and 117 (width 17, 2 * 17^2 = 578). -/
theorem C6_low_contrast_no_feature_witness :
    2 * (17 : ℚ) ^ 2 < 600 ∧
    (∀ x ∈ ([((0, 0), 100), ((1, 0), 117), ((2, 0), 100), ((3, 0), 117), ((4, 0), 100),
        ((5, 0), 117), ((6, 0), 100)] : List (Vec2 × ℚ)), (100 : ℚ) ≤ x.2 ∧ x.2 ≤ 100 + 17) ∧
    (detect linear_interpolate [((0, 0), 100), ((1, 0), 117), ((2, 0), 100), ((3, 0), 117),
        ((4, 0), 100), ((5, 0), 117), ((6, 0), 100)] [(1, 1)] = [(1, 1)] ∧
      detect linear_interpolate [((0, 0), 100), ((1, 0), 117), ((2, 0), 100), ((3, 0), 117),
        ((4, 0), 100), ((5, 0), 117), ((6, 0), 100)] [] = []) :=
  ⟨by norm_num, by norm_num, C6_low_contrast_no_feature linear_interpolate _ [(1, 1)] 100 17
    (by norm_num) (by norm_num)⟩

/-! ## Properties of the feature table -/

theorem set_next_length (ls : List Chain) (i : Nat) (t : Addr) :
    (set_next ls i t).length = ls.length := by
  induction ls generalizing i with
  | nil => rfl
  | cons l ls ih => cases i <;> simp [set_next, ih]

/-- Case analysis of a successful `update` step. -/
theorem update_one_spec (T T1 : FeatureTable) (p : Vec2) (h : T.update_one p = some T1) :
    T.bounds.max.1 - T.bounds.min.1 ≠ 0 ∧ 0 ≤ T.fraction p ∧ T.fraction p < 1 ∧
    T.bin_index p < T.size ∧ T1.transform = T.transform ∧ T1.bounds = T.bounds ∧
    T1.size = T.size ∧
    ((T.find_previous_similar (T.transform p) (T.bin_index p) = none ∧
        T1.chains = T.chains ++ [T.new_addr p] ∧ T1.bins = T.pushed p) ∨
      (∃ prev, T.find_previous_similar (T.transform p) (T.bin_index p) = some prev ∧
        T1.chains = T.chains ∧
        T1.bins = fun b =>
          if b = prev.1 then set_next (T.pushed p b) prev.2 (T.new_addr p)
          else T.pushed p b)) := by
  unfold FeatureTable.update_one at h
  simp only at h
  split_ifs at h with h1 h2 h3
  have h2' : 0 ≤ T.fraction p ∧ T.fraction p < 1 := by
    simpa [FeatureTable.fraction] using h2
  have h3' : T.bin_index p < T.size := by
    simpa [FeatureTable.bin_index, FeatureTable.fraction] using h3
  refine ⟨h1, h2'.1, h2'.2, h3', ?_⟩
  cases hfind : T.find_previous_similar (T.transform p) (T.bin_index p) with
  | none =>
    have hfind' := hfind
    simp only [FeatureTable.bin_index, FeatureTable.fraction] at hfind'
    rw [hfind'] at h
    simp only [Option.some.injEq] at h
    subst h
    exact ⟨rfl, rfl, rfl, Or.inl ⟨rfl, rfl, rfl⟩⟩
  | some prev =>
    have hfind' := hfind
    simp only [FeatureTable.bin_index, FeatureTable.fraction] at hfind'
    rw [hfind'] at h
    simp only [Option.some.injEq] at h
    subst h
    exact ⟨rfl, rfl, rfl, Or.inr ⟨prev, rfl, rfl, rfl⟩⟩

theorem length_sq_absolute (u v : ℚ) : length_sq (absolute (u, v)) = u ^ 2 + v ^ 2 := by
  simp only [length_sq, absolute, abs_mul_abs_self]
  ring

theorem getLast?_length (ls : List Chain) (l : Chain) (h : ls.getLast? = some l) :
    ls.length - 1 + 1 = ls.length ∧ ls[ls.length - 1]? = some l := by
  cases ls with
  | nil => simp at h
  | cons x xs =>
    refine ⟨by simp, ?_⟩
    rw [← h, List.getLast?_eq_getElem?]

/-- Examining one more bin, larger than all bins examined so far, keeps `is_best`. -/
theorem consider_bin_best (T : FeatureTable) (p : Vec2) (bs : List Nat)
    (best : Option (Addr × Vec2)) (b : Nat) (hb : ∀ b1 ∈ bs, b1 < b)
    (h : is_best T p bs best) : is_best T p (bs ++ [b]) (consider_bin T p best b) := by
  unfold consider_bin
  cases hl : (T.bins b).getLast? with
  | none =>
    simp only
    cases best with
    | none =>
      intro b1 hb1 l hl1
      rw [List.mem_append, List.mem_singleton] at hb1
      rcases hb1 with hb1 | hb1
      · exact h b1 hb1 l hl1
      · subst hb1; rw [hl] at hl1; cases hl1
    | some ad =>
      obtain ⟨a, d⟩ := ad
      obtain ⟨h1, l, h2, h3, h4, h5, h6⟩ := h
      refine ⟨List.mem_append_left _ h1, l, h2, h3, h4, h5, ?_⟩
      intro b1 hb1 l1 hl1 ht
      rw [List.mem_append, List.mem_singleton] at hb1
      rcases hb1 with hb1 | hb1
      · exact h6 b1 hb1 l1 hl1 ht
      · subst hb1; rw [hl] at hl1; cases hl1
  | some lb =>
    simp only
    have hlen := (getLast?_length _ _ hl).1
    have hd : length_sq (absolute (p.1 - lb.aligned_offset.1, p.2 - lb.aligned_offset.2)) =
        dist_sq p lb := by rw [length_sq_absolute]; rfl
    by_cases htol : (absolute (p.1 - lb.aligned_offset.1, p.2 - lb.aligned_offset.2)).1 > 4 ∨
        (absolute (p.1 - lb.aligned_offset.1, p.2 - lb.aligned_offset.2)).2 > 25
    · rw [if_pos htol]
      have hnt : ¬ within_tolerance p lb := by
        simp only [absolute] at htol
        intro hw
        rcases htol with h1 | h1
        · exact absurd hw.1 (not_le.mpr h1)
        · exact absurd hw.2 (not_le.mpr h1)
      cases best with
      | none =>
        intro b1 hb1 l hl1
        rw [List.mem_append, List.mem_singleton] at hb1
        rcases hb1 with hb1 | hb1
        · exact h b1 hb1 l hl1
        · subst hb1; rw [hl] at hl1; cases hl1; exact hnt
      | some ad =>
        obtain ⟨a, d⟩ := ad
        obtain ⟨h1, l, h2, h3, h4, h5, h6⟩ := h
        refine ⟨List.mem_append_left _ h1, l, h2, h3, h4, h5, ?_⟩
        intro b1 hb1 l1 hl1 ht
        rw [List.mem_append, List.mem_singleton] at hb1
        rcases hb1 with hb1 | hb1
        · exact h6 b1 hb1 l1 hl1 ht
        · subst hb1; rw [hl] at hl1; cases hl1; exact absurd ht hnt
    · rw [if_neg htol]
      have hwt : within_tolerance p lb := by
        simp only [absolute, not_or, not_lt] at htol
        exact htol
      cases best with
      | none =>
        simp only
        refine ⟨by simp, lb, hl, hlen, hd, hwt, ?_⟩
        intro b1 hb1 l1 hl1 ht
        rw [List.mem_append, List.mem_singleton] at hb1
        rcases hb1 with hb1 | hb1
        · exact absurd ht (h b1 hb1 l1 hl1)
        · subst hb1; rw [hl] at hl1; cases hl1
          exact ⟨le_refl _, fun _ => le_refl _⟩
      | some ad =>
        obtain ⟨a, d⟩ := ad
        obtain ⟨h1, l, h2, h3, h4, h5, h6⟩ := h
        simp only
        by_cases hlt : length_sq
            (absolute (p.1 - lb.aligned_offset.1, p.2 - lb.aligned_offset.2)) < length_sq d
        · rw [if_pos hlt]
          rw [hd, h4] at hlt
          refine ⟨by simp, lb, hl, hlen, hd, hwt, ?_⟩
          intro b1 hb1 l1 hl1 ht
          rw [List.mem_append, List.mem_singleton] at hb1
          rcases hb1 with hb1 | hb1
          · have := (h6 b1 hb1 l1 hl1 ht).1
            exact ⟨by linarith, fun he => by linarith⟩
          · subst hb1; rw [hl] at hl1; cases hl1
            exact ⟨le_refl _, fun _ => le_refl _⟩
        · rw [if_neg hlt]
          rw [hd, h4, not_lt] at hlt
          refine ⟨List.mem_append_left _ h1, l, h2, h3, h4, h5, ?_⟩
          intro b1 hb1 l1 hl1 ht
          rw [List.mem_append, List.mem_singleton] at hb1
          rcases hb1 with hb1 | hb1
          · exact h6 b1 hb1 l1 hl1 ht
          · subst hb1; rw [hl] at hl1; cases hl1
            exact ⟨hlt, fun _ => le_of_lt (hb a.1 h1)⟩

theorem foldl_consider_best (T : FeatureTable) (p : Vec2) (s n : Nat) :
    is_best T p (List.range' s n) ((List.range' s n).foldl (consider_bin T p) none) := by
  induction n with
  | zero =>
    intro b hb
    simp at hb
  | succ n ih =>
    rw [List.range'_concat, List.foldl_append]
    exact consider_bin_best T p _ _ _
      (fun b1 hb1 => by rw [List.mem_range'_1] at hb1; omega) ih

theorem mem_neighbour_range (size index b : Nat) (hi : index < size) :
    b ∈ List.range' (if index ≠ 0 then index - 1 else index)
        ((if index + 1 ≠ size then index + 1 + 1 else index + 1) -
          (if index ≠ 0 then index - 1 else index)) ↔
      is_neighbour size index b := by
  rw [List.mem_range'_1, is_neighbour]
  split_ifs <;> omega

/-- The result of `find_previous_similar` for a valid bin index is the best candidate among
the existing bins `index - 1`, `index`, `index + 1`. -/
theorem find_previous_similar_best (T : FeatureTable) (p : Vec2) (i : Nat) :
    ∃ r, is_best T p (List.range' (if i ≠ 0 then i - 1 else i)
        ((if i + 1 ≠ T.size then i + 1 + 1 else i + 1) - (if i ≠ 0 then i - 1 else i))) r ∧
      T.find_previous_similar p i = r.map Prod.fst :=
  ⟨_, foldl_consider_best T p _ _, rfl⟩

theorem bin_index_lt (T : FeatureTable) (p : Vec2) (hN : 1 ≤ T.size)
    (h1 : T.fraction p < 1) : T.bin_index p < T.size := by
  unfold FeatureTable.bin_index
  have hN' : (0 : ℚ) < (T.size : ℚ) := by exact_mod_cast hN
  have h2 : T.fraction p * (T.size : ℚ) < (T.size : ℚ) := by nlinarith
  have h3 : ⌊T.fraction p * (T.size : ℚ)⌋ < (T.size : ℤ) := by
    rw [Int.floor_lt]; exact_mod_cast h2
  omega

theorem some_getD_of_isSome {α : Type} (o : Option α) (d : α) (h : o.isSome = true) :
    o = some (o.getD d) := by
  cases o with
  | none => simp at h
  | some x => rfl

/-! ### Links and addresses -/

/-- The link `find_previous_similar` returns is the last link of an existing neighbouring
bin, within tolerance. -/
theorem find_previous_similar_some (T : FeatureTable) (p : Vec2) (i : Nat) (hi : i < T.size)
    (a : Addr) (h : T.find_previous_similar p i = some a) :
    is_neighbour T.size i a.1 ∧ a.2 + 1 = (T.bins a.1).length ∧
      ∃ l, (T.bins a.1).getLast? = some l ∧ T.link_at a = some l ∧ within_tolerance p l := by
  obtain ⟨r, hr, hfind⟩ := find_previous_similar_best T p i
  rw [hfind] at h
  cases r with
  | none => simp at h
  | some ad =>
    obtain ⟨a1, d⟩ := ad
    simp only [Option.map_some', Option.some.injEq] at h
    subst h
    obtain ⟨h1, l, h2, h3, -, h5, -⟩ := hr
    refine ⟨(mem_neighbour_range T.size i a1.1 hi).mp h1, h3, l, h2, ?_, h5⟩
    have := (getLast?_length _ _ h2).2
    have e : (T.bins a1.1).length - 1 = a1.2 := by omega
    rw [e] at this
    exact this

/-- When no last link of a neighbouring bin is within tolerance, nothing is returned. -/
theorem find_previous_similar_none (T : FeatureTable) (p : Vec2) (i : Nat) (hi : i < T.size)
    (h : ∀ b, is_neighbour T.size i b → ∀ l, (T.bins b).getLast? = some l →
      ¬ within_tolerance p l) :
    T.find_previous_similar p i = none := by
  cases hf : T.find_previous_similar p i with
  | none => rfl
  | some a =>
    obtain ⟨h1, -, l, h3, -, h5⟩ := find_previous_similar_some T p i hi a hf
    exact absurd h5 (h a.1 h1 l h3)

/-- C11: the number of chains produced by `update` depends on the insertion order. Inserting
(11, 0), (11, 20), (11, 40) into a fresh three-bin table yields a single chain that holds all
three links; inserting the same points in the order (11, 0), (11, 40), (11, 20) yields two
chain heads, because (11, 40) is further than 25 from (11, 0). -/
theorem C11_chain_count_depends_on_order :
    ∃ (T : FeatureTable) (pts pts1 : List Vec2) (T1 T2 : FeatureTable),
      pts.Perm pts1 ∧
      T.update pts = some T1 ∧ T1.chains.length = 1 ∧ T1.link_count = 3 ∧
      T1.reachable = [(1, 0), (1, 1), (1, 2)] ∧
      T.update pts1 = some T2 ∧ 1 < T2.chains.length := by
  refine ⟨fresh_table, [(11, 0), (11, 20), (11, 40)], [(11, 0), (11, 40), (11, 20)],
    in_order_table, out_of_order_table, ?_, ?_, ?_, ?_, ?_, ?_, ?_⟩
  · exact List.Perm.cons _ (List.Perm.swap _ _ _)
  · exact some_getD_of_isSome _ _ (by decide!)
  · decide!
  · decide!
  · decide!
  · exact some_getD_of_isSome _ _ (by decide!)
  · decide!

/-! ### Failures of `update` -/

theorem update_one_checked_toOption (T : FeatureTable) (p : Vec2) :
    (T.update_one_checked p).toOption = T.update_one p := by
  unfold FeatureTable.update_one_checked FeatureTable.update_one
  simp only
  split_ifs
  all_goals first
    | rfl
    | (generalize T.find_previous_similar _ _ = r
       cases r <;> rfl)

theorem update_checked_toOption (T : FeatureTable) (pts : List Vec2) :
    (T.update_checked pts).toOption = T.update pts := by
  induction pts generalizing T with
  | nil => rfl
  | cons p ps ih =>
    simp only [FeatureTable.update_checked, FeatureTable.update]
    rw [← update_one_checked_toOption]
    cases h : T.update_one_checked p with
    | error e => rfl
    | ok T1 => simp only [Except.toOption, Option.some_bind]; exact ih T1

theorem update_one_checked_cases (T : FeatureTable) (p : Vec2) :
    (¬ T.in_unit p ∧ T.update_one_checked p = Except.error UpdateError.assertion) ∨
    (T.in_unit p ∧ ¬ T.bin_index p < T.size ∧
      T.update_one_checked p = Except.error UpdateError.out_of_range) ∨
    (T.in_unit p ∧ T.bin_index p < T.size ∧
      ∃ T1, T.update_one_checked p = Except.ok T1 ∧ T.update_one p = some T1) := by
  have hto := update_one_checked_toOption T p
  unfold FeatureTable.update_one_checked at hto ⊢
  unfold FeatureTable.in_unit FeatureTable.bin_index FeatureTable.fraction
  simp only at hto ⊢
  by_cases h1 : T.bounds.max.1 - T.bounds.min.1 = 0
  · left
    rw [if_pos h1]
    exact ⟨fun h => h.1 h1, rfl⟩
  · rw [if_neg h1] at hto ⊢
    by_cases h2 : ((T.transform p).1 - T.bounds.min.1) / (T.bounds.max.1 - T.bounds.min.1) ≥ 0 ∧
        ((T.transform p).1 - T.bounds.min.1) / (T.bounds.max.1 - T.bounds.min.1) < 1
    · rw [if_neg (not_not.mpr h2)] at hto ⊢
      right
      by_cases h3 : ⌊((T.transform p).1 - T.bounds.min.1) /
          (T.bounds.max.1 - T.bounds.min.1) * (T.size : ℚ)⌋.toNat < T.size
      · right
        rw [if_neg (not_not.mpr h3)] at hto ⊢
        refine ⟨⟨h1, h2.1, h2.2⟩, h3, ?_⟩
        revert hto
        generalize T.find_previous_similar _ _ = r
        cases r <;> exact fun hto => ⟨_, rfl, hto.symm⟩
      · left
        rw [if_pos h3]
        exact ⟨⟨h1, h2.1, h2.2⟩, h3, rfl⟩
    · left
      rw [if_pos h2]
      exact ⟨fun h => h2 ⟨h.2.1, h.2.2⟩, rfl⟩

theorem in_unit_frame (T T1 : FeatureTable) (htr : T1.transform = T.transform)
    (hb : T1.bounds = T.bounds) (p : Vec2) : T1.in_unit p ↔ T.in_unit p := by
  unfold FeatureTable.in_unit FeatureTable.fraction
  rw [htr, hb]

/-- With at least one bin, `update` completes when every point has its fraction in `[0, 1)`
and stops at the assertion otherwise. -/
theorem update_checked_spec (pts : List Vec2) :
    ∀ T : FeatureTable, 1 ≤ T.size →
      ((∀ p ∈ pts, T.in_unit p) → ∃ T2, T.update_checked pts = Except.ok T2) ∧
      ((∃ p ∈ pts, ¬ T.in_unit p) →
        T.update_checked pts = Except.error UpdateError.assertion) := by
  induction pts with
  | nil =>
    intro T _
    exact ⟨fun _ => ⟨T, rfl⟩, fun ⟨p, hp, _⟩ => by simp at hp⟩
  | cons p ps ih =>
    intro T hN
    rcases update_one_checked_cases T p with ⟨h1, h2⟩ | ⟨h1, h2, -⟩ | ⟨h1, -, T1, h3, h4⟩
    · constructor
      · intro hall
        exact absurd (hall p (List.mem_cons_self p ps)) h1
      · intro _
        simp only [FeatureTable.update_checked, h2]
    · exact absurd (bin_index_lt T p hN h1.2.2) h2
    · obtain ⟨-, -, -, -, g1, g2, g3, -⟩ := update_one_spec T T1 p h4
      obtain ⟨ih1, ih2⟩ := ih T1 (by rw [g3]; exact hN)
      constructor
      · intro hall
        obtain ⟨T2, hT2⟩ := ih1 (fun q hq =>
          (in_unit_frame T T1 g1 g2 q).mpr (hall q (List.mem_cons_of_mem p hq)))
        exact ⟨T2, by simp only [FeatureTable.update_checked, h3]; exact hT2⟩
      · rintro ⟨q, hq, hbad⟩
        rw [List.mem_cons] at hq
        rcases hq with hq | hq
        · subst hq; exact absurd h1 hbad
        · simp only [FeatureTable.update_checked, h3]
          exact ih2 ⟨q, hq, fun h => hbad ((in_unit_frame T T1 g1 g2 q).mp h)⟩

/-- C12 fails as stated: in a table with zero bins the point (11, 0) has the normalized
fraction 11/30, which lies in `[0, 1)` and passes the assertion, but `update` does not
complete: the bin index 0 is out of range and `_bins.at(0)` throws. -/
theorem C12_update_failure_counterexample :
    empty_table.size = 0 ∧ empty_table.fraction (11, 0) = 11 / 30 ∧
    empty_table.bounds.max.1 - empty_table.bounds.min.1 ≠ 0 ∧
    empty_table.update_error [(11, 0)] = some UpdateError.out_of_range ∧
    (empty_table.update [(11, 0)]).isSome = false :=
  ⟨by decide!, by decide!, by decide!, by decide!, by decide!⟩

/-- C12 (amended): for a table with at least one bin, `update` fails if and only if some
point of its input has its normalized fraction `f = (aligned.x - bounds.min.x) / bounds.width`
outside `[0, 1)`, and the failure is then the fatal assertion; when every point has `f` in
`[0, 1)` it completes and every bin index it uses is in range. -/
theorem C12_update_failure_amended (T : FeatureTable) (pts : List Vec2) (hN : 1 ≤ T.size) :
    (T.update_error pts ≠ none ↔ ∃ p ∈ pts, ¬ T.in_unit p) ∧
    ((∃ p ∈ pts, ¬ T.in_unit p) → T.update_error pts = some UpdateError.assertion) ∧
    ((∀ p ∈ pts, T.in_unit p) →
      (∃ T2, T.update_checked pts = Except.ok T2 ∧ T.update pts = some T2) ∧
        ∀ p ∈ pts, T.bin_index p < T.size) := by
  obtain ⟨h1, h2⟩ := update_checked_spec pts T hN
  have hbad : (∃ p ∈ pts, ¬ T.in_unit p) → T.update_error pts = some UpdateError.assertion := by
    intro h
    simp only [FeatureTable.update_error, h2 h]
  refine ⟨⟨fun herr => ?_, fun h => by rw [hbad h]; simp⟩, hbad, fun hall => ⟨?_, ?_⟩⟩
  · by_contra hno
    push_neg at hno
    obtain ⟨T2, hT2⟩ := h1 hno
    simp only [FeatureTable.update_error, hT2] at herr
    exact herr rfl
  · obtain ⟨T2, hT2⟩ := h1 hall
    refine ⟨T2, hT2, ?_⟩
    rw [← update_checked_toOption, hT2]
    rfl
  · intro p hp
    exact bin_index_lt T p hN (hall p hp).2.2

/-- Witness of the amended C12 on `fresh_table` and the points (11, 0), (31, 0). -/
theorem C12_update_failure_amended_witness :
    1 ≤ fresh_table.size ∧
    ((fresh_table.update_error [(11, 0), (31, 0)] ≠ none ↔
      ∃ p ∈ ([(11, 0), (31, 0)] : List Vec2), ¬ fresh_table.in_unit p) ∧
    ((∃ p ∈ ([(11, 0), (31, 0)] : List Vec2), ¬ fresh_table.in_unit p) →
      fresh_table.update_error [(11, 0), (31, 0)] = some UpdateError.assertion) ∧
    ((∀ p ∈ ([(11, 0), (31, 0)] : List Vec2), fresh_table.in_unit p) →
      (∃ T2, fresh_table.update_checked [(11, 0), (31, 0)] = Except.ok T2 ∧
        fresh_table.update [(11, 0), (31, 0)] = some T2) ∧
        ∀ p ∈ ([(11, 0), (31, 0)] : List Vec2), fresh_table.bin_index p < fresh_table.size)) :=
  ⟨by decide, C12_update_failure_amended fresh_table [(11, 0), (31, 0)] (by decide)⟩

/-! ### The aligned bounding box -/

/-- C19 fails as stated: for the input bounds `[10, 20] x [10, 20]` and rotation 0 the
transform is the translation by (-5, -5), the images of the four corners span the box
`[5, 15] x [5, 15]`, but the constructor, which starts from the box `ZERO`, computes
`[0, 15] x [0, 15]`: it also contains the origin, so it is not the smallest box containing
the four corner images. -/
theorem C19_aligned_bounds_counterexample :
    (FeatureTable.new 3 offset_bounds (centre_translation offset_bounds)).bounds =
      ⟨(0, 0), (15, 15)⟩ ∧
    corner_box (centre_translation offset_bounds offset_bounds.min)
      (centre_translation offset_bounds offset_bounds.max)
      (centre_translation offset_bounds (offset_bounds.min.1, offset_bounds.max.2))
      (centre_translation offset_bounds (offset_bounds.max.1, offset_bounds.min.2)) =
      ⟨(5, 5), (15, 15)⟩ ∧
    ¬ (FeatureTable.new 3 offset_bounds (centre_translation offset_bounds)).bounds.inside
      (corner_box (centre_translation offset_bounds offset_bounds.min)
        (centre_translation offset_bounds offset_bounds.max)
        (centre_translation offset_bounds (offset_bounds.min.1, offset_bounds.max.2))
        (centre_translation offset_bounds (offset_bounds.max.1, offset_bounds.min.2))) :=
  ⟨by decide!, by decide!, by unfold AlignedBox2.inside; decide!⟩

/-- C19 (amended): for every bin count, input bounds and transform, the aligned bounding box
computed by the constructor is exactly the smallest axis-aligned box that contains the
origin and the images of the four corners of the input bounds under the table's transform;
it equals the smallest box containing the four corner images alone if and only if that box
contains the origin. -/
theorem C19_aligned_bounds_amended (N : Nat) (bounds0 : AlignedBox2)
    (transform : Vec2 → Vec2) :
    (FeatureTable.new N bounds0 transform).bounds.contains (0, 0) ∧
    (FeatureTable.new N bounds0 transform).bounds.contains (transform bounds0.min) ∧
    (FeatureTable.new N bounds0 transform).bounds.contains (transform bounds0.max) ∧
    (FeatureTable.new N bounds0 transform).bounds.contains
      (transform (bounds0.min.1, bounds0.max.2)) ∧
    (FeatureTable.new N bounds0 transform).bounds.contains
      (transform (bounds0.max.1, bounds0.min.2)) ∧
    (∀ B : AlignedBox2, B.contains (0, 0) ∧ B.contains (transform bounds0.min) ∧
      B.contains (transform bounds0.max) ∧
      B.contains (transform (bounds0.min.1, bounds0.max.2)) ∧
      B.contains (transform (bounds0.max.1, bounds0.min.2)) →
      (FeatureTable.new N bounds0 transform).bounds.inside B) ∧
    ((FeatureTable.new N bounds0 transform).bounds =
        corner_box (transform bounds0.min) (transform bounds0.max)
          (transform (bounds0.min.1, bounds0.max.2))
          (transform (bounds0.max.1, bounds0.min.2)) ↔
      (corner_box (transform bounds0.min) (transform bounds0.max)
        (transform (bounds0.min.1, bounds0.max.2))
        (transform (bounds0.max.1, bounds0.min.2))).contains (0, 0)) := by
  simp only [FeatureTable.new, AlignedBox2.union_with_point, AlignedBox2.contains,
    AlignedBox2.inside, corner_box]
  generalize transform bounds0.min = p1
  generalize transform bounds0.max = p2
  generalize transform (bounds0.min.1, bounds0.max.2) = p3
  generalize transform (bounds0.max.1, bounds0.min.2) = p4
  refine ⟨?_, ?_, ?_, ?_, ?_, ?_, ?_⟩
  · simp
  · simp
  · simp
  · simp
  · simp
  · rintro B ⟨⟨a1, a2, a3, a4⟩, ⟨b1, b2, b3, b4⟩, ⟨c1, c2, c3, c4⟩, ⟨d1, d2, d3, d4⟩,
      ⟨e1, e2, e3, e4⟩⟩
    simp only [le_min_iff, max_le_iff]
    exact ⟨⟨⟨⟨⟨a1, b1⟩, c1⟩, d1⟩, e1⟩, ⟨⟨⟨⟨a2, b2⟩, c2⟩, d2⟩, e2⟩, ⟨⟨⟨⟨a3, b3⟩, c3⟩, d3⟩, e3⟩,
      ⟨⟨⟨⟨a4, b4⟩, c4⟩, d4⟩, e4⟩⟩
  · have hmin : ∀ a b c d : ℚ,
        min (min (min (min 0 a) b) c) d = min 0 (min (min (min a b) c) d) := by
      intro a b c d; simp only [min_assoc]
    have hmax : ∀ a b c d : ℚ,
        max (max (max (max 0 a) b) c) d = max 0 (max (max (max a b) c) d) := by
      intro a b c d; simp only [max_assoc]
    rw [hmin, hmin, hmax, hmax]
    simp only [AlignedBox2.mk.injEq, Prod.mk.injEq, min_eq_right_iff, max_eq_right_iff]
    tauto

/-! ### The rasterizer used by `features_along_line` -/

theorem ordered_loop_done (steep : Bool) (endX dx dy ystep increment : Int) (fuel : Nat)
    (y e : Int) :
    ordered_loop steep endX dx dy ystep increment fuel endX y e = some [] := by
  cases fuel <;> simp [ordered_loop]

/-- Running towards a larger end coordinate, the two loops are the same loop. -/
theorem normalized_loop_eq_ordered (steep : Bool) (endX dx dy ystep : Int) :
    ∀ (fuel : Nat) (x y e : Int), x ≤ endX →
      normalized_loop steep endX dx dy ystep fuel x y e =
        ordered_loop steep endX dx dy ystep 1 fuel x y e := by
  intro fuel
  induction fuel with
  | zero =>
    intro x y e hx
    by_cases h : x < endX
    · have h2 : x ≠ endX := by omega
      simp [normalized_loop, ordered_loop, h, h2]
    · have h2 : x = endX := by omega
      simp [normalized_loop, ordered_loop, h, h2]
  | succ n ih =>
    intro x y e hx
    by_cases h : x < endX
    · have h2 : x ≠ endX := by omega
      simp only [normalized_loop, ordered_loop, h, h2, if_true, ne_eq, not_false_eq_true]
      rw [ih (x + 1) (y + ystep) (e - dy + dx) (by omega), ih (x + 1) y (e - dy) (by omega)]
    · have h2 : x = endX := by omega
      subst h2
      simp [normalized_loop, ordered_loop]

/-- The normalized rasterizer is the ordered rasterizer applied to the endpoints sorted by
their dominant-axis coordinate. -/
theorem normalized_eq_ordered_sorted (a b : Vec2i) (fuel : Nat) :
    bresenham_normalized_line a b fuel =
      bresenham_ordered_line
        (if major (is_steep a b) a ≤ major (is_steep a b) b then a else b)
        (if major (is_steep a b) a ≤ major (is_steep a b) b then b else a) fuel := by
  obtain ⟨ax, ay⟩ := a
  obtain ⟨bx, by_⟩ := b
  have h1 := iabs_sub_comm by_ ay
  have h2 := iabs_sub_comm bx ax
  by_cases hs : iabs (by_ - ay) > iabs (bx - ax)
  · have hst : is_steep (ax, ay) (bx, by_) = true := by simp [is_steep, hs]
    have hs2 : iabs (ay - by_) > iabs (ax - bx) := by omega
    simp only [hst, major, if_true]
    rcases lt_trichotomy ay by_ with h | h | h
    · have h3 : ¬ ay > by_ := by omega
      have h4 : ay ≤ by_ := by omega
      have h5 : iabs (by_ - ay) = by_ - ay := by simp only [iabs]; split_ifs <;> omega
      simp only [bresenham_normalized_line, bresenham_ordered_line, hs, h3, h4, h,
        decide_True, if_true, if_false]
      rw [h5]
      exact normalized_loop_eq_ordered _ _ _ _ _ _ _ _ _ h4
    · exfalso
      subst h
      simp only [iabs] at hs
      split_ifs at hs <;> omega
    · have h3 : ay > by_ := h
      have h4 : ¬ ay ≤ by_ := by omega
      have h5 : iabs (ay - by_) = ay - by_ := by simp only [iabs]; split_ifs <;> omega
      simp only [bresenham_normalized_line, bresenham_ordered_line, hs, hs2, h3, h4, h,
        decide_True, if_true, if_false]
      rw [h5]
      exact normalized_loop_eq_ordered _ _ _ _ _ _ _ _ _ (by omega)
  · have hst : is_steep (ax, ay) (bx, by_) = false := by simp [is_steep, hs]
    have hs2 : ¬ iabs (ay - by_) > iabs (ax - bx) := by omega
    simp only [hst, major, if_false, Bool.false_eq_true]
    rcases lt_trichotomy ax bx with h | h | h
    · have h3 : ¬ ax > bx := by omega
      have h4 : ax ≤ bx := by omega
      have h5 : iabs (bx - ax) = bx - ax := by simp only [iabs]; split_ifs <;> omega
      simp only [bresenham_normalized_line, bresenham_ordered_line, hs, h3, h4, h,
        decide_False, if_true, if_false, Bool.false_eq_true]
      rw [h5]
      exact normalized_loop_eq_ordered _ _ _ _ _ _ _ _ _ h4
    · subst h
      have h3 : ¬ ax > ax := by omega
      simp only [bresenham_normalized_line, bresenham_ordered_line, hs, h3, le_refl,
        decide_False, if_true, if_false, Bool.false_eq_true, normalized_loop_done,
        ordered_loop_done, lt_irrefl, not_false_eq_true]
    · have h3 : ax > bx := h
      have h4 : ¬ ax ≤ bx := by omega
      have h5 : iabs (ax - bx) = ax - bx := by simp only [iabs]; split_ifs <;> omega
      simp only [bresenham_normalized_line, bresenham_ordered_line, hs, hs2, h3, h4, h,
        decide_False, if_true, if_false, Bool.false_eq_true]
      rw [h5]
      exact normalized_loop_eq_ordered _ _ _ _ _ _ _ _ _ (by omega)

/-- C18 fails as stated: in a 10 by 10 image, for start (1, 5) and end (0, 5) the
bottom-origin endpoints are (1, 5) and (0, 5); `features_along_line` samples `[(0, 5)]`,
the output of the normalized rasterizer, whereas `bresenham_ordered_line` emits `[(1, 5)]`
for these endpoints. -/
theorem C18_rasterizer_variant_counterexample :
    sampled_coordinates black_image (1, 5) (0, 5) 1 = some [(0, 5)] ∧
    bresenham_ordered_line (1, (black_image.height : Int) - 5)
      (0, (black_image.height : Int) - 5) 1 = some [(1, 5)] ∧
    ¬ (sampled_coordinates black_image (1, 5) (0, 5) 1 =
      bresenham_ordered_line (1, (black_image.height : Int) - 5)
        (0, (black_image.height : Int) - 5) 1) := by
  decide

/-- C18 (amended): `features_along_line` drives the edge detector with the coordinates
produced by the normalized rasterizer variant for the bottom-origin endpoints: for every
start and end, the sequence of coordinates it samples equals the sequence
`bresenham_normalized_line` emits, which is the sequence `bresenham_ordered_line` emits for
the two bottom-origin endpoints taken in the order of increasing dominant-axis coordinate,
whichever of them the caller passed as start. -/
theorem C18_rasterizer_variant_amended (interp : ℚ → Vec2 → Vec2 → Vec2) (image : Image)
    (start end_ : Vec2i) (features : List Vec2) (fuel : Nat) :
    features_along_line interp image start end_ features fuel =
      (sampled_coordinates image start end_ fuel).map (fun pts =>
        detect interp (pts.map (fun offset =>
          ((((offset.1 : ℚ), (image.height : ℚ) - (offset.2 : ℚ)) : Vec2),
            (((image.read offset).1 : ℚ) + ((image.read offset).2.1 : ℚ) +
              ((image.read offset).2.2 : ℚ)) / 3))) features) ∧
    sampled_coordinates image start end_ fuel =
      bresenham_normalized_line (start.1, (image.height : Int) - start.2)
        (end_.1, (image.height : Int) - end_.2) fuel ∧
    sampled_coordinates image start end_ fuel =
      bresenham_ordered_line
        (if major (is_steep (start.1, (image.height : Int) - start.2)
              (end_.1, (image.height : Int) - end_.2))
              (start.1, (image.height : Int) - start.2) ≤
            major (is_steep (start.1, (image.height : Int) - start.2)
              (end_.1, (image.height : Int) - end_.2))
              (end_.1, (image.height : Int) - end_.2)
          then (start.1, (image.height : Int) - start.2)
          else (end_.1, (image.height : Int) - end_.2))
        (if major (is_steep (start.1, (image.height : Int) - start.2)
              (end_.1, (image.height : Int) - end_.2))
              (start.1, (image.height : Int) - start.2) ≤
            major (is_steep (start.1, (image.height : Int) - start.2)
              (end_.1, (image.height : Int) - end_.2))
              (end_.1, (image.height : Int) - end_.2)
          then (end_.1, (image.height : Int) - end_.2)
          else (start.1, (image.height : Int) - start.2)) fuel := by
  refine ⟨rfl, rfl, ?_⟩
  unfold sampled_coordinates
  exact normalized_eq_ordered_sorted _ _ fuel

/-! ### The error term of the rasterizers -/

theorem ordered_states_ne_nil (endX dx dy ystep increment : Int) :
    ∀ (fuel : Nat) (x y e : Int) (tr : List (Int × Int × Int)),
      ordered_states endX dx dy ystep increment fuel x y e = some tr → tr ≠ [] := by
  intro fuel
  induction fuel with
  | zero =>
    intro x y e tr h
    simp only [ordered_states] at h
    split_ifs at h
    simp only [Option.some.injEq] at h
    subst h; simp
  | succ n ih =>
    intro x y e tr h
    simp only [ordered_states] at h
    split_ifs at h
    · cases h1 : ordered_states endX dx dy ystep increment n (x + increment) (y + ystep)
          (e - dy + dx) with
      | none => rw [h1] at h; simp at h
      | some t => rw [h1] at h; simp at h; subst h; simp
    · cases h1 : ordered_states endX dx dy ystep increment n (x + increment) y (e - dy) with
      | none => rw [h1] at h; simp at h
      | some t => rw [h1] at h; simp at h; subst h; simp
    · simp only [Option.some.injEq] at h
      subst h; simp

theorem emitted_cons (steep : Bool) (s : Int × Int × Int) (t : List (Int × Int × Int))
    (ht : t ≠ []) : emitted steep (s :: t) = emit steep s.1 s.2.1 :: emitted steep t := by
  unfold emitted
  rw [List.dropLast_cons_of_ne_nil ht, List.map_cons]

/-- The callback arguments of the ordered loop are read off its loop states. -/
theorem ordered_loop_eq_emitted (steep : Bool) (endX dx dy ystep increment : Int) :
    ∀ (fuel : Nat) (x y e : Int),
      ordered_loop steep endX dx dy ystep increment fuel x y e =
        (ordered_states endX dx dy ystep increment fuel x y e).map (emitted steep) := by
  intro fuel
  induction fuel with
  | zero =>
    intro x y e
    simp only [ordered_loop, ordered_states]
    split_ifs <;> simp [emitted]
  | succ n ih =>
    intro x y e
    simp only [ordered_loop, ordered_states]
    split_ifs with h1 h2
    · rw [ih]
      cases h3 : ordered_states endX dx dy ystep increment n (x + increment) (y + ystep)
          (e - dy + dx) with
      | none => rfl
      | some t =>
        simp only [Option.map_some', Option.some.injEq]
        rw [emitted_cons steep _ t (ordered_states_ne_nil _ _ _ _ _ _ _ _ _ _ h3)]
    · rw [ih]
      cases h3 : ordered_states endX dx dy ystep increment n (x + increment) y (e - dy) with
      | none => rfl
      | some t =>
        simp only [Option.map_some', Option.some.injEq]
        rw [emitted_cons steep _ t (ordered_states_ne_nil _ _ _ _ _ _ _ _ _ _ h3)]
    · simp [emitted]

theorem normalized_states_eq_ordered (endX dx dy ystep : Int) :
    ∀ (fuel : Nat) (x y e : Int), x ≤ endX →
      normalized_states endX dx dy ystep fuel x y e =
        ordered_states endX dx dy ystep 1 fuel x y e := by
  intro fuel
  induction fuel with
  | zero =>
    intro x y e hx
    by_cases h : x < endX
    · have h2 : x ≠ endX := by omega
      simp [normalized_states, ordered_states, h, h2]
    · have h2 : x = endX := by omega
      simp [normalized_states, ordered_states, h, h2]
  | succ n ih =>
    intro x y e hx
    by_cases h : x < endX
    · have h2 : x ≠ endX := by omega
      simp only [normalized_states, ordered_states, h, h2, if_true, ne_eq, not_false_eq_true]
      rw [ih (x + 1) (y + ystep) (e - dy + dx) (by omega), ih (x + 1) y (e - dy) (by omega)]
    · have h2 : x = endX := by omega
      subst h2
      simp [normalized_states, ordered_states]

/-- Invariant of the ordered loop: at every loop test the error term lies in `[0, dx)`, and
it records how far `y` has moved: `error = error0 - j * dy + m * dx` after `j` iterations
with `m` steps of `y`. -/
theorem ordered_states_spec (endX dx dy ystep increment : Int) (hdy : 0 ≤ dy)
    (hdx : dy ≤ dx) :
    ∀ (fuel : Nat) (x y e : Int), (endX - x).natAbs ≤ fuel →
      ((increment = 1 ∧ x ≤ endX) ∨ (increment = -1 ∧ endX ≤ x)) → 0 ≤ e → e < dx →
      ∃ tr, ordered_states endX dx dy ystep increment fuel x y e = some tr ∧
        tr.length = (endX - x).natAbs + 1 ∧
        ∀ (j : Nat) (s : Int × Int × Int), tr[j]? = some s →
          s.1 = x + increment * (j : Int) ∧ 0 ≤ s.2.2 ∧ s.2.2 < dx ∧
            ∃ m : Int, s.2.1 = y + ystep * m ∧ s.2.2 = e - (j : Int) * dy + m * dx := by
  intro fuel
  induction fuel with
  | zero =>
    intro x y e h _ he0 he1
    have hx : x = endX := by omega
    subst hx
    refine ⟨[(x, y, e)], by simp [ordered_states], by simp, ?_⟩
    intro j s hs
    cases j with
    | zero =>
      simp only [List.getElem?_cons_zero, Option.some.injEq] at hs
      subst hs
      exact ⟨by simp, he0, he1, 0, by simp, by simp⟩
    | succ j => simp at hs
  | succ n ih =>
    intro x y e h hdir he0 he1
    by_cases hx : x = endX
    · subst hx
      refine ⟨[(x, y, e)], by simp [ordered_states], by simp, ?_⟩
      intro j s hs
      cases j with
      | zero =>
        simp only [List.getElem?_cons_zero, Option.some.injEq] at hs
        subst hs
        exact ⟨by simp, he0, he1, 0, by simp, by simp⟩
      | succ j => simp at hs
    · have hn : (endX - x).natAbs = (endX - (x + increment)).natAbs + 1 := by omega
      have hdir2 : (increment = 1 ∧ x + increment ≤ endX) ∨
          (increment = -1 ∧ endX ≤ x + increment) := by omega
      by_cases he : e - dy < 0
      · obtain ⟨tr, htr, hlen, hall⟩ :=
          ih (x + increment) (y + ystep) (e - dy + dx) (by omega) hdir2 (by omega) (by omega)
        refine ⟨(x, y, e) :: tr, by simp [ordered_states, hx, he, htr],
          by simp [hlen, hn], ?_⟩
        intro j s hs
        cases j with
        | zero =>
          simp only [List.getElem?_cons_zero, Option.some.injEq] at hs
          subst hs
          exact ⟨by simp, he0, he1, 0, by simp, by simp⟩
        | succ j =>
          simp only [List.getElem?_cons_succ] at hs
          obtain ⟨g1, g2, g3, m, g4, g5⟩ := hall j s hs
          refine ⟨by rw [g1]; push_cast; ring, g2, g3, m + 1, by rw [g4]; ring,
            by rw [g5]; push_cast; ring⟩
      · obtain ⟨tr, htr, hlen, hall⟩ :=
          ih (x + increment) y (e - dy) (by omega) hdir2 (by omega) (by omega)
        refine ⟨(x, y, e) :: tr, by simp [ordered_states, hx, he, htr],
          by simp [hlen, hn], ?_⟩
        intro j s hs
        cases j with
        | zero =>
          simp only [List.getElem?_cons_zero, Option.some.injEq] at hs
          subst hs
          exact ⟨by simp, he0, he1, 0, by simp, by simp⟩
        | succ j =>
          simp only [List.getElem?_cons_succ] at hs
          obtain ⟨g1, g2, g3, m, g4, g5⟩ := hall j s hs
          refine ⟨by rw [g1]; push_cast; ring, g2, g3, m, g4,
            by rw [g5]; push_cast; ring⟩

/-- From the error term to the distance from the exact line: the minor coordinate after
`j` iterations is within 1/2 of `y0 + j * delta / dx`. -/
theorem deviation_bound (dx dy ystep y0 yj e0 ej m delta : Int) (j : Nat)
    (hdelta : delta = ystep * dy) (hy : ystep = 1 ∨ ystep = -1) (hdx : 0 < dx)
    (h1 : yj = y0 + ystep * m) (h2 : ej = e0 - (j : Int) * dy + m * dx)
    (h3 : -dx ≤ 2 * (ej - e0)) (h4 : 2 * (ej - e0) ≤ dx) :
    |(yj : ℚ) - ((y0 : ℚ) + (j : ℚ) * (delta : ℚ) / (dx : ℚ))| ≤ 1 / 2 := by
  have hq : (0 : ℚ) < (dx : ℚ) := by exact_mod_cast hdx
  have h3q : -(dx : ℚ) ≤ 2 * ((ej : ℚ) - (e0 : ℚ)) := by exact_mod_cast h3
  have h4q : 2 * ((ej : ℚ) - (e0 : ℚ)) ≤ (dx : ℚ) := by exact_mod_cast h4
  have h2q : (ej : ℚ) = (e0 : ℚ) - (j : ℚ) * (dy : ℚ) + (m : ℚ) * (dx : ℚ) := by
    exact_mod_cast h2
  have key : (yj : ℚ) - ((y0 : ℚ) + (j : ℚ) * (delta : ℚ) / (dx : ℚ)) =
      (ystep : ℚ) * ((ej : ℚ) - (e0 : ℚ)) / (dx : ℚ) := by
    rw [h1, hdelta, h2q]
    push_cast
    field_simp
    ring
  rw [key, abs_le]
  rcases hy with h | h
  · subst h
    simp only [Int.cast_one, one_mul]
    constructor
    · rw [le_div_iff₀ hq]; linarith
    · rw [div_le_iff₀ hq]; linarith
  · subst h
    simp only [Int.reduceNeg, Int.cast_neg, Int.cast_one, neg_mul, one_mul]
    constructor
    · rw [le_div_iff₀ hq]; linarith
    · rw [div_le_iff₀ hq]; linarith

theorem tdiv_two (v : Int) (hv : 0 ≤ v) : Int.tdiv v 2 = v / 2 :=
  Int.tdiv_eq_ediv hv (by decide)

/-- The ordered loop in the coordinates of the loop variables, for a dominant X axis. -/
theorem ordered_states_core (sx sy ex ey : Int) (fuel : Nat)
    (hdom : iabs (ey - sy) ≤ iabs (ex - sx)) (hne : sx ≠ ex)
    (hf : (ex - sx).natAbs ≤ fuel) :
    ∃ tr, ordered_states ex (iabs (ex - sx)) (iabs (ey - sy)) (if sy < ey then 1 else -1)
        (if sx < ex then 1 else -1) fuel sx sy (Int.tdiv (iabs (ex - sx)) 2) = some tr ∧
      tr.length = (ex - sx).natAbs + 1 ∧
      ∀ (j : Nat) (s : Int × Int × Int), tr[j]? = some s →
        s.1 = sx + (if sx < ex then 1 else -1) * (j : Int) ∧ 0 ≤ s.2.2 ∧
        s.2.2 < ((ex - sx).natAbs : Int) ∧
        |(s.2.1 : ℚ) - ((sy : ℚ) + (j : ℚ) * ((ey - sy : Int) : ℚ) /
          (((ex - sx).natAbs : Int) : ℚ))| ≤ 1 / 2 := by
  have hdx : iabs (ex - sx) = ((ex - sx).natAbs : Int) := by
    simp only [iabs]; split_ifs <;> omega
  have hdy0 : 0 ≤ iabs (ey - sy) := by
    simp only [iabs]; split_ifs <;> omega
  have hpos : 0 < ((ex - sx).natAbs : Int) := by omega
  have he0 := tdiv_two (iabs (ex - sx)) (by rw [hdx]; omega)
  obtain ⟨tr, htr, hlen, hall⟩ := ordered_states_spec ex (iabs (ex - sx)) (iabs (ey - sy))
    (if sy < ey then 1 else -1) (if sx < ex then 1 else -1) hdy0 hdom fuel sx sy
    (Int.tdiv (iabs (ex - sx)) 2) hf (by split_ifs <;> omega) (by rw [he0, hdx]; omega)
    (by rw [he0, hdx]; omega)
  refine ⟨tr, htr, hlen, ?_⟩
  intro j s hs
  obtain ⟨g1, g2, g3, m, g4, g5⟩ := hall j s hs
  rw [hdx] at g3
  refine ⟨g1, g2, g3, ?_⟩
  rw [he0, hdx] at g5
  refine deviation_bound ((ex - sx).natAbs : Int) (iabs (ey - sy))
    (if sy < ey then 1 else -1) sy s.2.1 (((ex - sx).natAbs : Int) / 2) s.2.2 m (ey - sy) j
    ?_ (by split_ifs <;> simp) hpos g4 ?_ (by omega) (by omega)
  · simp only [iabs]; split_ifs <;> omega
  · exact g5

/-- The loop states of `bresenham_ordered_line` with enough fuel. -/
theorem ordered_states_line (a b : Vec2i) (fuel : Nat) (hd : 0 < dominant_length a b)
    (hf : dominant_length a b ≤ fuel) :
    ∃ tr, bresenham_ordered_states a b fuel = some tr ∧
      bresenham_ordered_line a b fuel = some (emitted (is_steep a b) tr) ∧
      tr.length = dominant_length a b + 1 ∧
      ∀ (j : Nat) (s : Int × Int × Int), tr[j]? = some s →
        s.1 = major (is_steep a b) a +
          (if major (is_steep a b) a < major (is_steep a b) b then 1 else -1) * (j : Int) ∧
        0 ≤ s.2.2 ∧ s.2.2 < (dominant_length a b : Int) ∧
        |(s.2.1 : ℚ) - ((minor (is_steep a b) a : ℚ) + (j : ℚ) *
          ((minor (is_steep a b) b - minor (is_steep a b) a : Int) : ℚ) /
            ((dominant_length a b : Int) : ℚ))| ≤ 1 / 2 := by
  obtain ⟨ax, ay⟩ := a
  obtain ⟨bx, by_⟩ := b
  simp only [dominant_length] at hd hf ⊢
  by_cases hs : iabs (by_ - ay) > iabs (bx - ax)
  · have hst : is_steep (ax, ay) (bx, by_) = true := by simp [is_steep, hs]
    have hlen : (by_ - ay).natAbs = max (bx - ax).natAbs (by_ - ay).natAbs := by
      simp only [iabs] at hs; split_ifs at hs <;> omega
    obtain ⟨tr, htr, h1, h2⟩ := ordered_states_core ay ax by_ bx fuel (le_of_lt hs)
      (by omega) (by omega)
    refine ⟨tr, ?_, ?_, by omega, ?_⟩
    · simpa [bresenham_ordered_states, hs] using htr
    · have := ordered_loop_eq_emitted true by_ (iabs (by_ - ay)) (iabs (bx - ax))
        (if ax < bx then 1 else -1) (if ay < by_ then 1 else -1) fuel ay ax
        (Int.tdiv (iabs (by_ - ay)) 2)
      rw [htr] at this
      simpa [bresenham_ordered_line, hs, hst] using this
    · rw [← hlen]
      simpa [hst, major, minor] using h2
  · have hst : is_steep (ax, ay) (bx, by_) = false := by simp [is_steep, hs]
    have hlen : (bx - ax).natAbs = max (bx - ax).natAbs (by_ - ay).natAbs := by
      simp only [iabs] at hs; split_ifs at hs <;> omega
    obtain ⟨tr, htr, h1, h2⟩ := ordered_states_core ax ay bx by_ fuel (not_lt.mp hs)
      (by omega) (by omega)
    refine ⟨tr, ?_, ?_, by omega, ?_⟩
    · simpa [bresenham_ordered_states, hs] using htr
    · have := ordered_loop_eq_emitted false bx (iabs (bx - ax)) (iabs (by_ - ay))
        (if ay < by_ then 1 else -1) (if ax < bx then 1 else -1) fuel ax ay
        (Int.tdiv (iabs (bx - ax)) 2)
      rw [htr] at this
      simpa [bresenham_ordered_line, hs, hst] using this
    · rw [← hlen]
      simpa [hst, major, minor] using h2

theorem ordered_states_done (endX dx dy ystep increment : Int) (fuel : Nat) (y e : Int) :
    ordered_states endX dx dy ystep increment fuel endX y e = some [(endX, y, e)] := by
  cases fuel <;> simp [ordered_states]

theorem normalized_states_done (endX dx dy ystep : Int) (fuel : Nat) (y e : Int) :
    normalized_states endX dx dy ystep fuel endX y e = some [(endX, y, e)] := by
  cases fuel <;> simp [normalized_states]

theorem normalized_states_eq_sorted (a b : Vec2i) (fuel : Nat) :
    bresenham_normalized_states a b fuel =
      bresenham_ordered_states (first_endpoint a b) (last_endpoint a b) fuel := by
  obtain ⟨ax, ay⟩ := a
  obtain ⟨bx, by_⟩ := b
  have h1 := iabs_sub_comm by_ ay
  have h2 := iabs_sub_comm bx ax
  unfold first_endpoint last_endpoint
  by_cases hs : iabs (by_ - ay) > iabs (bx - ax)
  · have hst : is_steep (ax, ay) (bx, by_) = true := by simp [is_steep, hs]
    have hs2 : iabs (ay - by_) > iabs (ax - bx) := by omega
    simp only [hst, major, if_true]
    rcases lt_trichotomy ay by_ with h | h | h
    · have h3 : ¬ ay > by_ := by omega
      have h4 : ay ≤ by_ := by omega
      have h5 : iabs (by_ - ay) = by_ - ay := by simp only [iabs]; split_ifs <;> omega
      simp only [bresenham_normalized_states, bresenham_ordered_states, hs, h3, h4, h,
        decide_True, if_true, if_false]
      rw [h5]
      exact normalized_states_eq_ordered _ _ _ _ _ _ _ _ h4
    · exfalso
      subst h
      simp only [iabs] at hs
      split_ifs at hs <;> omega
    · have h3 : ay > by_ := h
      have h4 : ¬ ay ≤ by_ := by omega
      have h5 : iabs (ay - by_) = ay - by_ := by simp only [iabs]; split_ifs <;> omega
      simp only [bresenham_normalized_states, bresenham_ordered_states, hs, hs2, h3, h4, h,
        decide_True, if_true, if_false]
      rw [h5]
      exact normalized_states_eq_ordered _ _ _ _ _ _ _ _ (by omega)
  · have hst : is_steep (ax, ay) (bx, by_) = false := by simp [is_steep, hs]
    have hs2 : ¬ iabs (ay - by_) > iabs (ax - bx) := by omega
    simp only [hst, major, if_false, Bool.false_eq_true]
    rcases lt_trichotomy ax bx with h | h | h
    · have h3 : ¬ ax > bx := by omega
      have h4 : ax ≤ bx := by omega
      have h5 : iabs (bx - ax) = bx - ax := by simp only [iabs]; split_ifs <;> omega
      simp only [bresenham_normalized_states, bresenham_ordered_states, hs, h3, h4, h,
        decide_False, if_true, if_false, Bool.false_eq_true]
      rw [h5]
      exact normalized_states_eq_ordered _ _ _ _ _ _ _ _ h4
    · subst h
      have h3 : ¬ ax > ax := by omega
      have h5 : iabs (ax - ax) = ax - ax := by simp only [iabs]; split_ifs <;> omega
      simp only [bresenham_normalized_states, bresenham_ordered_states, hs, h3, le_refl,
        decide_False, if_true, if_false, Bool.false_eq_true]
      rw [h5, normalized_states_done, ordered_states_done]
    · have h3 : ax > bx := h
      have h4 : ¬ ax ≤ bx := by omega
      have h5 : iabs (ax - bx) = ax - bx := by simp only [iabs]; split_ifs <;> omega
      simp only [bresenham_normalized_states, bresenham_ordered_states, hs, hs2, h3, h4, h,
        decide_False, if_true, if_false, Bool.false_eq_true]
      rw [h5]
      exact normalized_states_eq_ordered _ _ _ _ _ _ _ _ (by omega)

theorem sorted_endpoints (a b : Vec2i) :
    is_steep (first_endpoint a b) (last_endpoint a b) = is_steep a b ∧
      dominant_length (first_endpoint a b) (last_endpoint a b) = dominant_length a b ∧
      major (is_steep a b) (first_endpoint a b) ≤ major (is_steep a b) (last_endpoint a b) := by
  unfold first_endpoint last_endpoint
  by_cases h : major (is_steep a b) a ≤ major (is_steep a b) b
  · simp only [h, if_true, and_self]
  · simp only [h, if_false]
    exact ⟨(is_steep_comm a b).symm, dominant_length_comm b a, by omega⟩

/-- C17: for all integer endpoints with dominant-axis length `d = max(|dx|, |dy|) > 0` and
enough fuel, the loop of `bresenham_ordered_line` and of `bresenham_normalized_line` passes
through `d + 1` states `(x, y, error)`, of which the first `d` are emitted. The `k`-th state
lies `k` steps along the dominant axis from the first emitted endpoint (the start for the
ordered variant, the endpoint with the smaller dominant coordinate for the normalized one),
its minor-axis coordinate differs from the exact line's value
`first.minor + k * delta_minor / d` by at most 1/2, and its error term lies in `[0, d)`. -/
theorem C17_error_term (a b : Vec2i) (fuel : Nat) (hd : 0 < dominant_length a b)
    (hf : dominant_length a b ≤ fuel) :
    (∃ tr, bresenham_ordered_states a b fuel = some tr ∧
      bresenham_ordered_line a b fuel = some (emitted (is_steep a b) tr) ∧
      tr.length = dominant_length a b + 1 ∧
      ∀ (k : Nat) (s : Int × Int × Int), tr[k]? = some s →
        s.1 = major (is_steep a b) a +
          (if major (is_steep a b) a < major (is_steep a b) b then 1 else -1) * (k : Int) ∧
        0 ≤ s.2.2 ∧ s.2.2 < (dominant_length a b : Int) ∧
        |(s.2.1 : ℚ) - ((minor (is_steep a b) a : ℚ) + (k : ℚ) *
          ((minor (is_steep a b) b - minor (is_steep a b) a : Int) : ℚ) /
            ((dominant_length a b : Int) : ℚ))| ≤ 1 / 2) ∧
    (∃ tr, bresenham_normalized_states a b fuel = some tr ∧
      bresenham_normalized_line a b fuel = some (emitted (is_steep a b) tr) ∧
      tr.length = dominant_length a b + 1 ∧
      ∀ (k : Nat) (s : Int × Int × Int), tr[k]? = some s →
        s.1 = major (is_steep a b) (first_endpoint a b) + (k : Int) ∧
        0 ≤ s.2.2 ∧ s.2.2 < (dominant_length a b : Int) ∧
        |(s.2.1 : ℚ) - ((minor (is_steep a b) (first_endpoint a b) : ℚ) + (k : ℚ) *
          ((minor (is_steep a b) (last_endpoint a b) -
            minor (is_steep a b) (first_endpoint a b) : Int) : ℚ) /
            ((dominant_length a b : Int) : ℚ))| ≤ 1 / 2) := by
  refine ⟨ordered_states_line a b fuel hd hf, ?_⟩
  obtain ⟨h1, h2, h3⟩ := sorted_endpoints a b
  obtain ⟨tr, g1, g2, g3, g4⟩ := ordered_states_line (first_endpoint a b) (last_endpoint a b)
    fuel (by rw [h2]; exact hd) (by rw [h2]; exact hf)
  simp only [h1, h2] at g2 g3 g4
  have hlt : major (is_steep a b) (first_endpoint a b) <
      major (is_steep a b) (last_endpoint a b) := by
    have := dominant_length_major (first_endpoint a b) (last_endpoint a b)
    rw [h1, h2] at this
    omega
  refine ⟨tr, by rw [normalized_states_eq_sorted]; exact g1, ?_, g3, ?_⟩
  · rw [normalized_eq_ordered_sorted]
    exact g2
  · intro k s hs
    have := g4 k s hs
    rw [if_pos hlt, one_mul] at this
    exact this

/-- Witness of C17 on the segment from (5, 2) to (0, 0) with fuel 5. -/
theorem C17_error_term_witness :
    0 < dominant_length ((5, 2) : Vec2i) (0, 0) ∧ dominant_length ((5, 2) : Vec2i) (0, 0) ≤ 5 ∧
    ((∃ tr, bresenham_ordered_states (5, 2) (0, 0) 5 = some tr ∧
      bresenham_ordered_line (5, 2) (0, 0) 5 = some (emitted (is_steep (5, 2) (0, 0)) tr) ∧
      tr.length = dominant_length (5, 2) (0, 0) + 1 ∧
      ∀ (k : Nat) (s : Int × Int × Int), tr[k]? = some s →
        s.1 = major (is_steep (5, 2) (0, 0)) (5, 2) +
          (if major (is_steep (5, 2) (0, 0)) (5, 2) < major (is_steep (5, 2) (0, 0)) (0, 0)
            then 1 else -1) * (k : Int) ∧
        0 ≤ s.2.2 ∧ s.2.2 < (dominant_length (5, 2) (0, 0) : Int) ∧
        |(s.2.1 : ℚ) - ((minor (is_steep (5, 2) (0, 0)) (5, 2) : ℚ) + (k : ℚ) *
          ((minor (is_steep (5, 2) (0, 0)) (0, 0) -
            minor (is_steep (5, 2) (0, 0)) (5, 2) : Int) : ℚ) /
            ((dominant_length (5, 2) (0, 0) : Int) : ℚ))| ≤ 1 / 2) ∧
    (∃ tr, bresenham_normalized_states (5, 2) (0, 0) 5 = some tr ∧
      bresenham_normalized_line (5, 2) (0, 0) 5 =
        some (emitted (is_steep (5, 2) (0, 0)) tr) ∧
      tr.length = dominant_length (5, 2) (0, 0) + 1 ∧
      ∀ (k : Nat) (s : Int × Int × Int), tr[k]? = some s →
        s.1 = major (is_steep (5, 2) (0, 0)) (first_endpoint (5, 2) (0, 0)) + (k : Int) ∧
        0 ≤ s.2.2 ∧ s.2.2 < (dominant_length (5, 2) (0, 0) : Int) ∧
        |(s.2.1 : ℚ) - ((minor (is_steep (5, 2) (0, 0)) (first_endpoint (5, 2) (0, 0)) : ℚ) +
          (k : ℚ) *
          ((minor (is_steep (5, 2) (0, 0)) (last_endpoint (5, 2) (0, 0)) -
            minor (is_steep (5, 2) (0, 0)) (first_endpoint (5, 2) (0, 0)) : Int) : ℚ) /
            ((dominant_length (5, 2) (0, 0) : Int) : ℚ))| ≤ 1 / 2)) :=
  ⟨by decide, by decide, C17_error_term (5, 2) (0, 0) 5 (by decide) (by decide)⟩

/-! ### The zero-crossing test -/

/-- C13 evaluated at a failing input: in a 50 by 50 image the points (1/2, 4/5) and
(99/2, 1/2) lie in the clipping box `[1/2, 99/2] x [1/2, 99/2]`; converted to `Vec2i` they
are (0, 0) and (49, 0), whose bottom-origin rows are `50 - 0 = 50`, and `features_along_line`
reads the image at the 49 coordinates (0, 50), ..., (48, 50), all in row 50, which is not
below the height 50. -/
theorem C13_read_out_of_range :
    (clipping_box small_image).contains (1 / 2, 4 / 5) ∧
    (clipping_box small_image).contains (99 / 2, 1 / 2) ∧
    to_Vec2i (1 / 2, 4 / 5) = (0, 0) ∧ to_Vec2i (99 / 2, 1 / 2) = (49, 0) ∧
    (sampled_coordinates small_image (to_Vec2i (1 / 2, 4 / 5)) (to_Vec2i (99 / 2, 1 / 2))
      49).map (fun l => (l.length, l.head?, l.all (fun p => decide (p.2 = 50)))) =
      some (49, some (0, 50), true) ∧
    ¬ ((50 : Int) < (small_image.height : Int)) := by
  refine ⟨?_, ?_, ?_, ?_, ?_, ?_⟩
  · unfold AlignedBox2.contains; decide!
  · unfold AlignedBox2.contains; decide!
  · decide!
  · decide!
  · decide!
  · decide

/-- With spacing 0 the loop test stays true: the scan-line loop never terminates. -/
theorem scan_line_positions_zero (max_y y : ℚ) (h : y < max_y) :
    ∀ fuel, scan_line_positions max_y 0 fuel y = none := by
  intro fuel
  induction fuel with
  | zero => simp [scan_line_positions, h]
  | succ n ih => simp [scan_line_positions, h, ih]

/-- With a spacing of at least 1 the scan-line loop terminates. -/
theorem scan_line_positions_terminates (max_y : ℚ) (dy : Nat) (hdy : 1 ≤ dy) :
    ∀ (fuel : Nat) (y : ℚ), ⌈max_y - y⌉.toNat ≤ fuel →
      ∃ ys, scan_line_positions max_y dy fuel y = some ys := by
  have hdq : (1 : ℚ) ≤ (dy : ℚ) := by exact_mod_cast hdy
  intro fuel
  induction fuel with
  | zero =>
    intro y h
    have h1 : ⌈max_y - y⌉ ≤ 0 := by omega
    rw [Int.ceil_le] at h1
    have h2 : ¬ y + (dy : ℚ) < max_y := by
      push_cast at h1; linarith
    exact ⟨[], by simp [scan_line_positions, h2]⟩
  | succ n ih =>
    intro y h
    by_cases h2 : y + (dy : ℚ) < max_y
    · have h3 : ⌈max_y - (y + (dy : ℚ))⌉.toNat ≤ n := by
        have h4 : ⌈max_y - (y + (dy : ℚ))⌉ ≤ ⌈max_y - y⌉ - 1 := by
          rw [Int.ceil_le]
          push_cast
          have := Int.le_ceil (max_y - y)
          linarith
        have h5 : 0 < ⌈max_y - y⌉ := by
          rw [Int.ceil_pos]; linarith
        omega
      obtain ⟨ys, hys⟩ := ih (y + (dy : ℚ)) h3
      exact ⟨y :: ys, by simp [scan_line_positions, h2, hys]⟩
    · exact ⟨[], by simp [scan_line_positions, h2]⟩

/-- C14 evaluated at a failing input: for a 50 by 50 image, tilt 0 and spacing 0 the
bounding box is `[0, 50] x [0, 50]`, the loop starts at `y = 0` and its test
`y + 0 < 50` stays true, so for no amount of fuel does the loop, or `scan`, return. -/
theorem C14_scan_spacing_zero_diverges (fuel : Nat) :
    scan_line_positions 50 0 fuel (0 + ((0 : Nat) : ℚ)) = none ∧
    FeaturePoints.fresh.scan linear_interpolate id id
      (centre_translation ⟨(0, 0), (50, 50)⟩) small_image 0 fuel = none := by
  have h := scan_line_positions_zero 50 (0 + ((0 : Nat) : ℚ)) (by norm_num) fuel
  refine ⟨h, ?_⟩
  have hb : (((((⟨(0, 0), (0, 0)⟩ : AlignedBox2).union_with_point
      (id (((small_image.width : ℚ)), ((small_image.height : ℚ))))).union_with_point
      (id ((small_image.width : ℚ), 0))).union_with_point
      (id (0, (small_image.height : ℚ)))) : AlignedBox2) = ⟨(0, 0), (50, 50)⟩ := by
    decide!
  unfold FeaturePoints.scan
  simp only [FeaturePoints.fresh, List.length_nil, ne_eq, not_true_eq_false, if_false]
  rw [hb]
  simp only [h, Option.none_bind]

/-- C16: if a scanner already holds at least one feature point, `scan` returns without
changing the scanner, for every image, tilt, spacing and amount of fuel: its feature points,
segments, bounding box and table are what they were. -/
theorem C16_rescan_is_noop (interp : ℚ → Vec2 → Vec2 → Vec2)
    (rotation rotation_inv table_transform : Vec2 → Vec2) (self : FeaturePoints)
    (source : Image) (dy : Nat) (fuel : Nat) (h : self.offsets ≠ []) :
    self.scan interp rotation rotation_inv table_transform source dy fuel = some self := by
  have hlen : self.offsets.length ≠ 0 := by
    intro h0
    exact h (List.length_eq_zero.mp h0)
  unfold FeaturePoints.scan
  rw [if_pos hlen]

/-- Witness of C16 on a scanner that holds the feature point (3, 4). -/
theorem C16_rescan_is_noop_witness :
    populated_scanner.offsets ≠ [] ∧
    populated_scanner.scan linear_interpolate id id id small_image 5 0 =
      some populated_scanner :=
  ⟨by decide!, C16_rescan_is_noop linear_interpolate id id id populated_scanner small_image 5 0
    (by decide!)⟩

/-! ### Scanning a vertical stripe -/

theorem laplacian_at_taps (s : Nat → ℚ) (k : Nat) (hk : 4 ≤ k) :
    laplacian_at s (k - 2) = 4 * s (k - 2) - s (k - 4) - s (k - 3) - s (k - 1) - s k := by
  have e1 : k - 2 - 2 = k - 4 := by omega
  have e2 : k - 2 - 1 = k - 3 := by omega
  have e3 : k - 2 + 1 = k - 1 := by omega
  have e4 : k - 2 + 2 = k := by omega
  simp only [laplacian_at, e1, e2, e3, e4]

theorem rounded_laplace_five (fl : ℚ → ℚ) (values : Nat → ℚ) (offset : Nat) :
    Rounded.laplace fl 5 values offset =
      fl (fl (fl (fl (fl (values ((2 + offset) % 5) * 4) +
        fl (values (((2 + offset) % 5 + 5 - 1) % 5) * (-1))) +
        fl (values (((2 + offset) % 5 + 5 + 1) % 5) * (-1))) +
        fl (values (((2 + offset) % 5 + 5 - 2) % 5) * (-1))) +
        fl (values (((2 + offset) % 5 + 5 + 2) % 5) * (-1))) := by
  simp [Rounded.laplace, List.range']

theorem rounded_laplace_window (fl : ℚ → ℚ) (inp : Nat → ℚ) (s : Nat → ℚ) (k : Nat)
    (hk : 4 ≤ k) (hw : ∀ j, j ≤ k → k < j + 5 → inp (j % 5) = s j) :
    Rounded.laplace fl 5 inp ((k - 4) % 5) = Rounded.laplacian_at fl s (k - 2) := by
  rw [rounded_laplace_five]
  have e0 : (2 + (k - 4) % 5) % 5 = (k - 2) % 5 := by omega
  have e1 : ((k - 2) % 5 + 5 - 1) % 5 = (k - 2 - 1) % 5 := by omega
  have e2 : ((k - 2) % 5 + 5 + 1) % 5 = (k - 2 + 1) % 5 := by omega
  have e3 : ((k - 2) % 5 + 5 - 2) % 5 = (k - 2 - 2) % 5 := by omega
  have e4 : ((k - 2) % 5 + 5 + 2) % 5 = (k - 2 + 2) % 5 := by omega
  rw [e0, e1, e2, e3, e4, hw (k - 2) (by omega) (by omega), hw (k - 2 - 1) (by omega) (by omega),
    hw (k - 2 + 1) (by omega) (by omega), hw (k - 2 - 2) (by omega) (by omega),
    hw (k - 2 + 2) (by omega) (by omega)]
  rfl

/-- One call of the rounded `sum` on an object whose slots hold the last samples: the new
sample is stored, the counter advances, and from the fifth sample on both outputs hold the
rounded Laplacian of the window centred two samples back, whatever the callback does. -/
theorem rounded_sum_window {σ : Type} (fl : ℚ → ℚ)
    (callback : LaplacianGradients → Nat → σ → σ) (s : Nat → ℚ)
    (g : LaplacianGradients) (st : σ) (k : Nat) (hk : g.k = k)
    (hin : ∀ j, j < k → k ≤ j + 5 → g.input (j % 5) = s j) :
    (Rounded.sum fl 5 g (s k) callback st).1.k = k + 1 ∧
      (∀ j, j < k + 1 → k + 1 ≤ j + 5 →
        (Rounded.sum fl 5 g (s k) callback st).1.input (j % 5) = s j) ∧
      (4 ≤ k →
        (Rounded.sum fl 5 g (s k) callback st).1.output1 = Rounded.laplacian_at fl s (k - 2) ∧
        (Rounded.sum fl 5 g (s k) callback st).1.output0 =
          Rounded.laplacian_at fl s (k - 2)) := by
  obtain ⟨inp, k', o0, o1⟩ := g
  simp only at hk hin
  subst hk
  have hW := window_store inp s k' hin
  by_cases h4 : 4 ≤ k'
  · have hlap := rounded_laplace_window fl (store inp (k' % 5) (s k')) s k' h4 hW
    have hge : k' ≥ 5 - 1 := h4
    have hs : (Rounded.sum fl 5 ⟨inp, k', o0, o1⟩ (s k') callback st).1 =
        ⟨store inp (k' % 5) (s k'), k' + 1, Rounded.laplacian_at fl s (k' - 2),
          Rounded.laplacian_at fl s (k' - 2)⟩ := by
      simp only [Rounded.sum, hge, if_true, hlap]
    rw [hs]
    exact ⟨rfl, fun j hj1 hj2 => hW j (by omega) (by omega), fun _ => ⟨rfl, rfl⟩⟩
  · have hge : ¬ k' ≥ 5 - 1 := by omega
    have hs : (Rounded.sum fl 5 ⟨inp, k', o0, o1⟩ (s k') callback st).1 =
        ⟨store inp (k' % 5) (s k'), k' + 1, o0, o1⟩ := by
      simp only [Rounded.sum, hge, if_false]
    rw [hs]
    exact ⟨rfl, fun j hj1 hj2 => hW j (by omega) (by omega), fun h => absurd h h4⟩

/-- After `k` samples the counter is `k` and the slots of the last five samples hold them. -/
theorem rounded_feed_window {σ : Type} (fl : ℚ → ℚ)
    (callback : Nat → LaplacianGradients → Nat → σ → σ)
    (s : Nat → ℚ) (g0 : LaplacianGradients) (init : σ) (hg0 : g0.k = 0) :
    ∀ k, (Rounded.feed fl callback s g0 init k).1.k = k ∧
      ∀ j, j < k → k ≤ j + 5 → (Rounded.feed fl callback s g0 init k).1.input (j % 5) = s j := by
  intro k
  induction k with
  | zero => exact ⟨hg0, fun j hj => absurd hj (Nat.not_lt_zero j)⟩
  | succ n ih =>
    obtain ⟨h1, h2, -⟩ := rounded_sum_window fl (callback n) s
      (Rounded.feed fl callback s g0 init n).1 (Rounded.feed fl callback s g0 init n).2 n
      ih.1 ih.2
    exact ⟨h1, h2⟩

/-- One sample step in terms of the sample sequence: the invariant is kept and the features
added are the candidates of the step. -/
theorem rounded_sample_step_spec (fl : ℚ → ℚ) (interp : ℚ → Vec2 → Vec2 → Vec2)
    (c : Nat → Vec2) (s : Nat → ℚ) (st : ScanState) (k : Nat)
    (h : Rounded.run_inv fl c s st k) :
    Rounded.run_inv fl c s (Rounded.sample_step fl interp st (c k) (s k)) (k + 1) ∧
      (Rounded.sample_step fl interp st (c k) (s k)).features =
        st.features ++ Rounded.candidate_at fl interp c s k := by
  obtain ⟨⟨inp, k', o0, o1⟩, offs, feats⟩ := st
  obtain ⟨hk, hin, hoff, hout⟩ := h
  simp only at hk hin hoff hout
  subst hk
  have hW := window_store inp s k' hin
  have hO := window_store offs c k' hoff
  by_cases h4 : 4 ≤ k'
  · have hlap := rounded_laplace_window fl (store inp (k' % 5) (s k')) s k' h4 hW
    have hvar := variance_window
      ⟨store inp (k' % 5) (s k'), k', o0, Rounded.laplacian_at fl s (k' - 2)⟩ s k' h4 hW
    have hge : k' ≥ 5 - 1 := h4
    by_cases h5 : 5 ≤ k'
    · have ho0 := hout h5
      subst ho0
      have hc2 := hO (k' - 2) (by omega) (by omega)
      have hc3 := hO (k' - 2 - 1) (by omega) (by omega)
      have e3 : k' - 2 - 1 = k' - 3 := by omega
      rw [e3] at hc3
      have hn5 : ¬ k' < 5 := by omega
      simp only [Rounded.sample_step, Rounded.sum, LaplacianGradients.index, hge, if_true,
        h5, ge_iff_le, hlap, Nat.reduceSub, Nat.reduceDiv]
      refine ⟨⟨rfl, fun j hj1 hj2 => hW j (by omega) (by omega),
        fun j hj1 hj2 => hO j (by omega) (by omega), fun _ => by simp⟩, ?_⟩
      simp only [Rounded.zero_crossing, LaplacianGradients.good_edge, hvar,
        Rounded.candidate_at, hn5, if_false, hc2, hc3, e3]
      by_cases hq : contrast_at s (k' - 2) < 600
      · have hq2 : ¬ contrast_at s (k' - 2) ≥ 600 := not_le.mpr hq
        simp only [hq, hq2, decide_False, if_true]
        split_ifs <;> simp
      · have hq2 : contrast_at s (k' - 2) ≥ 600 := not_lt.mp hq
        simp only [hq, hq2, decide_True, if_false, Bool.true_eq_false]
        split_ifs <;> simp
    · have hk4 : k' = 4 := by omega
      subst hk4
      simp only [Rounded.sample_step, Rounded.sum, LaplacianGradients.index, hge, if_true,
        h5, ge_iff_le, hlap, Nat.reduceSub, Nat.reduceDiv, if_false]
      refine ⟨⟨rfl, fun j hj1 hj2 => hW j (by omega) (by omega),
        fun j hj1 hj2 => hO j (by omega) (by omega), fun _ => by simp⟩, ?_⟩
      simp [Rounded.candidate_at]
  · have hge : ¬ k' ≥ 5 - 1 := by omega
    simp only [Rounded.sample_step, Rounded.sum, LaplacianGradients.index, hge, if_false]
    refine ⟨⟨rfl, fun j hj1 hj2 => hW j (by omega) (by omega),
      fun j hj1 hj2 => hO j (by omega) (by omega), fun h => by omega⟩, ?_⟩
    have hlt : k' < 5 := by omega
    simp [Rounded.candidate_at, hlt]

theorem rounded_run_inv_run (fl : ℚ → ℚ) (interp : ℚ → Vec2 → Vec2 → Vec2) (c : Nat → Vec2)
    (s : Nat → ℚ) (features : List Vec2) (k : Nat) :
    Rounded.run_inv fl c s (Rounded.run fl interp c s features k) k := by
  induction k with
  | zero =>
    exact ⟨rfl, fun j hj => absurd hj (Nat.not_lt_zero j),
      fun j hj => absurd hj (Nat.not_lt_zero j), fun h => absurd h (by decide)⟩
  | succ n ih => exact (rounded_sample_step_spec fl interp c s _ n ih).1

theorem rounded_run_features_succ (fl : ℚ → ℚ) (interp : ℚ → Vec2 → Vec2 → Vec2)
    (c : Nat → Vec2) (s : Nat → ℚ) (features : List Vec2) (k : Nat) :
    (Rounded.run fl interp c s features (k + 1)).features =
      (Rounded.run fl interp c s features k).features ++ Rounded.candidate_at fl interp c s k :=
  (rounded_sample_step_spec fl interp c s _ k (rounded_run_inv_run fl interp c s features k)).2

theorem rounded_detect_samples_of (fl : ℚ → ℚ) (interp : ℚ → Vec2 → Vec2 → Vec2)
    (c : Nat → Vec2) (s : Nat → ℚ) (features : List Vec2) (N : Nat) :
    (samples_of c s N).foldl (fun st x => Rounded.sample_step fl interp st x.1 x.2)
      (ScanState.init features) = Rounded.run fl interp c s features N := by
  induction N with
  | zero => rfl
  | succ n ih =>
    rw [samples_of, List.range_succ, List.map_append, List.foldl_append]
    rw [samples_of] at ih
    rw [ih]
    rfl

/-- When none of the nine operations of the kernel rounds, the rounded Laplacian is the
exact one. -/
theorem rounded_laplacian_exact (fl : ℚ → ℚ) (s : Nat → ℚ) (c : Nat)
    (hex : ∀ x ∈ Rounded.kernel_steps s c, fl x = x) :
    Rounded.laplacian_at fl s c = laplacian_at s c := by
  simp only [Rounded.kernel_steps, List.mem_cons, List.mem_singleton, forall_eq_or_imp,
    forall_eq] at hex
  obtain ⟨h1, h2, h3, h4, h5, h6, h7, h8, h9, -⟩ := hex
  simp only [Rounded.laplacian_at, h1, h2, h3, h4, h5, h6, h7, h8, h9, laplacian_at]
  ring

/-! ### The Laplacian kernel in rounded arithmetic -/

/-- C21 evaluated at a counterexample in binary32: five samples equal to the intensity of a
pixel of colour (5, 0, 0), the binary32 value nearest to 5/3, are fed to `sum`. The exact
kernel value `4*s[2] - s[0] - s[1] - s[3] - s[4]` is 0, but `output[1]` is `2^-22`: the
sum `4*s - s` is not a binary32 value and the roundings do not cancel. -/
theorem C21_laplacian_kernel_counterexample :
    dim_row 0 = 13981013 / 8388608 ∧
    4 * dim_row (4 - 2) - dim_row (4 - 4) - dim_row (4 - 3) - dim_row (4 - 1) - dim_row 4 = 0 ∧
    (Rounded.feed binary32 (fun _ _ _ (n : Nat) => n) dim_row garbage_gradients 0
      (4 + 1)).1.output1 = 1 / 4194304 :=
  ⟨by decide!, by decide!, by decide!⟩

/-- C21 (amended): with `H = 5`, for every `k ≥ 4`, after the sample `s k` (0-based) has been
fed to `LaplacianGradients::sum`, starting from an object with `k = 0` and arbitrary array
contents and whatever the callbacks do, `output[1]` is the sum `laplace` accumulates in
`RealT`: the rounded product `s (k-2) * 4`, to which the rounded negations of `s (k-3)`,
`s (k-1)`, `s (k-4)`, `s k` are added in this order with a rounding after every addition,
however far the circular buffer has wrapped; the same holds inside `features_along_line`.
When none of these nine operations rounds, the value is
`4 * s (k-2) - s (k-4) - s (k-3) - s (k-1) - s k`, and then it is 0 whenever the last five
samples are equal. The rounding `fl` is arbitrary. -/
theorem C21_laplacian_kernel_amended {σ : Type} (fl : ℚ → ℚ)
    (callback : Nat → LaplacianGradients → Nat → σ → σ)
    (interp : ℚ → Vec2 → Vec2 → Vec2) (c : Nat → Vec2) (s : Nat → ℚ)
    (g0 : LaplacianGradients) (init : σ) (features : List Vec2) (k : Nat)
    (hg0 : g0.k = 0) (hk : 4 ≤ k) :
    (Rounded.feed fl callback s g0 init (k + 1)).1.output1 =
      fl (fl (fl (fl (fl (s (k - 2) * 4) + fl (s (k - 3) * (-1))) + fl (s (k - 1) * (-1))) +
        fl (s (k - 4) * (-1))) + fl (s k * (-1))) ∧
    (Rounded.run fl interp c s features (k + 1)).gradients.output1 =
      fl (fl (fl (fl (fl (s (k - 2) * 4) + fl (s (k - 3) * (-1))) + fl (s (k - 1) * (-1))) +
        fl (s (k - 4) * (-1))) + fl (s k * (-1))) ∧
    ((∀ x ∈ Rounded.kernel_steps s (k - 2), fl x = x) →
      (Rounded.feed fl callback s g0 init (k + 1)).1.output1 =
        4 * s (k - 2) - s (k - 4) - s (k - 3) - s (k - 1) - s k ∧
      (Rounded.run fl interp c s features (k + 1)).gradients.output1 =
        4 * s (k - 2) - s (k - 4) - s (k - 3) - s (k - 1) - s k ∧
      (s (k - 4) = s k → s (k - 3) = s k → s (k - 2) = s k → s (k - 1) = s k →
        (Rounded.feed fl callback s g0 init (k + 1)).1.output1 = 0 ∧
          (Rounded.run fl interp c s features (k + 1)).gradients.output1 = 0)) := by
  obtain ⟨f1, f2⟩ := rounded_feed_window fl callback s g0 init hg0 k
  obtain ⟨-, -, f3⟩ := rounded_sum_window fl (callback k) s
    (Rounded.feed fl callback s g0 init k).1 (Rounded.feed fl callback s g0 init k).2 k f1 f2
  have hfeed : (Rounded.feed fl callback s g0 init (k + 1)).1.output1 =
      Rounded.laplacian_at fl s (k - 2) := (f3 hk).1
  obtain ⟨r1, r2, -, -⟩ := rounded_run_inv_run fl interp c s features k
  obtain ⟨-, -, r3⟩ := rounded_sum_window fl
    (Rounded.zero_crossing fl interp (store (Rounded.run fl interp c s features k).offsets
      ((Rounded.run fl interp c s features k).gradients.index 5) (c k))) s
    (Rounded.run fl interp c s features k).gradients
    (Rounded.run fl interp c s features k).features k r1 r2
  have hrun : (Rounded.run fl interp c s features (k + 1)).gradients.output1 =
      Rounded.laplacian_at fl s (k - 2) := (r3 hk).1
  have e1 : k - 2 - 2 = k - 4 := by omega
  have e2 : k - 2 - 1 = k - 3 := by omega
  have e3 : k - 2 + 1 = k - 1 := by omega
  have e4 : k - 2 + 2 = k := by omega
  have hform : Rounded.laplacian_at fl s (k - 2) =
      fl (fl (fl (fl (fl (s (k - 2) * 4) + fl (s (k - 3) * (-1))) + fl (s (k - 1) * (-1))) +
        fl (s (k - 4) * (-1))) + fl (s k * (-1))) := by
    simp only [Rounded.laplacian_at, e1, e2, e3, e4]
  refine ⟨hfeed.trans hform, hrun.trans hform, ?_⟩
  intro hex
  have hexact := rounded_laplacian_exact fl s (k - 2) hex
  rw [hfeed, hrun, hexact, laplacian_at_taps s k hk]
  refine ⟨rfl, rfl, ?_⟩
  intro h1 h2 h3 h4
  rw [h1, h2, h3, h4]
  constructor <;> ring

/-- Witness of C21 (amended) in binary32: ten samples `j * j` fed to an object with arbitrary
array contents, the callbacks counting their invocations; the circular buffer has wrapped
once and no operation of the kernel rounds. -/
theorem C21_laplacian_kernel_amended_witness :
    garbage_gradients.k = 0 ∧ 4 ≤ 9 ∧
    (∀ x ∈ Rounded.kernel_steps (fun j : Nat => ((j * j : Nat) : ℚ)) (9 - 2), binary32 x = x) ∧
    ((Rounded.feed binary32 (fun _ _ _ (n : Nat) => n + 1) (fun j => ((j * j : Nat) : ℚ))
        garbage_gradients 0 (9 + 1)).1.output1 =
      binary32 (binary32 (binary32 (binary32 (binary32
        ((fun j : Nat => ((j * j : Nat) : ℚ)) (9 - 2) * 4) +
        binary32 ((fun j : Nat => ((j * j : Nat) : ℚ)) (9 - 3) * (-1))) +
        binary32 ((fun j : Nat => ((j * j : Nat) : ℚ)) (9 - 1) * (-1))) +
        binary32 ((fun j : Nat => ((j * j : Nat) : ℚ)) (9 - 4) * (-1))) +
        binary32 ((fun j : Nat => ((j * j : Nat) : ℚ)) 9 * (-1))) ∧
    (Rounded.run binary32 linear_interpolate (fun j => ((j : ℚ), 7))
        (fun j => ((j * j : Nat) : ℚ)) [] (9 + 1)).gradients.output1 =
      binary32 (binary32 (binary32 (binary32 (binary32
        ((fun j : Nat => ((j * j : Nat) : ℚ)) (9 - 2) * 4) +
        binary32 ((fun j : Nat => ((j * j : Nat) : ℚ)) (9 - 3) * (-1))) +
        binary32 ((fun j : Nat => ((j * j : Nat) : ℚ)) (9 - 1) * (-1))) +
        binary32 ((fun j : Nat => ((j * j : Nat) : ℚ)) (9 - 4) * (-1))) +
        binary32 ((fun j : Nat => ((j * j : Nat) : ℚ)) 9 * (-1))) ∧
    ((∀ x ∈ Rounded.kernel_steps (fun j : Nat => ((j * j : Nat) : ℚ)) (9 - 2),
        binary32 x = x) →
      (Rounded.feed binary32 (fun _ _ _ (n : Nat) => n + 1) (fun j => ((j * j : Nat) : ℚ))
          garbage_gradients 0 (9 + 1)).1.output1 =
        4 * (fun j : Nat => ((j * j : Nat) : ℚ)) (9 - 2) -
          (fun j : Nat => ((j * j : Nat) : ℚ)) (9 - 4) -
          (fun j : Nat => ((j * j : Nat) : ℚ)) (9 - 3) -
          (fun j : Nat => ((j * j : Nat) : ℚ)) (9 - 1) -
          (fun j : Nat => ((j * j : Nat) : ℚ)) 9 ∧
      (Rounded.run binary32 linear_interpolate (fun j => ((j : ℚ), 7))
          (fun j => ((j * j : Nat) : ℚ)) [] (9 + 1)).gradients.output1 =
        4 * (fun j : Nat => ((j * j : Nat) : ℚ)) (9 - 2) -
          (fun j : Nat => ((j * j : Nat) : ℚ)) (9 - 4) -
          (fun j : Nat => ((j * j : Nat) : ℚ)) (9 - 3) -
          (fun j : Nat => ((j * j : Nat) : ℚ)) (9 - 1) -
          (fun j : Nat => ((j * j : Nat) : ℚ)) 9 ∧
      ((fun j : Nat => ((j * j : Nat) : ℚ)) (9 - 4) = (fun j : Nat => ((j * j : Nat) : ℚ)) 9 →
        (fun j : Nat => ((j * j : Nat) : ℚ)) (9 - 3) = (fun j : Nat => ((j * j : Nat) : ℚ)) 9 →
        (fun j : Nat => ((j * j : Nat) : ℚ)) (9 - 2) = (fun j : Nat => ((j * j : Nat) : ℚ)) 9 →
        (fun j : Nat => ((j * j : Nat) : ℚ)) (9 - 1) = (fun j : Nat => ((j * j : Nat) : ℚ)) 9 →
        (Rounded.feed binary32 (fun _ _ _ (n : Nat) => n + 1) (fun j => ((j * j : Nat) : ℚ))
            garbage_gradients 0 (9 + 1)).1.output1 = 0 ∧
          (Rounded.run binary32 linear_interpolate (fun j => ((j : ℚ), 7))
            (fun j => ((j * j : Nat) : ℚ)) [] (9 + 1)).gradients.output1 = 0))) :=
  ⟨rfl, by decide, by decide!,
    C21_laplacian_kernel_amended binary32 (fun _ _ _ (n : Nat) => n + 1) linear_interpolate
      (fun j => ((j : ℚ), 7)) (fun j => ((j * j : Nat) : ℚ)) garbage_gradients 0 [] 9 rfl
      (by decide)⟩

/-! ### The zero-crossing test in rounded arithmetic -/

theorem exact_grid_apply (fl : ℚ → ℚ) (lo hi : ℚ) (h : Rounded.exact_grid fl lo hi)
    (i j : Int) (hi1 : -4 ≤ i) (hi2 : i ≤ 4) (hj1 : -4 ≤ j) (hj2 : j ≤ 4) (x : ℚ)
    (hx : x = (i : ℚ) * lo + (j : ℚ) * hi) : fl x = x := by
  have h1 := h (i + 4).toNat (by rw [List.mem_range]; omega) (j + 4).toNat
    (by rw [List.mem_range]; omega)
  have e1 : (((i + 4).toNat : Nat) : ℚ) - 4 = (i : ℚ) := by
    have : (((i + 4).toNat : Nat) : Int) = i + 4 := Int.toNat_of_nonneg (by omega)
    have h2 : (((i + 4).toNat : Nat) : ℚ) = ((i + 4 : Int) : ℚ) :=
      (Int.cast_natCast (i + 4).toNat).symm.trans (congrArg Int.cast this)
    rw [h2]; push_cast; ring
  have e2 : (((j + 4).toNat : Nat) : ℚ) - 4 = (j : ℚ) := by
    have : (((j + 4).toNat : Nat) : Int) = j + 4 := Int.toNat_of_nonneg (by omega)
    have h2 : (((j + 4).toNat : Nat) : ℚ) = ((j + 4 : Int) : ℚ) :=
      (Int.cast_natCast (j + 4).toNat).symm.trans (congrArg Int.cast this)
    rw [h2]; push_cast; ring
  rw [e1, e2] at h1
  rw [hx]
  exact h1

theorem two_valued_weight (lo hi v : ℚ) (h : v = lo ∨ v = hi) :
    ∃ e : Int, 0 ≤ e ∧ e ≤ 1 ∧ v = (1 - (e : ℚ)) * lo + (e : ℚ) * hi := by
  rcases h with h | h
  · exact ⟨0, by decide, by decide, by rw [h]; push_cast; ring⟩
  · exact ⟨1, by decide, by decide, by rw [h]; push_cast; ring⟩

/-- On samples that take two values whose kernel arithmetic does not round, the rounded
Laplacian is the exact one. -/
theorem rounded_laplacian_two_valued (fl : ℚ → ℚ) (lo hi : ℚ) (s : Nat → ℚ)
    (hs : ∀ j, s j = lo ∨ s j = hi) (h : Rounded.exact_grid fl lo hi) (c : Nat) :
    Rounded.laplacian_at fl s c = laplacian_at s c := by
  obtain ⟨e0, a0, b0, h0⟩ := two_valued_weight lo hi (s c) (hs c)
  obtain ⟨e1, a1, b1, h1⟩ := two_valued_weight lo hi (s (c - 1)) (hs (c - 1))
  obtain ⟨e2, a2, b2, h2⟩ := two_valued_weight lo hi (s (c + 1)) (hs (c + 1))
  obtain ⟨e3, a3, b3, h3⟩ := two_valued_weight lo hi (s (c - 2)) (hs (c - 2))
  obtain ⟨e4, a4, b4, h4⟩ := two_valued_weight lo hi (s (c + 2)) (hs (c + 2))
  apply rounded_laplacian_exact
  intro x hx
  simp only [Rounded.kernel_steps, List.mem_cons, List.mem_singleton, List.not_mem_nil,
    or_false] at hx
  rcases hx with hx | hx | hx | hx | hx | hx | hx | hx | hx
  · exact exact_grid_apply fl lo hi h (4 - 4 * e0) (4 * e0) (by omega) (by omega) (by omega)
      (by omega) x (by rw [hx, h0]; push_cast; ring)
  · exact exact_grid_apply fl lo hi h (e1 - 1) (-e1) (by omega) (by omega) (by omega)
      (by omega) x (by rw [hx, h1]; push_cast; ring)
  · exact exact_grid_apply fl lo hi h (4 - 4 * e0 + (e1 - 1)) (4 * e0 - e1) (by omega)
      (by omega) (by omega) (by omega) x (by rw [hx, h0, h1]; push_cast; ring)
  · exact exact_grid_apply fl lo hi h (e2 - 1) (-e2) (by omega) (by omega) (by omega)
      (by omega) x (by rw [hx, h2]; push_cast; ring)
  · exact exact_grid_apply fl lo hi h (4 - 4 * e0 + (e1 - 1) + (e2 - 1)) (4 * e0 - e1 - e2)
      (by omega) (by omega) (by omega) (by omega) x (by rw [hx, h0, h1, h2]; push_cast; ring)
  · exact exact_grid_apply fl lo hi h (e3 - 1) (-e3) (by omega) (by omega) (by omega)
      (by omega) x (by rw [hx, h3]; push_cast; ring)
  · exact exact_grid_apply fl lo hi h (4 - 4 * e0 + (e1 - 1) + (e2 - 1) + (e3 - 1))
      (4 * e0 - e1 - e2 - e3) (by omega) (by omega) (by omega) (by omega) x
      (by rw [hx, h0, h1, h2, h3]; push_cast; ring)
  · exact exact_grid_apply fl lo hi h (e4 - 1) (-e4) (by omega) (by omega) (by omega)
      (by omega) x (by rw [hx, h4]; push_cast; ring)
  · exact exact_grid_apply fl lo hi h (4 - 4 * e0 + (e1 - 1) + (e2 - 1) + (e3 - 1) + (e4 - 1))
      (4 * e0 - e1 - e2 - e3 - e4) (by omega) (by omega) (by omega) (by omega) x
      (by rw [hx, h0, h1, h2, h3, h4]; push_cast; ring)

/-- When the rounded Laplacians are the exact ones, the rounded detector reports what the
exact detector reports, except that the interpolation fraction is the rounded quotient. -/
theorem rounded_candidate_eq (fl : ℚ → ℚ) (interp : ℚ → Vec2 → Vec2 → Vec2) (c : Nat → Vec2)
    (s : Nat → ℚ) (k : Nat)
    (hlap : ∀ x, Rounded.laplacian_at fl s x = laplacian_at s x) :
    Rounded.candidate_at fl interp c s k =
      candidate_at (fun _ p q =>
        interp (Rounded.midpoint fl (laplacian_at s (k - 3)) (laplacian_at s (k - 2))) p q)
        c s k := by
  simp only [Rounded.candidate_at, candidate_at, hlap]

/-- Candidates of a step edge in rounded arithmetic, when the kernel arithmetic on the two
values and the fraction 1/2 do not round. -/
theorem rounded_candidate_step_edge (fl : ℚ → ℚ) (interp : ℚ → Vec2 → Vec2 → Vec2)
    (c : Nat → Vec2) (n : Nat) (lo hi : ℚ) (hn : 3 ≤ n) (hc : (hi - lo) ^ 2 ≥ 600)
    (hgrid : Rounded.exact_grid fl lo hi) (hhalf : fl (1 / 2) = 1 / 2) (k : Nat) :
    Rounded.candidate_at fl interp c (step_edge n lo hi) k =
      if k = n + 2 then [interp (1 / 2) (c (n - 1)) (c n)] else [] := by
  have hs : ∀ j, step_edge n lo hi j = lo ∨ step_edge n lo hi j = hi := by
    intro j
    unfold step_edge
    split_ifs
    · exact Or.inl rfl
    · exact Or.inr rfl
  have hlap := rounded_laplacian_two_valued fl lo hi (step_edge n lo hi) hs hgrid
  rw [rounded_candidate_eq fl interp c _ k hlap, candidate_step_edge _ c n lo hi hn hc k]
  by_cases hk : k = n + 2
  · subst hk
    have hn1 : 1 ≤ n := by omega
    have hd : hi - lo ≠ 0 := by
      intro h
      rw [h] at hc
      norm_num at hc
    have ha : laplacian_at (step_edge n lo hi) (n + 2 - 3) = 2 * (lo - hi) := by
      rw [laplacian_step_edge n lo hi hn1]; split_ifs <;> first | rfl | (exfalso; omega)
    have hb : laplacian_at (step_edge n lo hi) (n + 2 - 2) = 2 * (hi - lo) := by
      rw [laplacian_step_edge n lo hi hn1]; split_ifs <;> first | rfl | (exfalso; omega)
    have g1 : fl (-(2 * (lo - hi))) = -(2 * (lo - hi)) :=
      exact_grid_apply fl lo hi hgrid (-2) 2 (by decide) (by decide) (by decide) (by decide) _
        (by push_cast; ring)
    have g2 : fl (2 * (hi - lo) - 2 * (lo - hi)) = 2 * (hi - lo) - 2 * (lo - hi) :=
      exact_grid_apply fl lo hi hgrid (-4) 4 (by decide) (by decide) (by decide) (by decide) _
        (by push_cast; ring)
    have g3 : -(2 * (lo - hi)) / (2 * (hi - lo) - 2 * (lo - hi)) = 1 / 2 := by
      rw [div_eq_iff (by intro h; apply hd; linarith)]
      ring
    have hm : Rounded.midpoint fl (2 * (lo - hi)) (2 * (hi - lo)) = 1 / 2 := by
      unfold Rounded.midpoint
      rw [g1, g2, g3, hhalf]
    simp only [if_true, ha, hb, hm]
  · simp only [hk, if_false]

theorem rounded_run_step_edge_features (fl : ℚ → ℚ) (interp : ℚ → Vec2 → Vec2 → Vec2)
    (c : Nat → Vec2) (n : Nat) (lo hi : ℚ) (hn : 3 ≤ n) (hc : (hi - lo) ^ 2 ≥ 600)
    (hgrid : Rounded.exact_grid fl lo hi) (hhalf : fl (1 / 2) = 1 / 2) (k : Nat) :
    (Rounded.run fl interp c (step_edge n lo hi) [] k).features =
      if k ≤ n + 2 then [] else [interp (1 / 2) (c (n - 1)) (c n)] := by
  induction k with
  | zero => simp [Rounded.run, ScanState.init]
  | succ k ih =>
    rw [rounded_run_features_succ, ih,
      rounded_candidate_step_edge fl interp c n lo hi hn hc hgrid hhalf k]
    by_cases h1 : k = n + 2
    · subst h1; simp
    · by_cases h2 : k ≤ n + 2
      · have h3 : k + 1 ≤ n + 2 := by omega
        simp [h1, h2, h3]
      · have h3 : ¬ k + 1 ≤ n + 2 := by omega
        simp [h1, h2, h3]

/-- C5 evaluated at a counterexample in binary32: five samples of the intensity of a pixel
of colour (5, 0, 0) followed by five samples of the intensity of a pixel of colour
(152, 0, 0), along row 7. The squared difference of the two intensities is above 2400, but
the detector reports two feature points: the sum that `laplace` accumulates for the window
of the five equal samples 0 to 4 is `2^-22`, not 0, and the next one is -49, a sign change
inside the flat run, which gives a feature between the samples 2 and 3; and the feature at
the step, between the samples 4 and 5, has the fraction `8388609 / 2^24`, which is not
1/2. -/
theorem C5_step_edge_counterexample :
    3 ≤ 5 ∧
    (Rounded.intensity binary32 (152, 0, 0) - Rounded.intensity binary32 (5, 0, 0)) ^ 2 ≥ 600 ∧
    (samples_of (fun j => ((j : ℚ), 7)) dim_step (5 + 5)).map Prod.snd =
      List.replicate 5 (Rounded.intensity binary32 (5, 0, 0)) ++
        List.replicate 5 (Rounded.intensity binary32 (152, 0, 0)) ∧
    (Rounded.detect binary32 linear_interpolate
      (samples_of (fun j => ((j : ℚ), 7)) dim_step (5 + 5)) []).length = 2 ∧
    (Rounded.run binary32 linear_interpolate (fun j => ((j : ℚ), 7)) dim_step []
      5).gradients.output0 = 1 / 4194304 ∧
    (Rounded.run binary32 linear_interpolate (fun j => ((j : ℚ), 7)) dim_step []
      5).gradients.output1 = 1 / 4194304 ∧
    (Rounded.run binary32 linear_interpolate (fun j => ((j : ℚ), 7)) dim_step []
      (5 + 1)).gradients.output1 = -49 ∧
    ((Rounded.run binary32 linear_interpolate (fun j => ((j : ℚ), 7)) dim_step []
      (5 + 1)).features).length = 1 ∧
    (Rounded.run binary32 linear_interpolate (fun j => ((j : ℚ), 7)) dim_step []
      7).gradients.output0 = -98 ∧
    (Rounded.run binary32 linear_interpolate (fun j => ((j : ℚ), 7)) dim_step []
      (7 + 1)).gradients.output1 = 6422527 / 65536 ∧
    Rounded.midpoint binary32 (-98) (6422527 / 65536) = 8388609 / 16777216 ∧
    (8388609 : ℚ) / 16777216 ≠ 1 / 2 :=
  ⟨by decide, by decide!, by decide!, by decide!, by decide!, by decide!, by decide!,
    by decide!, by decide!, by decide!, by decide!, by decide!⟩

/-- C5 (amended): with H = 5, feeding the edge detector `n ≥ 3` samples of value `lo`
followed by `m ≥ 3` samples of value `hi`, where `(hi - lo)^2 ≥ 600` and the `RealT`
arithmetic on the two values does not round (every `i * lo + j * hi` with integers
`-4 ≤ i, j ≤ 4` and the fraction 1/2 are values of the rounding, as for integer samples such
as 50 and 200 in binary32), at arbitrary coordinates `c 0`, `c 1`, ... yields exactly one
feature point: the interpolation with fraction `1/2` between the coordinate of the last `lo`
sample and the coordinate of the first `hi` sample. -/
theorem C5_step_edge_amended (fl : ℚ → ℚ) (interp : ℚ → Vec2 → Vec2 → Vec2)
    (c : Nat → Vec2) (n m : Nat) (lo hi : ℚ) (hn : 3 ≤ n) (hm : 3 ≤ m)
    (hc : (hi - lo) ^ 2 ≥ 600) (hgrid : Rounded.exact_grid fl lo hi)
    (hhalf : fl (1 / 2) = 1 / 2) :
    (samples_of c (step_edge n lo hi) (n + m)).map Prod.snd =
        List.replicate n lo ++ List.replicate m hi ∧
      Rounded.detect fl interp (samples_of c (step_edge n lo hi) (n + m)) [] =
        [interp (1 / 2) (c (n - 1)) (c n)] := by
  refine ⟨step_edge_values c n m lo hi, ?_⟩
  rw [Rounded.detect, rounded_detect_samples_of,
    rounded_run_step_edge_features fl interp c n lo hi hn hc hgrid hhalf]
  have h : ¬ n + m ≤ n + 2 := by omega
  rw [if_neg h]

/-- Witness of C5 (amended) in binary32: 20 samples of 50 then 20 samples of 200 along the
row `y = 7`. -/
theorem C5_step_edge_amended_witness :
    3 ≤ 20 ∧ 3 ≤ 20 ∧ ((200 : ℚ) - 50) ^ 2 ≥ 600 ∧ Rounded.exact_grid binary32 50 200 ∧
    binary32 (1 / 2) = 1 / 2 ∧
    ((samples_of (fun j => ((j : ℚ), 7)) (step_edge 20 50 200) (20 + 20)).map Prod.snd =
        List.replicate 20 50 ++ List.replicate 20 200 ∧
      Rounded.detect binary32 linear_interpolate
          (samples_of (fun j => ((j : ℚ), 7)) (step_edge 20 50 200) (20 + 20)) [] =
        [linear_interpolate (1 / 2) ((fun j : Nat => ((j : ℚ), (7 : ℚ))) (20 - 1))
          ((fun j : Nat => ((j : ℚ), (7 : ℚ))) 20)]) :=
  ⟨by decide, by decide, by norm_num, by unfold Rounded.exact_grid; decide!, by decide!,
    C5_step_edge_amended binary32 linear_interpolate (fun j => ((j : ℚ), 7)) 20 20 50 200
      (by decide) (by decide) (by norm_num) (by unfold Rounded.exact_grid; decide!)
      (by decide!)⟩

/-! ## The feature table in rounded arithmetic -/

end TransformFlow
